import Mathlib

/-!
# Win64 unwind codes (modules/objfmts/win64/UnwindCode.cpp)

A shallow embedding of `UnwindCode::calc_len`, `UnwindCode::expand` and
`UnwindCode::output`.  The mutable members `m_opcode` and `m_info` are passed
explicitly; every function returns the members as the call leaves them, also
when the call ends in an exception, because the C++ code mutates the members
before it throws.
-/

namespace yasm
namespace objfmt
namespace win64

/-- Enumerators of `UnwindCode::Opcode`. -/
inductive Opcode where
  | PUSH_NONVOL
  | ALLOC_LARGE
  | ALLOC_SMALL
  | SET_FPREG
  | SAVE_NONVOL
  | SAVE_NONVOL_FAR
  | SAVE_XMM128
  | SAVE_XMM128_FAR
  | PUSH_MACHFRAME
  deriving DecidableEq, Repr

/-- The exceptions the three member functions throw (all are `ValueError`, told
apart by their message) and a failed `assert`. -/
inductive Err where
  /-- ValueError "negative offset not allowed". -/
  | negative_offset
  /-- ValueError "offset of %1 is not a multiple of %2". -/
  | not_multiple (v : Int) (m : Int)
  /-- ValueError "offset expression too complex". -/
  | too_complex
  /-- ValueError "offset of %1 bytes, must be between %2 and %3". -/
  | out_of_range (v : Int) (low high : Int)
  /-- An `assert` whose condition is false, in a build that checks it. -/
  | assertion
  deriving DecidableEq, Repr

/-- How a call ends: it returns a value or it raises. -/
inductive Outcome (α : Type) where
  | returned (a : α)
  | raised (e : Err)
  deriving DecidableEq, Repr

/-- The mutable members of an `UnwindCode`: `m_opcode` and `m_info`
(`unsigned int`). -/
structure UnwindCode where
  m_opcode : Opcode
  m_info : Nat
  deriving DecidableEq, Repr

/-- One call of `add_span(bc, id, m_off, neg_thres, pos_thres)`; the value is
always `m_off`. -/
structure Span where
  id : Int
  neg_thres : Int
  pos_thres : Int
  deriving DecidableEq, Repr

/-- What the translated file uses but does not define: the numeric values of
the `Opcode` enumerators (UnwindCode.h) and `IntNum::get_uint`. -/
structure Externs where
  opval : Opcode → Nat
  get_uint : Int → Nat

/-- One instance of `Externs`, used to evaluate the definitions on concrete
inputs: the enumerators with the values of the Win64 unwind operation codes
(UWOP_PUSH_NONVOL = 0 up to UWOP_PUSH_MACHFRAME = 10) and a `get_uint` that
returns 0 for a negative number and saturates at `ULONG_MAX`. -/
def win64Externs : Externs where
  opval := fun o =>
    match o with
    | .PUSH_NONVOL => 0
    | .ALLOC_LARGE => 1
    | .ALLOC_SMALL => 2
    | .SET_FPREG => 3
    | .SAVE_NONVOL => 4
    | .SAVE_NONVOL_FAR => 5
    | .SAVE_XMM128 => 8
    | .SAVE_XMM128_FAR => 9
    | .PUSH_MACHFRAME => 10
  get_uint := fun n => if n < 0 then 0 else min n.toNat (2 ^ 64 - 1)

/-- Modulus of `unsigned long` arithmetic (LP64). -/
def ULONG_MOD : Nat := 2 ^ 64

/-- Modulus of `unsigned int` arithmetic. -/
def UINT_MOD : Nat := 2 ^ 32

/-- State after `UnwindCode::expand`: the members, the bytecode length `len`
(passed by reference), the two threshold out-parameters and the result. -/
structure ExpandResult where
  uw : UnwindCode
  len : Nat
  neg_thres : Int
  pos_thres : Int
  ret : Outcome Bool
  deriving DecidableEq, Repr

/-- `UnwindCode::expand`.  `ndebug` tells whether `assert` is compiled out.
`neg_thres` and `pos_thres` are the values the out-parameters hold on entry. -/
def expand (ndebug : Bool) (uw : UnwindCode) (len : Nat) (span : Int)
    (_old_val new_val : Int) (neg_thres pos_thres : Int) : ExpandResult :=
  if new_val < 0 then
    ⟨uw, len, neg_thres, pos_thres, .raised .negative_offset⟩
  else if span = 1 then
    -- 3 stages: SMALL, LARGE and info=0, LARGE and info=1
    if ndebug = false ∧ ¬ (uw.m_opcode ≠ .ALLOC_LARGE ∨ uw.m_info ≠ 1) then
      ⟨uw, len, neg_thres, pos_thres, .raised .assertion⟩
    else
      -- overflowed small size
      let grow : Bool := decide (uw.m_opcode = .ALLOC_SMALL ∧ new_val > 128)
      let op1 : Opcode := if grow then .ALLOC_LARGE else uw.m_opcode
      let len1 : Nat := if grow then (len + 2) % ULONG_MOD else len
      if new_val ≤ 8*64*1024-8 then
        -- still can grow one more size
        ⟨⟨op1, uw.m_info⟩, len1, neg_thres, 8*64*1024-8, .returned true⟩
      else
        -- into the largest size
        ⟨⟨op1, 1⟩, (len1 + 2) % ULONG_MOD, neg_thres, pos_thres, .returned false⟩
  else if uw.m_opcode = .SAVE_NONVOL ∧ span = 2 then
    ⟨⟨.SAVE_NONVOL_FAR, uw.m_info⟩, (len + 2) % ULONG_MOD, neg_thres, pos_thres,
      .returned false⟩
  else if uw.m_opcode = .SAVE_XMM128 ∧ span = 3 then
    ⟨⟨.SAVE_XMM128_FAR, uw.m_info⟩, (len + 2) % ULONG_MOD, neg_thres, pos_thres,
      .returned false⟩
  else
    ⟨uw, len, neg_thres, pos_thres, .returned false⟩

/-- State after `UnwindCode::calc_len`: the members, the `add_span` calls made
(in order) and the length returned, or the exception raised. -/
structure CalcLenResult where
  uw : UnwindCode
  spans : List Span
  ret : Outcome Nat
  deriving DecidableEq, Repr

/-- The part of `calc_len` after the `switch`.  `off` is the outcome of
`m_off.get_intnum(&intn, false)`: `none` when it returns false, `some intv`
with `intv = intn.get_int()` (a `long`) when it returns true.  For a mask
`2^k - 1` the test `(intv & mask) != 0` on a two's complement `long` is
`intv mod 2^k ≠ 0`. -/
def calc_len_tail (ndebug : Bool) (uw : UnwindCode) (len : Nat) (span : Int)
    (low high mask : Int) (off : Option Int) : CalcLenResult :=
  match off with
  | none => ⟨uw, [⟨span, low, high⟩], .returned len⟩
  | some intv =>
    -- expand it ourselves here if we can and we are already larger
    let r : ExpandResult :=
      if intv > high then expand ndebug uw len span intv intv low high
      else ⟨uw, len, low, high, .returned false⟩
    match r.ret with
    | .raised e => ⟨r.uw, [], .raised e⟩
    | .returned dep =>
      let spans : List Span :=
        if dep then [⟨span, r.neg_thres, r.pos_thres⟩] else []
      if intv < r.neg_thres then ⟨r.uw, spans, .raised .negative_offset⟩
      else if intv % (mask + 1) ≠ 0 then
        ⟨r.uw, spans, .raised (.not_multiple intv (mask + 1))⟩
      else ⟨r.uw, spans, .returned r.len⟩

/-- `UnwindCode::calc_len`.  The local `len` starts at 0 and is returned. -/
def calc_len (ndebug : Bool) (uw : UnwindCode) (off : Option Int) :
    CalcLenResult :=
  match uw.m_opcode with
  | .PUSH_NONVOL | .SET_FPREG | .PUSH_MACHFRAME =>
    -- always 1 node
    ⟨uw, [], .returned 1⟩
  | .ALLOC_SMALL | .ALLOC_LARGE =>
    calc_len_tail ndebug ⟨.ALLOC_SMALL, 0⟩ 1 1 8 128 0x7 off
  | .SAVE_NONVOL | .SAVE_NONVOL_FAR =>
    calc_len_tail ndebug ⟨.SAVE_NONVOL, uw.m_info⟩ (1 + 2) 2 0 (8*64*1024-8) 0x7
      off
  | .SAVE_XMM128 | .SAVE_XMM128_FAR =>
    calc_len_tail ndebug ⟨.SAVE_XMM128, uw.m_info⟩ (1 + 2) 3 0 (16*64*1024-16)
      0xF off

/-- `write_8(bytes, val)`: appends the low 8 bits of `val`. -/
def write_8 (bytes : List Nat) (val : Nat) : List Nat :=
  bytes ++ [val % 256]

/-- `write_16(bytes, intn)` on a little-endian buffer: appends the low 16 bits
of `intn`, low byte first. -/
def write_16 (bytes : List Nat) (intn : Int) : List Nat :=
  bytes ++ [(intn % 256).toNat, (intn / 256 % 256).toNat]

/-- `write_32(bytes, intn)` on a little-endian buffer: appends the low 32 bits
of `intn`, low byte first. -/
def write_32 (bytes : List Nat) (intn : Int) : List Nat :=
  bytes ++ [(intn % 256).toNat, (intn / 256 % 256).toNat,
    (intn / 65536 % 256).toNat, (intn / 16777216 % 256).toNat]

/-- The value `(m_info << 4) | (m_opcode & 0xF)`, in `unsigned int`. -/
def code_and_info (X : Externs) (uw : UnwindCode) : Nat :=
  ((uw.m_info <<< 4) % UINT_MOD) ||| (X.opval uw.m_opcode &&& 0xF)

/-- State after `UnwindCode::output`: the members, the scratch buffer, the
argument of `bc_out.output` when that call was made, and how the call ended. -/
structure OutputResult where
  uw : UnwindCode
  scratch : List Nat
  emitted : Option (List Nat)
  ret : Outcome Unit
  deriving DecidableEq, Repr

/-- The statement `if (size == 0) m_info = intn.get_uint()-1;` of `output`:
the subtraction is in `unsigned long`, the store converts to `unsigned int`.
`intn` is the offset after the shift. -/
def store_info (X : Externs) (uw : UnwindCode) (size : Nat) (intn : Int) :
    UnwindCode :=
  if size = 0 then
    ⟨uw.m_opcode, (X.get_uint intn + ULONG_MOD - 1) % ULONG_MOD % UINT_MOD⟩
  else uw

/-- The bytes `output` writes to the scratch buffer after its checks: the
opcode and info byte, then the shifted offset in `size` bytes. -/
def output_bytes (X : Externs) (uw : UnwindCode) (size : Nat) (intn : Int) :
    List Nat :=
  let b0 := write_8 [] (code_and_info X uw)
  if size = 2 then write_16 b0 intn
  else if size = 4 then write_32 b0 intn
  else b0

/-- The part of `output` after the `switch`.  `off` is the outcome of
`m_off.get_intnum(&intn, true)`.  The scratch buffer starts out empty. -/
def output_tail (X : Externs) (uw : UnwindCode) (size : Nat) (shift : Nat)
    (low high : Int) (mask : Nat) (off : Option Int) : OutputResult :=
  match off with
  | none => ⟨uw, [], none, .raised .too_complex⟩
  | some intn =>
    -- check for overflow
    if size ≠ 4 ∧ ¬ (low ≤ intn ∧ intn ≤ high) then
      ⟨uw, [], none, .raised (.out_of_range intn low high)⟩
    else if X.get_uint intn &&& mask ≠ 0 then
      ⟨uw, [], none, .raised (.not_multiple intn (mask + 1))⟩
    else
      -- stored value in info instead of extra code space
      let uw1 := store_info X uw size (intn >>> shift)
      -- opcode and info, then the offset
      let bytes := output_bytes X uw1 size (intn >>> shift)
      ⟨uw1, bytes, some bytes, .returned ()⟩

/-- `UnwindCode::output`. -/
def output (X : Externs) (uw : UnwindCode) (off : Option Int) : OutputResult :=
  match uw.m_opcode with
  | .PUSH_NONVOL | .SET_FPREG | .PUSH_MACHFRAME =>
    -- just 1 node, no offset; the byte goes to the scratch buffer and the
    -- function returns
    ⟨uw, write_8 [] (code_and_info X uw), none, .returned ()⟩
  | .ALLOC_SMALL => output_tail X uw 0 3 8 128 0x7 off
  | .ALLOC_LARGE =>
    if uw.m_info = 0 then output_tail X uw 2 3 136 (8*64*1024-8) 0x7 off
    else output_tail X uw 4 0 0 0 0x7 off
  | .SAVE_NONVOL => output_tail X uw 2 3 0 (8*64*1024-8) 0x7 off
  | .SAVE_XMM128 => output_tail X uw 2 4 0 (16*64*1024-16) 0xF off
  | .SAVE_NONVOL_FAR => output_tail X uw 4 0 0 0 0x7 off
  | .SAVE_XMM128_FAR => output_tail X uw 4 0 0 0 0xF off

/-- Number of bytes a call of `output` handed to `bc_out.output`. -/
def OutputResult.emitted_len (r : OutputResult) : Nat :=
  match r.emitted with
  | none => 0
  | some bs => bs.length

/-- Successive `expand` calls for one span: `expand` is called for each
`(old_val, new_val)` in turn, on the members, length and thresholds the
previous call left, until a call raises or reports that the bytecode no
longer depends on the span.  The result is the state after the last call made
(for an empty list: the state given, with `returned true`). -/
def expand_seq (ndebug : Bool) (span : Int) :
    UnwindCode → Nat → Int → Int → List (Int × Int) → ExpandResult
  | uw, len, neg, pos, [] => ⟨uw, len, neg, pos, .returned true⟩
  | uw, len, neg, pos, (o, n) :: rest =>
    let r := expand ndebug uw len span o n neg pos
    match r.ret with
    | .returned true =>
      expand_seq ndebug span r.uw r.len r.neg_thres r.pos_thres rest
    | _ => r

/-- The sizes an unwind code can have according to the specification: 1, 3 or
5 bytes for the allocation codes, 3 or 5 for the save codes, 1 for the codes
without an offset. -/
def length_tiers : Opcode → List Nat
  | .ALLOC_SMALL | .ALLOC_LARGE => [1, 3, 5]
  | .SAVE_NONVOL | .SAVE_NONVOL_FAR | .SAVE_XMM128 | .SAVE_XMM128_FAR => [3, 5]
  | .PUSH_NONVOL | .SET_FPREG | .PUSH_MACHFRAME => [1]

/-- The members as the `switch` of `calc_len` sets them, before the offset is
looked at. -/
def calc_len_start (uw : UnwindCode) : UnwindCode :=
  match uw.m_opcode with
  | .ALLOC_SMALL | .ALLOC_LARGE => ⟨.ALLOC_SMALL, 0⟩
  | .SAVE_NONVOL | .SAVE_NONVOL_FAR => ⟨.SAVE_NONVOL, uw.m_info⟩
  | .SAVE_XMM128 | .SAVE_XMM128_FAR => ⟨.SAVE_XMM128, uw.m_info⟩
  | .PUSH_NONVOL | .SET_FPREG | .PUSH_MACHFRAME => uw

/-- The length that goes with the encoding the members select: what `output`
writes for the opcode and info at hand. -/
def len_fits (uw : UnwindCode) (len : Nat) : Prop :=
  match uw.m_opcode with
  | .ALLOC_SMALL => len = 1
  | .ALLOC_LARGE => if uw.m_info = 0 then len = 3 else len = 5
  | .SAVE_NONVOL | .SAVE_XMM128 => len = 3
  | .SAVE_NONVOL_FAR | .SAVE_XMM128_FAR => len = 5
  | .PUSH_NONVOL | .SET_FPREG | .PUSH_MACHFRAME => len = 1

/-- An allocation code that can still grow: info 0 and either ALLOC_SMALL with
length 1 or ALLOC_LARGE with length 3. -/
def alloc_growing (uw : UnwindCode) (len : Nat) : Prop :=
  uw.m_info = 0 ∧
    ((uw.m_opcode = .ALLOC_SMALL ∧ len = 1) ∨ (uw.m_opcode = .ALLOC_LARGE ∧ len = 3))

/-- What `append_unwind_code` adds to the container after the one-byte offset
in the prolog. -/
inductive Appended where
  /-- The call `append_byte(container, val)`, with the value passed. -/
  | byte (val : Nat)
  /-- The call `bc.transform(uwcode)`: the unwind code becomes the contents of
  the bytecode, the object `calc_len`, `expand` and `output` are called on. -/
  | contents (uwcode : UnwindCode)
  deriving DecidableEq, Repr

/-- `append_unwind_code(container, uwcode)`, the only place where an
`UnwindCode` is made the contents of a bytecode.  For the three codes of one
node it appends the opcode and info byte and returns. -/
def append_unwind_code (X : Externs) (uwcode : UnwindCode) : Appended :=
  match uwcode.m_opcode with
  | .PUSH_NONVOL | .SET_FPREG | .PUSH_MACHFRAME =>
    -- just 1 node, no offset; write opcode and info and we are done
    .byte (code_and_info X uwcode)
  | _ => .contents uwcode

end win64
end objfmt
end yasm

namespace yasm
namespace objfmt
namespace elf

/-!
# ELF relocations and symbols (modules/objfmts/elf/elf.cpp, ElfSymbol.cpp)
-/

/-- A `SymbolRef`: `none` is the null reference, `some i` refers to symbol
`i`. -/
abbrev SymbolRef := Option Nat

/-- The two exception classes the `ElfReloc` constructor throws. -/
inductive ErrorClass where
  | TypeError
  | InternalError
  deriving DecidableEq, Repr

/-- The messages of the exceptions of the `ElfReloc` constructor. -/
inductive Message where
  /-- Message "elf: invalid WRT". -/
  | invalid_WRT
  /-- Message "elf: invalid relocation size". -/
  | invalid_relocation_size
  /-- Message "sym is null". -/
  | sym_is_null
  deriving DecidableEq, Repr

/-- A thrown exception: its class and its message. -/
structure Thrown where
  cls : ErrorClass
  msg : Message
  deriving DecidableEq, Repr

/-- The field of `ElfSpecialSymbol` the constructor reads. -/
structure ElfSpecialSymbol where
  size : Nat
  deriving DecidableEq, Repr

/-- The members of an `ElfReloc` (the address and symbol are those of the
`Reloc` base). -/
structure ElfReloc where
  m_addr : Int
  m_sym : SymbolRef
  m_rtype_rel : Bool
  m_valsize : Nat
  m_addend : Int
  m_wrt : SymbolRef
  deriving DecidableEq, Repr

/-- Result of a constructor call: the object, or the exception thrown. -/
inductive Constructed where
  | object (r : ElfReloc)
  | threw (e : Thrown)
  deriving DecidableEq, Repr

/-- The constructor `ElfReloc::ElfReloc(sym, wrt, addr, rel, valsize, machine)`
of elf.cpp (the name `ElfReloc.mk` is taken by the structure).  `get_elf_ssym` gives the special symbol attached to a symbol, if
any; `accepts_reloc` is `machine.accepts_reloc`. -/
def ElfReloc.ctor (get_elf_ssym : Nat → Option ElfSpecialSymbol)
    (accepts_reloc : Nat → Bool) (sym wrt : SymbolRef) (addr : Int) (rel : Bool)
    (valsize : Nat) : Constructed :=
  let self : ElfReloc := ⟨addr, sym, rel, valsize, 0, wrt⟩
  let checked : Option Thrown :=
    match wrt with
    | some w =>
      match get_elf_ssym w with
      | none => some ⟨.TypeError, .invalid_WRT⟩
      | some ssym =>
        if valsize ≠ ssym.size then some ⟨.TypeError, .invalid_WRT⟩ else none
    | none =>
      if ¬ accepts_reloc valsize then some ⟨.TypeError, .invalid_relocation_size⟩
      else none
  match checked with
  | some e => .threw e
  | none =>
    if sym = none then .threw ⟨.InternalError, .sym_is_null⟩
    else .object self

end elf
end objfmt
end yasm

namespace yasm

/-!
# LEB128 codec (include/yasmx/Bytes_leb128.h)

Only the declarations of `write_leb128`, `size_leb128` and `read_leb128` are
among the sources; the functions below follow section 4.4 of the
specification.  Bytes are natural numbers; the continuation bit of a byte `b`
is `b / 128 % 2` and its low 7 bits are `b % 128`.
-/

/-- Modelled from the spec: the body of `write_leb128` for unsigned LEB128 is
not among the sources.  "Repeatedly emit the low 7 bits of the magnitude with
the continuation bit (high bit) set on every byte except the last; an input
of 0 encodes to a single zero byte." -/
def encode_unsigned (n : Nat) : List Nat :=
  if n < 128 then [n] else (n % 128 + 128) :: encode_unsigned (n / 128)
termination_by n
decreasing_by omega

/-- Modelled from the spec: the body of `write_leb128` for signed LEB128 is
not among the sources.  "Same 7-bit grouping, but continuation stops only once
the remaining sign-extended value is fully represented by the sign bit of the
last emitted group; a value of 0 and -1 each encode to a single byte."  The
group is the low 7 bits of the two's complement value, `v / 128` (rounded
down) is the remaining sign-extended value. -/
def encode_signed (v : Int) : List Nat :=
  if (v / 128 = 0 ∧ v % 128 < 64) ∨ (v / 128 = -1 ∧ 64 ≤ v % 128) then
    [(v % 128).toNat]
  else ((v % 128).toNat + 128) :: encode_signed (v / 128)
termination_by v.natAbs
decreasing_by omega

/-- Modelled from the spec: `write_leb128(bytes, intn, sign)`, whose body is
not among the sources: appends the encoding to `bytes` and returns the number
of bytes generated.  The unsigned form encodes the magnitude. -/
def write_leb128 (bytes : List Nat) (intn : Int) (sign : Bool) : List Nat × Nat :=
  let enc := if sign then encode_signed intn else encode_unsigned intn.natAbs
  (bytes ++ enc, enc.length)

/-- Modelled from the spec: the size query for unsigned LEB128, "a byte-count
function that performs the same bit-grouping logic without emitting output";
the body of `size_leb128` is not among the sources. -/
def size_unsigned (n : Nat) : Nat :=
  if n < 128 then 1 else 1 + size_unsigned (n / 128)
termination_by n
decreasing_by omega

/-- Modelled from the spec: the size query for signed LEB128; the body of
`size_leb128` is not among the sources. -/
def size_signed (v : Int) : Nat :=
  if (v / 128 = 0 ∧ v % 128 < 64) ∨ (v / 128 = -1 ∧ 64 ≤ v % 128) then 1
  else 1 + size_signed (v / 128)
termination_by v.natAbs
decreasing_by omega

/-- Modelled from the spec: `size_leb128(intn, sign)`, whose body is not among
the sources. -/
def size_leb128 (intn : Int) (sign : Bool) : Nat :=
  if sign then size_signed intn else size_unsigned intn.natAbs

/-- Modelled from the spec: the decoding loop of `read_leb128`, whose body is
not among the sources.  "Accumulate 7-bit groups, low-group-first, until a
byte with continuation bit clear; for signed decoding, sign-extend based on
the sign bit of the final 7-bit group"; "decoding an empty or truncated buffer
is an error".  `acc` is the value accumulated so far, `shift` the bit position
of the next group, `count` the number of bytes consumed. -/
def decode_loop (sign : Bool) : List Nat → Int → Nat → Nat → Option (Int × Nat)
  | [], _, _, _ => none
  | b :: rest, acc, shift, count =>
    let acc1 : Int := acc + ((b % 128 : Nat) : Int) * 2 ^ shift
    if b / 128 % 2 = 1 then decode_loop sign rest acc1 (shift + 7) (count + 1)
    else if sign = true ∧ 64 ≤ b % 128 then
      some (acc1 - 2 ^ (shift + 7), count + 1)
    else some (acc1, count + 1)

/-- Modelled from the spec: `read_leb128(bytes, sign, size)`, whose body is
not among the sources: the value and the number of bytes read, or `none` for
the error on an empty or truncated buffer. -/
def read_leb128 (bytes : List Nat) (sign : Bool) : Option (Int × Nat) :=
  decode_loop sign bytes 0 0 0

end yasm

namespace yasm

/-!
# Bytecode offsets (libyasm/bytecode.h)

`bytecode.h` declares the members `m_len`, `m_mult_int` and `m_offset` and the
function `next_offset`; the code that assigns the offsets is not among the
sources and follows section 4.2 of the specification.
-/

/-- The members of `Bytecode` that layout reads and writes: the length
`m_len` (not including multiple copies), the number of copies `m_mult_int` (a
`long` in bytecode.h, a repeat count in the specification) and the offset
`m_offset` from the beginning of the section. -/
structure Bytecode where
  m_len : Nat
  m_mult_int : Nat
  m_offset : Nat
  deriving DecidableEq, Repr

/-- Modelled from the spec: the body of `Bytecode::next_offset` is not among
the sources; bytecode.h documents it as "the offset of the next bytecode",
which by the specification is `offset + length * multiple`. -/
def Bytecode.next_offset (bc : Bytecode) : Nat :=
  bc.m_offset + bc.m_len * bc.m_mult_int

/-- Modelled from the spec: the offset assignment of the layout engine is not
among the sources.  "Assign offsets to every bytecode by a prefix sum of
lengths in section order (`offset[0] = 0`,
`offset[i+1] = offset[i] + length[i]·multiple[i]`)."  `off` is the offset of
the first bytecode of the list. -/
def assign_offsets : Nat → List Bytecode → List Bytecode
  | _, [] => []
  | off, bc :: rest =>
    { bc with m_offset := off } ::
      assign_offsets (off + bc.m_len * bc.m_mult_int) rest

/-- Modelled from the spec: the final offset assignment of `finalize_layout`
for one section, on bytecodes whose lengths are final. -/
def finalize_layout (section_bcs : List Bytecode) : List Bytecode :=
  assign_offsets 0 section_bcs

end yasm

namespace yasm
namespace objfmt
namespace elf

/-!
## `ElfSymbol::Finalize` (modules/objfmts/elf/ElfSymbol.cpp)

The symbol, the expressions and the value that `Finalize` works on are classes
whose code is not among the sources; what their member functions return to
`Finalize` is given by `FinalizeEnv`.
-/

/-- Identifiers of the diagnostics `Finalize` reports itself; `other` stands
for a diagnostic reported by a callee (`SimplifyCalcDist`, `Value::Finalize`). -/
inductive DiagId where
  | err_equ_circular_reference
  | err_size_integer
  | err_equ_too_complex
  | warn_equ_undef_ref
  | err_equ_not_integer
  | other (n : Nat)
  deriving DecidableEq, Repr

/-- One `diags.Report(source, id)`. -/
structure Diag where
  source : Nat
  id : DiagId
  deriving DecidableEq, Repr

/-- The constants `Finalize` uses, defined in headers that are not among the
sources: ELF section index, binding and type values and the `Symbol`
visibility flags. -/
structure ElfConsts where
  SHN_ABS : Nat
  STB_GLOBAL : Nat
  STB_WEAK : Nat
  STT_TLS : Nat
  LOCAL : Nat
  GLOBAL : Nat
  COMMON : Nat
  DLOCAL : Nat

/-- The members of `ElfSymbol` that `Finalize` reads or writes.  `Expr` is the
type of expressions, `m_sect` a section (by number) or null. -/
structure ElfSymbol (Expr : Type) where
  m_sect : Option Nat
  m_value : Int
  m_size : Expr
  m_size_source : Nat
  m_index : Nat
  m_bind : Nat
  m_type : Nat
  m_in_table : Bool
  m_weak_ref : Bool
  m_weak_refr : Bool
  m_value_rel : SymbolRef

/-- What `Finalize` learns about the relative part of a `Value`:
`val.getRelative()` and, when `rel->getLabel(&loc)` succeeds with a non-null
`loc.bc`, the section `loc.bc->getContainer()->AsSection()` (possibly null)
and `loc.getOffset()`. -/
structure RelView where
  rel : SymbolRef
  label : Option (Option Nat × Int)

/-- What `Finalize` learns about the `Value` built from the EQU expression:
the result of `val.Finalize` and the diagnostics it reports,
`val.isComplexRelative()`, the relative part when `val.isRelative()` and the
expression `val.getAbs()` when it is non-null. -/
structure ValueView (Expr : Type) where
  finalize_ok : Bool
  finalize_diags : List Diag
  isComplexRelative : Bool
  relative : Option RelView
  getAbs : Option Expr

/-- The functions and member functions `Finalize` calls, as functions of their
arguments.  `ExpandEqu e` gives the result and the expression it leaves,
`SimplifyCalcDist e` the simplified expression and the diagnostics reported,
`isIntNum e` the integer when the expression is one.  The other fields
describe the `Symbol`: `getVisibility_declared` is its visibility after
`sym.Declare(Symbol::GLOBAL)`, `label_in_tls` the test that the symbol is a
label in a section with an `ElfSection` flagged `SHF_TLS`, `getEqu` the EQU
expression or null. -/
structure FinalizeEnv (Expr : Type) where
  isDefined : Bool
  getVisibility : Nat
  getVisibility_declared : Nat
  isUsed : Bool
  label_in_tls : Bool
  getDefSource : Nat
  getEqu : Option Expr
  isEmpty : Expr → Bool
  ExpandEqu : Expr → Bool × Expr
  SimplifyCalcDist : Expr → Expr × List Diag
  isIntNum : Expr → Option Int
  mkValue : Expr → ValueView Expr

/-- State after `Finalize`: the members, whether `sym.Declare(GLOBAL)` was
called, the diagnostics reported, in order, and the result of the call
`ExpandEqu(equ_expr)` on the EQU expression when that call was made. -/
structure FinalizeResult (Expr : Type) where
  esym : ElfSymbol Expr
  declared_global : Bool
  diags : List Diag
  equ_expanded : Option Bool

/-- The part of `Finalize` from "get EQU value for constants" on. -/
def Finalize_equ {Expr : Type} (K : ElfConsts) (env : FinalizeEnv Expr)
    (s : ElfSymbol Expr) (declared : Bool) (diags : List Diag) :
    FinalizeResult Expr :=
  match env.getEqu with
  | none => ⟨s, declared, diags, none⟩
  | some equ_expr_c =>
    let expanded := env.ExpandEqu equ_expr_c
    if expanded.1 = false then
      ⟨s, declared, diags ++ [⟨env.getDefSource, .err_equ_circular_reference⟩],
        some false⟩
    else
      let simplified := env.SimplifyCalcDist expanded.2
      let diags := diags ++ simplified.2
      -- trivial case: simple integer
      match env.isIntNum simplified.1 with
      | some n => ⟨{ s with m_index := K.SHN_ABS, m_value := n }, declared, diags, some true⟩
      | none =>
        -- otherwise might contain relocatable value (e.g. symbol alias)
        let val := env.mkValue simplified.1
        let diags := diags ++ val.finalize_diags
        if val.finalize_ok = false then ⟨s, declared, diags, some true⟩
        else if val.isComplexRelative then
          ⟨s, declared, diags ++ [⟨env.getDefSource, .err_equ_too_complex⟩],
            some true⟩
        else
          -- set section appropriately based on if value is relative
          let placed : Option (ElfSymbol Expr) :=
            match val.relative with
            | some r =>
              match r.label with
              | none => none
              | some (sect, offset) =>
                some { s with m_sect := sect, m_value := offset, m_value_rel := r.rel }
            | none => some { s with m_index := K.SHN_ABS, m_value := 0 }
          match placed with
          | none =>
            -- referencing an undefined label: do not generate the symbol
            ⟨{ s with m_in_table := false }, declared,
              diags ++ [⟨env.getDefSource, .warn_equ_undef_ref⟩], some true⟩
          | some s1 =>
            -- add in any remaining absolute portion
            match val.getAbs with
            | none => ⟨s1, declared, diags, some true⟩
            | some abs =>
              let abs_simplified := env.SimplifyCalcDist abs
              let diags := diags ++ abs_simplified.2
              match env.isIntNum abs_simplified.1 with
              | none =>
                ⟨s1, declared, diags ++ [⟨env.getDefSource, .err_equ_not_integer⟩],
                  some true⟩
              | some n => ⟨{ s1 with m_value := s1.m_value + n }, declared, diags, some true⟩

/-- The part of `Finalize` from "get size (if specified)" on. -/
def Finalize_size {Expr : Type} (K : ElfConsts) (env : FinalizeEnv Expr)
    (s : ElfSymbol Expr) (declared : Bool) : FinalizeResult Expr :=
  if env.isEmpty s.m_size = false then
    let expanded := env.ExpandEqu s.m_size
    if expanded.1 = false then
      ⟨{ s with m_size := expanded.2 }, declared,
        [⟨s.m_size_source, .err_equ_circular_reference⟩], none⟩
    else
      let simplified := env.SimplifyCalcDist expanded.2
      let s1 := { s with m_size := simplified.1 }
      let diags :=
        if (env.isIntNum simplified.1).isNone then
          simplified.2 ++ [⟨s.m_size_source, .err_size_integer⟩]
        else simplified.2
      Finalize_equ K env s1 declared diags
  else Finalize_equ K env s declared []

/-- `ElfSymbol::Finalize(sym, diags)`.  Visibility flags are tested with the
bitwise and of the source. -/
def Finalize {Expr : Type} (K : ElfConsts) (env : FinalizeEnv Expr)
    (s : ElfSymbol Expr) : FinalizeResult Expr :=
  -- if symbol is a weakrefr, make it weak at this point
  let undeclared : Bool :=
    !env.isDefined && (env.getVisibility &&& (K.GLOBAL ||| K.COMMON) == 0)
  if s.m_weak_refr = true ∧ undeclared = true ∧ env.isUsed = false then
    ⟨{ s with m_in_table := false }, false, [], none⟩
  else
    let declared : Bool := s.m_weak_refr && undeclared
    let s1 : ElfSymbol Expr :=
      if s.m_weak_refr = true then
        if undeclared = true then { s with m_in_table := true, m_bind := K.STB_WEAK }
        else if env.isDefined = false ∧ env.getVisibility &&& K.GLOBAL ≠ 0 then
          { s with m_bind := K.STB_GLOBAL }
        else s
      else s
    let vis : Nat :=
      if declared then env.getVisibility_declared else env.getVisibility
    -- LHS of weakrefs stay out of the symbol table unless requested
    if s1.m_weak_ref = true ∧ (vis = K.DLOCAL ∨ vis = K.LOCAL) then
      ⟨{ s1 with m_in_table := false }, declared, [], none⟩
    else
      -- if symbol is in a TLS section, force its type to TLS
      let s2 : ElfSymbol Expr :=
        if env.label_in_tls then { s1 with m_type := K.STT_TLS } else s1
      Finalize_size K env s2 declared

end elf
end objfmt
end yasm

namespace yasm

/-!
# `unescape` (lib/yasmx/file.cpp) and `unescape_cstring` (libyasm/file.cpp)

Strings are lists of bytes (numbers below 256).  The character constants of
the sources are written as their codes: backslash 92, `b` 98, `f` 102, `n` 110,
`r` 114, `t` 116, `x` 120, `0` 48, `7` 55.
-/

/-- `isdigit` in the C locale. -/
def isdigit (c : Nat) : Bool := decide (48 ≤ c ∧ c ≤ 57)

/-- `isxdigit` in the C locale. -/
def isxdigit (c : Nat) : Bool :=
  decide ((48 ≤ c ∧ c ≤ 57) ∨ (65 ≤ c ∧ c ≤ 70) ∨ (97 ≤ c ∧ c ≤ 102))

/-- Value of a hexadecimal digit. -/
def hexval (c : Nat) : Nat :=
  if c ≤ 57 then c - 48 else if c ≤ 70 then c - 55 else c - 87

/-- `strtoul(t, NULL, 16)` on a string `t` of hexadecimal digits. -/
def strtoul16 (t : List Nat) : Nat :=
  t.foldl (fun acc c => acc * 16 + hexval c) 0

/-- What one escape sequence yields: the byte it stands for, the input after
it, and whether the "octal value out of range" warning is set. -/
structure Escape where
  byte : Nat
  rest : List Nat
  warn : Bool
  deriving DecidableEq, Repr

/-- The loop of `unescape` that moves `i` forward while three hexadecimal
digits follow: on return `i` is at the last two digits of the run. -/
def hex_skip : List Nat → List Nat
  | [] => []
  | a :: tl =>
    match tl with
    | b :: c :: _ =>
      if isxdigit a && isxdigit b && isxdigit c then hex_skip tl else a :: tl
    | _ => a :: tl

/-- The hex escape of `unescape` after the skipping loop; `i` is the input
from the iterator on. -/
def hex_escape (i : List Nat) : Escape :=
  match i with
  | t0 :: i1 =>
    if isxdigit t0 then
      match i1 with
      | t1 :: i2 =>
        if isxdigit t1 then ⟨strtoul16 [t0, t1] % 256, i2, false⟩
        else ⟨strtoul16 [t0] % 256, i1, false⟩
      | [] => ⟨strtoul16 [t0] % 256, i1, false⟩
    else ⟨0, i, false⟩
  | [] => ⟨0, i, false⟩

/-- The octal escape of `unescape`; `d` is the digit at the iterator, `i1` the
input after it.  `v` is an `unsigned char`. -/
def octal_escape (d : Nat) (i1 : List Nat) : Escape :=
  let warn0 : Bool := decide (d > 55)
  let v0 : Nat := (d - 48) % 256
  match i1 with
  | d1 :: i2 =>
    if isdigit d1 then
      let warn1 : Bool := warn0 || decide (d1 > 55)
      let v1 : Nat := (v0 * 8 % 256 + (d1 - 48)) % 256
      match i2 with
      | d2 :: i3 =>
        if isdigit d2 then
          ⟨(v1 * 8 % 256 + (d2 - 48)) % 256, i3, warn1 || decide (d2 > 55)⟩
        else ⟨v1, i2, warn1⟩
      | [] => ⟨v1, i2, warn1⟩
    else ⟨v0, i1, warn0⟩
  | [] => ⟨v0, i1, warn0⟩

/-- The `switch (*i)` of `unescape`: `e` is the character after the backslash,
`i1` the input after `e`. -/
def unescape_switch (e : Nat) (i1 : List Nat) : Escape :=
  if e = 98 then ⟨8, i1, false⟩
  else if e = 102 then ⟨12, i1, false⟩
  else if e = 110 then ⟨10, i1, false⟩
  else if e = 114 then ⟨13, i1, false⟩
  else if e = 116 then ⟨9, i1, false⟩
  else if e = 120 then hex_escape (hex_skip i1)
  else if isdigit e then octal_escape e i1
  else ⟨e, i1, false⟩

/-- The `while (i != end)` loop of `unescape`: the input from `i` on, the
string `out` and whether a warning was set.  Every iteration consumes input, so
`fuel` equal to the length of the input is enough. -/
def unescape_loop : Nat → List Nat → List Nat → Bool → List Nat × Bool
  | 0, _, out, w => (out, w)
  | _ + 1, [], out, w => (out, w)
  | fuel + 1, c :: i1, out, w =>
    if c = 92 then
      match i1 with
      | [] => (out ++ [92], w)
      | e :: i2 =>
        let r := unescape_switch e i2
        unescape_loop fuel r.rest (out ++ [r.byte]) (w || r.warn)
    else unescape_loop fuel i1 (out ++ [c]) w

/-- `yasm::unescape(str)` of lib/yasmx/file.cpp: the string returned and
whether the warning was set. -/
def unescape (str : List Nat) : List Nat × Bool :=
  unescape_loop str.length str [] false

/-- Reading `str[i]`. -/
def rd (buf : List Nat) (i : Nat) : Nat := buf.getD i 0

/-- The loop of `unescape_cstring` that moves `s` forward while three
hexadecimal digits follow inside the first `len` bytes. -/
def cstring_hex_skip (buf : List Nat) (len : Nat) : Nat → Nat → Nat
  | 0, s => s
  | fuel + 1, s =>
    if s + 2 < len ∧ isxdigit (rd buf s) = true ∧ isxdigit (rd buf (s + 1)) = true ∧
        isxdigit (rd buf (s + 2)) = true then
      cstring_hex_skip buf len fuel (s + 1)
    else s

/-- State of `unescape_cstring` between two statements: the buffer `str`, the
read position `s` and whether the warning was set.  The write position `o`
does not move inside an escape. -/
structure CEscape where
  buf : List Nat
  s : Nat
  warn : Bool
  deriving DecidableEq, Repr

/-- The hex escape of `unescape_cstring` after the skipping loop. -/
def cstring_hex_escape (buf : List Nat) (len s o : Nat) : CEscape :=
  if s < len ∧ isxdigit (rd buf s) = true then
    let t0 := rd buf s
    let s1 := s + 1
    if s1 < len ∧ isxdigit (rd buf s1) = true then
      ⟨buf.set o (strtoul16 [t0, rd buf s1] % 256), s1 + 1, false⟩
    else ⟨buf.set o (strtoul16 [t0] % 256), s1, false⟩
  else ⟨buf.set o 0, s, false⟩

/-- The octal escape of `unescape_cstring`: `*o` is written, shifted and added
to in place; `s` is at the first digit. -/
def cstring_octal_escape (buf : List Nat) (len s o : Nat) : CEscape :=
  let warn0 : Bool := decide (rd buf s > 55)
  let buf1 := buf.set o ((rd buf s - 48) % 256)
  let s1 := s + 1
  if s1 < len ∧ isdigit (rd buf1 s1) = true then
    let warn1 : Bool := warn0 || decide (rd buf1 s1 > 55)
    let buf2 := buf1.set o (rd buf1 o * 8 % 256)
    let buf3 := buf2.set o ((rd buf2 o + (rd buf2 s1 - 48)) % 256)
    let s2 := s1 + 1
    if s2 < len ∧ isdigit (rd buf3 s2) = true then
      let warn2 : Bool := warn1 || decide (rd buf3 s2 > 55)
      let buf4 := buf3.set o (rd buf3 o * 8 % 256)
      let buf5 := buf4.set o ((rd buf4 o + (rd buf4 s2 - 48)) % 256)
      ⟨buf5, s2 + 1, warn2⟩
    else ⟨buf3, s2, warn1⟩
  else ⟨buf1, s1, warn0⟩

/-- The `switch (*s)` of `unescape_cstring`; `s` is at the character after the
backslash. -/
def cstring_switch (buf : List Nat) (len s o : Nat) : CEscape :=
  let e := rd buf s
  if e = 98 then ⟨buf.set o 8, s + 1, false⟩
  else if e = 102 then ⟨buf.set o 12, s + 1, false⟩
  else if e = 110 then ⟨buf.set o 10, s + 1, false⟩
  else if e = 114 then ⟨buf.set o 13, s + 1, false⟩
  else if e = 116 then ⟨buf.set o 9, s + 1, false⟩
  else if e = 120 then
    cstring_hex_escape buf len (cstring_hex_skip buf len len (s + 1)) o
  else if isdigit e = true then cstring_octal_escape buf len s o
  else ⟨buf.set o e, s + 1, false⟩

/-- State of `unescape_cstring` at the head of its loop. -/
structure CString where
  buf : List Nat
  s : Nat
  o : Nat
  warned : Bool
  deriving DecidableEq, Repr

/-- The `while ((size_t)(s-str)<len)` loop of `unescape_cstring`.  Every
iteration moves `s` forward, so `fuel` equal to `len` is enough. -/
def unescape_cstring_loop (len : Nat) : Nat → CString → CString
  | 0, st => st
  | fuel + 1, st =>
    if st.s < len then
      if rd st.buf st.s = 92 ∧ st.s + 1 < len then
        let r := cstring_switch st.buf len (st.s + 1) st.o
        unescape_cstring_loop len fuel ⟨r.buf, r.s, st.o + 1, st.warned || r.warn⟩
      else
        unescape_cstring_loop len fuel
          ⟨st.buf.set st.o (rd st.buf st.s), st.s + 1, st.o + 1, st.warned⟩
    else st

/-- `unescape_cstring(str, len)` of libyasm/file.cpp: the state on return,
where the new value of `len` is `o`. -/
def unescape_cstring (str : List Nat) (len : Nat) : CString :=
  unescape_cstring_loop len len ⟨str, 0, 0, false⟩

end yasm

namespace yasm

/-!
# Path functions (lib/yasmx/file.cpp and libyasm/file.cpp)

Strings are lists of bytes without NUL.  Reading a `std::string` or a C string
at its length gives the terminating NUL (0).  Character codes: `/` 47, `\` 92,
`.` 46, `:` 58.  The functions of libyasm/file.cpp work on C strings and carry
the suffix `_c`.
-/

/-- `isalpha` in the C locale. -/
def isalpha (c : Nat) : Bool :=
  decide ((65 ≤ c ∧ c ≤ 90) ∨ (97 ≤ c ∧ c ≤ 122))

/-- Either kind of slash (`/` or `\`). -/
def isslash (c : Nat) : Bool := decide (c = 47 ∨ c = 92)

/-- Reading `s[i]`; the terminating NUL at and after the length. -/
def at_ (s : List Nat) (i : Nat) : Nat := s.getD i 0

/-- Backward search shared by `rfind`, `find_last_of`, `find_last_not_of` and
`strrchr`: the largest index `i ≤ pos` inside `s` with `p s[i]`, or `none`
(`npos`, a null pointer). -/
def rfind_if (p : Nat → Bool) (s : List Nat) : Nat → Option Nat
  | 0 => if 0 < s.length ∧ p (at_ s 0) = true then some 0 else none
  | pos + 1 =>
    if pos + 1 < s.length ∧ p (at_ s (pos + 1)) = true then some (pos + 1)
    else rfind_if p s pos

/-- The loop of `std::unique` with the predicate `AdjacantChar(c)` after the
first element: `kept` is the last element kept. -/
def unique_after (c kept : Nat) : List Nat → List Nat
  | [] => []
  | b :: rest =>
    if kept = c ∧ b = c then unique_after c kept rest
    else b :: unique_after c b rest

/-- `std::unique(s.begin(), s.end(), AdjacantChar(c))` followed by the `erase`
of the tail: runs of `c` become a single `c`. -/
def unique_adjacent (c : Nat) : List Nat → List Nat
  | [] => []
  | a :: rest => a :: unique_after c a rest

/-- The loop "strip trailing ./ on path" of the `splitpath` functions, on the
length `len` of the head; `sep` is the separator looked for. -/
def strip_dot_dir (sep : Nat) (head : List Nat) : Nat → Nat → Nat
  | 0, len => len
  | fuel + 1, len =>
    if len ≥ 2 ∧ at_ head (len - 2) = 46 ∧ at_ head (len - 1) = sep ∧
        ¬ (len ≥ 3 ∧ at_ head (len - 3) = 46) then
      strip_dot_dir sep head fuel (len - 2)
    else len

/-- `splitpath_unix(path, tail)` of lib/yasmx/file.cpp: the head returned and
the tail. -/
def splitpath_unix (path : List Nat) : List Nat × List Nat :=
  match rfind_if (fun c => c == 47) path (path.length - 1) with
  | none => ([], path)
  | some found =>
    let head := path.take (found + 1)
    let tail := path.drop (found + 1)
    -- strip trailing ./ on path
    let head := head.take (strip_dot_dir 47 head head.length head.length)
    -- strip trailing slashes on path (except leading)
    let head :=
      match rfind_if (fun c => c != 47) head (head.length - 1) with
      | some found1 => head.take (found1 + 1)
      | none => head
    -- combine any double slashes
    (unique_adjacent 47 head, tail)

/-- The loops `while (to[i] == '/') i++` of `combpath_unix`; the first
argument is `to` from index `i` on. -/
def skip_slashes : List Nat → Nat → Nat
  | c :: rest, i => if c = 47 then skip_slashes rest (i + 1) else i
  | [], i => i

/-- The loops `while (to[i] == '/' || to[i] == '\\') i++` of `combpath_win`;
the first argument is `to` from index `i` on. -/
def skip_slashes_win : List Nat → Nat → Nat
  | c :: rest, i => if c = 47 ∨ c = 92 then skip_slashes_win rest (i + 1) else i
  | [], i => i

/-- One pass through the body of a `for (;;)` loop of a `combpath` function:
it breaks, or it goes on with new values of `out` and `i`. -/
inductive Step where
  | brk
  | cont (out : List Nat) (i : Nat)
  deriving DecidableEq, Repr

/-- A `for (;;)` loop with body `step`: the values of `out` and `i` at the
`break`.  Every pass that does not break moves `i` forward, so fuel above the
length of `to` is enough. -/
def run_loop (step : List Nat → Nat → Step) : Nat → List Nat → Nat → List Nat × Nat
  | 0, out, i => (out, i)
  | fuel + 1, out, i =>
    match step out i with
    | .brk => (out, i)
    | .cont out1 i1 => run_loop step fuel out1 i1

/-- Body of the loop of `combpath_unix` (lib/yasmx/file.cpp).  The index `i`
never exceeds the length of `to`, so `tolen-i` does not wrap. -/
def combpath_unix_step (to_ : List Nat) (out : List Nat) (i : Nat) : Step :=
  let tolen := to_.length
  if tolen - i ≥ 2 ∧ at_ to_ i = 46 ∧ at_ to_ (i + 1) = 47 then
    -- current directory; strip off any additional slashes
    .cont out (skip_slashes (to_.drop (i + 2)) (i + 2))
  else if out = [] then .brk
  else if tolen - i ≥ 3 ∧ at_ to_ i = 46 ∧ at_ to_ (i + 1) = 46 ∧ at_ to_ (i + 2) = 47 then
    let outlen := out.length
    if outlen ≥ 3 ∧ at_ out (outlen - 1) = 47 ∧ at_ out (outlen - 2) = 46 ∧
        at_ out (outlen - 3) = 46 then
      -- can't ".." against a "..", so we're done
      .brk
    else
      -- throw away "../" and back out last directory in "out"
      let i1 := skip_slashes (to_.drop (i + 3)) (i + 3)
      if outlen > 1 then
        match rfind_if (fun c => c == 47) out (outlen - 2) with
        | some found => .cont (out.take (found + 1)) i1
        | none => .cont [] i1
      else .cont out i1
  else .brk

/-- `combpath_unix(from, to)` of lib/yasmx/file.cpp. -/
def combpath_unix (from_ to_ : List Nat) : List Nat :=
  if at_ to_ 0 = 47 then
    -- absolute "to"; combine any double slashes
    unique_adjacent 47 to_
  else
    -- get path component; note this strips trailing slash
    let out := (splitpath_unix from_).1
    -- add trailing slash back in
    let out := if out ≠ [] ∧ at_ out (out.length - 1) ≠ 47 then out ++ [47] else out
    let r := run_loop (combpath_unix_step to_) (to_.length + 1) out 0
    -- copy "to" to tail of output, combine any double slashes
    unique_adjacent 47 (r.1 ++ to_.drop r.2)

/-- The loops "combine any double slashes when copying" of `combpath_unix` in
libyasm/file.cpp: a character is skipped when it and the next one are both
`/`. -/
def copy_combine : List Nat → List Nat
  | [] => []
  | a :: rest =>
    if a = 47 ∧ at_ rest 0 = 47 then copy_combine rest
    else a :: copy_combine rest

/-- The loop `while (s>path && *s == '/') s--` of the C `splitpath_unix`, on
`p = s - path + 1` (so that the position before the string is 0); `sep` is the
character stepped over. -/
def strip_slashes_c (sep : Nat) (path : List Nat) : Nat → Nat → Nat
  | 0, p => p
  | fuel + 1, p =>
    if p ≥ 2 ∧ at_ path (p - 1) = sep then strip_slashes_c sep path fuel (p - 1) else p

/-- `splitpath_unix(path, tail)` of libyasm/file.cpp: the length of the head
returned and the tail.  The pointer `s` is kept as `s - path + 1`; with it the
loop "strip trailing ./" reads as the one of lib/yasmx/file.cpp. -/
def splitpath_unix_c (path : List Nat) : Nat × List Nat :=
  match rfind_if (fun c => c == 47) path (path.length - 1) with
  | none => (0, path)
  | some s =>
    let tail := path.drop (s + 1)
    let p := strip_dot_dir 47 path path.length (s + 1)
    let p := strip_slashes_c 47 path path.length p
    (p, tail)

/-- The loop `pathlen--; while (pathlen > 0 && out[pathlen-1] != '/')
pathlen--` of the C `combpath_unix`, after the first decrement. -/
def back_dir_c (sep : Nat) (out : List Nat) : Nat → Nat → Nat
  | 0, pathlen => pathlen
  | fuel + 1, pathlen =>
    if pathlen > 0 ∧ at_ out (pathlen - 1) ≠ sep then back_dir_c sep out fuel (pathlen - 1)
    else pathlen

/-- Body of the loop of `combpath_unix` (libyasm/file.cpp).  `out` is the
buffer up to `pathlen`, `i` the distance of the pointer `to` from its initial
value. -/
def combpath_unix_c_step (to_ : List Nat) (out : List Nat) (i : Nat) : Step :=
  if at_ to_ i = 46 ∧ at_ to_ (i + 1) = 47 then
    .cont out (skip_slashes (to_.drop (i + 2)) (i + 2))
  else if out.length = 0 then .brk
  else if at_ to_ i = 46 ∧ at_ to_ (i + 1) = 46 ∧ at_ to_ (i + 2) = 47 then
    let pathlen := out.length
    if pathlen ≥ 3 ∧ at_ out (pathlen - 1) = 47 ∧ at_ out (pathlen - 2) = 46 ∧
        at_ out (pathlen - 3) = 46 then
      .brk
    else
      let i1 := skip_slashes (to_.drop (i + 3)) (i + 3)
      if pathlen > 1 then
        .cont (out.take (back_dir_c 47 out pathlen (pathlen - 1))) i1
      else .cont out i1
  else .brk

/-- `combpath_unix(from, to)` of libyasm/file.cpp: the string in the buffer
returned. -/
def combpath_unix_c (from_ to_ : List Nat) : List Nat :=
  if at_ to_ 0 = 47 then copy_combine to_
  else
    let pathlen := (splitpath_unix_c from_).1
    -- combine any double slashes when copying
    let out := copy_combine (from_.take pathlen)
    -- add trailing slash back in
    let out := if out.length > 0 ∧ at_ out (out.length - 1) ≠ 47 then out ++ [47] else out
    let r := run_loop (combpath_unix_c_step to_) (to_.length + 1) out 0
    r.1 ++ copy_combine (to_.drop r.2)

/-- Result of a function of lib/yasmx/file.cpp that can leave through the
`std::out_of_range` exception of `std::string::erase`. -/
inductive StrResult (α : Type) where
  | value (a : α)
  | out_of_range
  deriving DecidableEq, Repr

/-- `splitpath_win(path, tail)` of lib/yasmx/file.cpp.  `head.erase(pos)`
throws `std::out_of_range` when `pos` is larger than the length of `head`. -/
def splitpath_win (path : List Nat) : StrResult (List Nat × List Nat) :=
  match rfind_if isslash path (path.length - 1) with
  | none =>
    -- look for drive letter
    if path.length ≥ 2 ∧ isalpha (at_ path 0) = true ∧ at_ path 1 = 58 then
      .value (path.take 2, path.drop 2)
    else .value ([], path)
  | some found =>
    let head := path.take (found + 1)
    let tail := path.drop (found + 1)
    -- replace all "/" with "\"
    let head := head.map (fun c => if c = 47 then 92 else c)
    -- strip trailing .\ on path
    let head := head.take (strip_dot_dir 92 head head.length head.length)
    -- strip trailing slashes on path (except leading)
    let erased : StrResult (List Nat) :=
      match rfind_if (fun c => c != 92) head (head.length - 1) with
      | some found1 =>
        -- don't strip slash immediately following drive letter
        if found1 = 1 ∧ isalpha (at_ head 0) = true ∧ at_ head 1 = 58 then
          if found1 + 2 ≤ head.length then .value (head.take (found1 + 2))
          else .out_of_range
        else .value (head.take (found1 + 1))
      | none => .value head
    match erased with
    | .out_of_range => .out_of_range
    | .value head => .value (unique_adjacent 92 head, tail)

/-- Body of the loop of `combpath_win` (lib/yasmx/file.cpp). -/
def combpath_win_step (to_ : List Nat) (out : List Nat) (i : Nat) : Step :=
  let tolen := to_.length
  if tolen - i ≥ 2 ∧ at_ to_ i = 46 ∧ (at_ to_ (i + 1) = 47 ∨ at_ to_ (i + 1) = 92) then
    .cont out (skip_slashes_win (to_.drop (i + 2)) (i + 2))
  else if out = [] ∨ (out.length = 2 ∧ isalpha (at_ out 0) = true ∧ at_ out 1 = 58) then
    .brk
  else if tolen - i ≥ 3 ∧ at_ to_ i = 46 ∧ at_ to_ (i + 1) = 46 ∧
      (at_ to_ (i + 2) = 47 ∨ at_ to_ (i + 2) = 92) then
    let outlen := out.length
    if outlen ≥ 3 ∧ (at_ out (outlen - 1) = 47 ∨ at_ out (outlen - 1) = 92) ∧
        at_ out (outlen - 2) = 46 ∧ at_ out (outlen - 3) = 46 then
      .brk
    else
      let i1 := skip_slashes_win (to_.drop (i + 3)) (i + 3)
      -- back out last directory in "out" if not already at root
      if outlen > 1 ∧ ¬ (outlen = 3 ∧ isalpha (at_ out 0) = true ∧ at_ out 1 = 58) then
        match rfind_if (fun c => c == 47 || c == 92 || c == 58) out (outlen - 2) with
        | some found => .cont (out.take (found + 1)) i1
        | none => .cont [] i1
      else .cont out i1
  else .brk

/-- `combpath_win(from, to)` of lib/yasmx/file.cpp. -/
def combpath_win (from_ to_ : List Nat) : StrResult (List Nat) :=
  if (to_.length ≥ 2 ∧ isalpha (at_ to_ 0) = true ∧ at_ to_ 1 = 58) ∨ at_ to_ 0 = 47 ∨
      at_ to_ 0 = 92 then
    -- absolute or drive letter "to"
    .value (unique_adjacent 92 (to_.map (fun c => if c = 47 then 92 else c)))
  else
    match splitpath_win from_ with
    | .out_of_range => .out_of_range
    | .value (out, _) =>
      -- add trailing slash back in, unless it's only a raw drive letter
      let out :=
        if out ≠ [] ∧ at_ out (out.length - 1) ≠ 47 ∧ at_ out (out.length - 1) ≠ 92 ∧
            ¬ (out.length = 2 ∧ isalpha (at_ out 0) = true ∧ at_ out 1 = 58) then
          out ++ [92]
        else out
      let r := run_loop (combpath_win_step to_) (to_.length + 1) out 0
      let out := r.1 ++ to_.drop r.2
      .value (unique_adjacent 92 (out.map (fun c => if c = 47 then 92 else c)))

/-- The loops "combine any double slashes when copying" of `combpath_win` in
libyasm/file.cpp: a slash followed by a slash is skipped, `/` is written as
`\`. -/
def copy_combine_win : List Nat → List Nat
  | [] => []
  | a :: rest =>
    if (a = 47 ∨ a = 92) ∧ (at_ rest 0 = 47 ∨ at_ rest 0 = 92) then copy_combine_win rest
    else (if a = 47 then 92 else a) :: copy_combine_win rest

/-- The loop `while (s >= basepath && *s != '\\' && *s != '/') s--` of the C
`splitpath_win`, on `p = s - path + 1`. -/
def scan_back_c (path : List Nat) (base : Nat) : Nat → Nat → Nat
  | 0, p => p
  | fuel + 1, p =>
    if p ≥ base + 1 ∧ at_ path (p - 1) ≠ 92 ∧ at_ path (p - 1) ≠ 47 then
      scan_back_c path base fuel (p - 1)
    else p

/-- The loop "strip trailing .\ or ./" of the C `splitpath_win`, on
`p = s - path + 1`; `base` is the offset of `basepath`. -/
def strip_dot_dir_win_c (path : List Nat) (base : Nat) : Nat → Nat → Nat
  | 0, p => p
  | fuel + 1, p =>
    if p ≥ base + 2 ∧ at_ path (p - 2) = 46 ∧
        (at_ path (p - 1) = 47 ∨ at_ path (p - 1) = 92) ∧
        ¬ (p ≥ base + 3 ∧ at_ path (p - 3) = 46) then
      strip_dot_dir_win_c path base fuel (p - 2)
    else p

/-- The loop `while (s>basepath && (*s == '/' || *s == '\\')) s--` of the C
`splitpath_win`, on `p = s - path + 1`. -/
def strip_slashes_win_c (path : List Nat) (base : Nat) : Nat → Nat → Nat
  | 0, p => p
  | fuel + 1, p =>
    if p ≥ base + 2 ∧ (at_ path (p - 1) = 47 ∨ at_ path (p - 1) = 92) then
      strip_slashes_win_c path base fuel (p - 1)
    else p

/-- `splitpath_win(path, tail)` of libyasm/file.cpp: the length of the head
returned and the tail.  The pointer `s` is kept as `s - path + 1`. -/
def splitpath_win_c (path : List Nat) : Nat × List Nat :=
  -- split off drive letter first, if any
  let base := if isalpha (at_ path 0) = true ∧ at_ path 1 = 58 then 2 else 0
  let p := scan_back_c path base (path.length + 1) (path.length + 1)
  if p < base + 1 then
    (if base = 0 then 0 else 2, path.drop base)
  else
    let tail := path.drop p
    let p := strip_dot_dir_win_c path base path.length p
    let p := strip_slashes_win_c path base path.length p
    (p, tail)

/-- Body of the loop of `combpath_win` (libyasm/file.cpp).  `out` is the
buffer up to `pathlen`. -/
def combpath_win_c_step (to_ : List Nat) (out : List Nat) (i : Nat) : Step :=
  if at_ to_ i = 46 ∧ (at_ to_ (i + 1) = 47 ∨ at_ to_ (i + 1) = 92) then
    .cont out (skip_slashes_win (to_.drop (i + 2)) (i + 2))
  else if out.length = 0 ∨ (out.length = 2 ∧ isalpha (at_ out 0) = true ∧ at_ out 1 = 58) then
    .brk
  else if at_ to_ i = 46 ∧ at_ to_ (i + 1) = 46 ∧
      (at_ to_ (i + 2) = 47 ∨ at_ to_ (i + 2) = 92) then
    let pathlen := out.length
    if pathlen ≥ 3 ∧ at_ out (pathlen - 1) = 92 ∧ at_ out (pathlen - 2) = 46 ∧
        at_ out (pathlen - 3) = 46 then
      .brk
    else
      let i1 := skip_slashes_win (to_.drop (i + 3)) (i + 3)
      if pathlen > 1 then
        .cont (out.take (back_dir_c 92 out pathlen (pathlen - 1))) i1
      else .cont out i1
  else .brk

/-- `combpath_win(from, to)` of libyasm/file.cpp: the string in the buffer
returned. -/
def combpath_win_c (from_ to_ : List Nat) : List Nat :=
  if (isalpha (at_ to_ 0) = true ∧ at_ to_ 1 = 58) ∨ at_ to_ 0 = 47 ∨ at_ to_ 0 = 92 then
    copy_combine_win to_
  else
    let pathlen := (splitpath_win_c from_).1
    let out := copy_combine_win (from_.take pathlen)
    -- add trailing slash back in, unless it's only a raw drive letter
    let out :=
      if out.length > 0 ∧ at_ out (out.length - 1) ≠ 92 ∧
          ¬ (out.length = 2 ∧ isalpha (at_ out 0) = true ∧ at_ out 1 = 58) then
        out ++ [92]
      else out
    let r := run_loop (combpath_win_c_step to_) (to_.length + 1) out 0
    r.1 ++ copy_combine_win (to_.drop r.2)

/-- `orig.compare(pos, npos, ext) == 0`: the part of `orig` from `pos` on
equals `ext`. -/
def compare_from (orig : List Nat) (pos : Nat) (ext : List Nat) : Bool :=
  decide (orig.drop pos = ext)

/-- `replace_extension(orig, ext, def)` of lib/yasmx/file.cpp. -/
def replace_extension (orig ext def_ : List Nat) : List Nat :=
  match rfind_if (fun c => c == 46) orig (orig.length - 1) with
  | some origext =>
    -- existing extension: make sure it is not the same as the replacement
    if compare_from orig origext ext = true then def_
    else orig.take origext ++ ext
  | none =>
    -- no extension: make sure the output extension is not empty
    if ext = [] then def_
    else orig ++ ext

end yasm

namespace yasm
namespace objfmt
namespace win64

/-! ## Theorems on the unwind codes -/

theorem ULONG_MOD_val : ULONG_MOD = 18446744073709551616 := by
  norm_num [ULONG_MOD]

/-- C1: for every state, span id and values, when the length has room for the
two additions (`len + 4` does not wrap an `unsigned long`), the length after
`expand` is at least the length before, whether the call returns or raises. -/
theorem expand_len_monotone (ndebug : Bool) (uw : UnwindCode) (len : Nat)
    (span old_val new_val neg_thres pos_thres : Int)
    (hlen : len + 4 < ULONG_MOD) :
    len ≤ (expand ndebug uw len span old_val new_val neg_thres pos_thres).len := by
  rw [ULONG_MOD_val] at hlen
  unfold expand
  simp only [ULONG_MOD_val]
  split_ifs <;> simp <;> omega

theorem expand_len_monotone_witness :
    1 + 4 < ULONG_MOD ∧
      1 ≤ (expand false ⟨.ALLOC_SMALL, 0⟩ 1 1 0 600000 8 128).len :=
  ⟨by decide, expand_len_monotone false ⟨.ALLOC_SMALL, 0⟩ 1 1 0 600000 8 128 (by decide)⟩

/-- C8: with `new_val < 0`, `expand` raises "negative offset not allowed" and
leaves the opcode, the info, the length and both thresholds as they were, for
every state and span id. -/
theorem expand_negative_raises (ndebug : Bool) (uw : UnwindCode) (len : Nat)
    (span old_val new_val neg_thres pos_thres : Int) (hneg : new_val < 0) :
    expand ndebug uw len span old_val new_val neg_thres pos_thres =
      ⟨uw, len, neg_thres, pos_thres, .raised .negative_offset⟩ := by
  unfold expand
  rw [if_pos hneg]

theorem expand_negative_raises_witness :
    (-8 : Int) < 0 ∧
      expand false ⟨.ALLOC_LARGE, 0⟩ 3 1 200 (-8) 8 524280 =
        ⟨⟨.ALLOC_LARGE, 0⟩, 3, 8, 524280, .raised .negative_offset⟩ :=
  ⟨by decide,
    expand_negative_raises false ⟨.ALLOC_LARGE, 0⟩ 3 1 200 (-8) 8 524280 (by decide)⟩

/-- C7: when the offset is not a known constant, `calc_len` returns the length
of the smallest tier and registers one span: id 1 with window [8, 128] for
ALLOC_SMALL and ALLOC_LARGE (length 1), id 2 with [0, 524280] for SAVE_NONVOL
and SAVE_NONVOL_FAR (length 3), id 3 with [0, 1048560] for SAVE_XMM128 and
SAVE_XMM128_FAR (length 3); for PUSH_NONVOL, SET_FPREG and PUSH_MACHFRAME it
returns 1 and registers no span. -/
theorem calc_len_unknown_offset (ndebug : Bool) (info : Nat) :
    ((calc_len ndebug ⟨.ALLOC_SMALL, info⟩ none).ret = .returned 1 ∧
      (calc_len ndebug ⟨.ALLOC_SMALL, info⟩ none).spans = [⟨1, 8, 128⟩]) ∧
    ((calc_len ndebug ⟨.ALLOC_LARGE, info⟩ none).ret = .returned 1 ∧
      (calc_len ndebug ⟨.ALLOC_LARGE, info⟩ none).spans = [⟨1, 8, 128⟩]) ∧
    ((calc_len ndebug ⟨.SAVE_NONVOL, info⟩ none).ret = .returned 3 ∧
      (calc_len ndebug ⟨.SAVE_NONVOL, info⟩ none).spans = [⟨2, 0, 524280⟩]) ∧
    ((calc_len ndebug ⟨.SAVE_NONVOL_FAR, info⟩ none).ret = .returned 3 ∧
      (calc_len ndebug ⟨.SAVE_NONVOL_FAR, info⟩ none).spans = [⟨2, 0, 524280⟩]) ∧
    ((calc_len ndebug ⟨.SAVE_XMM128, info⟩ none).ret = .returned 3 ∧
      (calc_len ndebug ⟨.SAVE_XMM128, info⟩ none).spans = [⟨3, 0, 1048560⟩]) ∧
    ((calc_len ndebug ⟨.SAVE_XMM128_FAR, info⟩ none).ret = .returned 3 ∧
      (calc_len ndebug ⟨.SAVE_XMM128_FAR, info⟩ none).spans = [⟨3, 0, 1048560⟩]) ∧
    ((calc_len ndebug ⟨.PUSH_NONVOL, info⟩ none).ret = .returned 1 ∧
      (calc_len ndebug ⟨.PUSH_NONVOL, info⟩ none).spans = []) ∧
    ((calc_len ndebug ⟨.SET_FPREG, info⟩ none).ret = .returned 1 ∧
      (calc_len ndebug ⟨.SET_FPREG, info⟩ none).spans = []) ∧
    ((calc_len ndebug ⟨.PUSH_MACHFRAME, info⟩ none).ret = .returned 1 ∧
      (calc_len ndebug ⟨.PUSH_MACHFRAME, info⟩ none).spans = []) := by
  simp [calc_len, calc_len_tail]

/-- C9: for SAVE_NONVOL or SAVE_NONVOL_FAR with a known constant offset `v`,
`calc_len` raises exactly when `v < 0` or `v` is not a multiple of 8; when it
does not raise it returns 3 for `v ≤ 524280` and 5 for `v > 524280`; in every
case it registers no span. -/
theorem calc_len_save_nonvol_const (ndebug : Bool) (uw : UnwindCode) (v : Int)
    (hop : uw.m_opcode = .SAVE_NONVOL ∨ uw.m_opcode = .SAVE_NONVOL_FAR) :
    ((∃ e, (calc_len ndebug uw (some v)).ret = .raised e) ↔ (v < 0 ∨ v % 8 ≠ 0)) ∧
    (0 ≤ v → v % 8 = 0 → v ≤ 524280 →
      (calc_len ndebug uw (some v)).ret = .returned 3) ∧
    (v % 8 = 0 → 524280 < v →
      (calc_len ndebug uw (some v)).ret = .returned 5) ∧
    (calc_len ndebug uw (some v)).spans = [] := by
  have hcl : calc_len ndebug uw (some v) =
      calc_len_tail ndebug ⟨.SAVE_NONVOL, uw.m_info⟩ (1 + 2) 2 0 (8*64*1024-8) 0x7
        (some v) := by
    rcases hop with h | h <;> simp [calc_len, h]
  rw [hcl]
  by_cases hhi : v > 8*64*1024-8
  · have hnn : ¬ v < 0 := by omega
    have hex : expand ndebug ⟨.SAVE_NONVOL, uw.m_info⟩ (1 + 2) 2 v v 0 (8*64*1024-8) =
        ⟨⟨.SAVE_NONVOL_FAR, uw.m_info⟩, 5, 0, 8*64*1024-8, .returned false⟩ := by
      simp [expand, hnn, ULONG_MOD_val]
    simp only [calc_len_tail, if_pos hhi, hex]
    by_cases hm : v % 8 = 0
    · simp [hm, hnn]
      omega
    · simp [hm, hnn]
  · simp only [calc_len_tail, if_neg hhi]
    by_cases hn : v < 0
    · simp [hn]
      omega
    · by_cases hm : v % 8 = 0
      · simp [hm, hn]
        omega
      · simp [hm, hn]

theorem calc_len_save_nonvol_const_witness :
    (Opcode.SAVE_NONVOL_FAR = .SAVE_NONVOL ∨
        Opcode.SAVE_NONVOL_FAR = .SAVE_NONVOL_FAR) ∧
      (calc_len false ⟨.SAVE_NONVOL_FAR, 6⟩ (some 600000)).ret = .returned 5 ∧
      (calc_len false ⟨.SAVE_NONVOL_FAR, 6⟩ (some 600000)).spans = [] :=
  ⟨Or.inr rfl,
    (calc_len_save_nonvol_const false ⟨.SAVE_NONVOL_FAR, 6⟩ 600000 (Or.inr rfl)).2.2.1
      (by decide) (by decide),
    (calc_len_save_nonvol_const false ⟨.SAVE_NONVOL_FAR, 6⟩ 600000 (Or.inr rfl)).2.2.2⟩

theorem output_tail_raised (X : Externs) (uw : UnwindCode) (size shift : Nat)
    (low high : Int) (mask : Nat) (off : Option Int) (e : Err)
    (h : (output_tail X uw size shift low high mask off).ret = .raised e) :
    (output_tail X uw size shift low high mask off).scratch = [] ∧
    (output_tail X uw size shift low high mask off).emitted = none ∧
    (output_tail X uw size shift low high mask off).uw = uw ∧
    (e = .too_complex ∨ (∃ v lo hi, e = .out_of_range v lo hi) ∨
      ∃ v m, e = .not_multiple v m) := by
  unfold output_tail at h ⊢
  cases off with
  | none =>
    simp only [Outcome.raised.injEq] at h
    simp [← h]
  | some intn =>
    simp only at h ⊢
    split_ifs at h ⊢ with h1 h2
    · simp only [Outcome.raised.injEq] at h
      simp [← h]
    · simp only [Outcome.raised.injEq] at h
      simp [← h]

/-- C10: whenever `output` raises, the scratch buffer is still empty, nothing
was handed to `bc_out.output`, and the opcode and info are unchanged; the
error is one of "offset expression too complex", the out-of-range error and
the not-a-multiple error. -/
theorem output_raises_before_writing (X : Externs) (uw : UnwindCode)
    (off : Option Int) (e : Err) (h : (output X uw off).ret = .raised e) :
    (output X uw off).scratch = [] ∧ (output X uw off).emitted = none ∧
    (output X uw off).uw = uw ∧
    (e = .too_complex ∨ (∃ v lo hi, e = .out_of_range v lo hi) ∨
      ∃ v m, e = .not_multiple v m) := by
  obtain ⟨op, info⟩ := uw
  cases op <;> simp only [output] at h ⊢
  all_goals first
    | exact output_tail_raised X _ _ _ _ _ _ off e h
    | (split_ifs at h ⊢ <;> exact output_tail_raised X _ _ _ _ _ _ off e h)
    | simp at h

theorem output_raises_before_writing_witness :
    (output win64Externs ⟨.ALLOC_SMALL, 5⟩ (some 136)).ret =
        .raised (.out_of_range 136 8 128) ∧
      (output win64Externs ⟨.ALLOC_SMALL, 5⟩ (some 136)).scratch = [] ∧
      (output win64Externs ⟨.ALLOC_SMALL, 5⟩ (some 136)).emitted = none ∧
      (output win64Externs ⟨.ALLOC_SMALL, 5⟩ (some 136)).uw = ⟨.ALLOC_SMALL, 5⟩ :=
  have h := output_raises_before_writing win64Externs ⟨.ALLOC_SMALL, 5⟩ (some 136)
    (.out_of_range 136 8 128) (by decide)
  ⟨by decide, h.1, h.2.1, h.2.2.1⟩

theorem store_info_of_size_ne_zero (X : Externs) (uw : UnwindCode) (size : Nat)
    (intn : Int) (hsize : size ≠ 0) : store_info X uw size intn = uw := by
  simp [store_info, hsize]

theorem store_info_twice (X : Externs) (uw : UnwindCode) (size : Nat)
    (intn : Int) :
    store_info X (store_info X uw size intn) size intn = store_info X uw size intn := by
  by_cases hsize : size = 0
  · simp [store_info, hsize]
  · simp [store_info_of_size_ne_zero, hsize]

theorem store_info_opcode (X : Externs) (uw : UnwindCode) (size : Nat)
    (intn : Int) : (store_info X uw size intn).m_opcode = uw.m_opcode := by
  unfold store_info
  split_ifs <;> simp only

theorem output_tail_uw_of_size_ne_zero (X : Externs) (uw : UnwindCode)
    (size shift : Nat) (low high : Int) (mask : Nat) (off : Option Int)
    (hsize : size ≠ 0) :
    (output_tail X uw size shift low high mask off).uw = uw := by
  unfold output_tail
  cases off with
  | none => rfl
  | some intn =>
    simp only
    split_ifs
    · simp only
    · simp only
    · exact store_info_of_size_ne_zero X uw size _ hsize

theorem output_tail_twice (X : Externs) (uw : UnwindCode) (size shift : Nat)
    (low high : Int) (mask : Nat) (off : Option Int) :
    output_tail X (output_tail X uw size shift low high mask off).uw size shift
        low high mask off =
      output_tail X uw size shift low high mask off := by
  unfold output_tail
  cases off with
  | none => rfl
  | some intn =>
    simp only
    split_ifs
    · simp only
    · simp only
    · simp only [store_info_twice]

theorem output_alloc_small (X : Externs) (uw : UnwindCode) (off : Option Int)
    (h : uw.m_opcode = .ALLOC_SMALL) :
    output X uw off = output_tail X uw 0 3 8 128 0x7 off := by
  simp [output, h]

theorem output_tail_opcode (X : Externs) (uw : UnwindCode) (size shift : Nat)
    (low high : Int) (mask : Nat) (off : Option Int) :
    (output_tail X uw size shift low high mask off).uw.m_opcode = uw.m_opcode := by
  unfold output_tail
  cases off with
  | none => rfl
  | some intn =>
    simp only
    split_ifs
    · simp only
    · simp only
    · exact store_info_opcode X uw size _

theorem output_uw_of_ne_alloc_small (X : Externs) (uw : UnwindCode)
    (off : Option Int) (h : uw.m_opcode ≠ .ALLOC_SMALL) :
    (output X uw off).uw = uw := by
  obtain ⟨op, info⟩ := uw
  cases op <;> simp only [output]
  all_goals first
    | exact output_tail_uw_of_size_ne_zero X _ _ _ _ _ _ off (by decide)
    | (split_ifs <;> exact output_tail_uw_of_size_ne_zero X _ _ _ _ _ _ off (by decide))
    | exact absurd rfl h

/-- C5: a second call of `output` on the unwind code the first call left, with
the same resolved offset, ends the same way, puts the same bytes in the
scratch buffer, hands the same bytes to the output and leaves the same opcode
and info; for ALLOC_SMALL the info stored by the second call is the one stored
by the first. -/
theorem output_twice_identical (X : Externs) (uw : UnwindCode)
    (off : Option Int) :
    output X (output X uw off).uw off = output X uw off := by
  by_cases h : uw.m_opcode = .ALLOC_SMALL
  · have h1 : (output X uw off).uw.m_opcode = .ALLOC_SMALL := by
      rw [output_alloc_small X uw off h, output_tail_opcode, h]
    rw [output_alloc_small X _ off h1, output_alloc_small X uw off h]
    exact output_tail_twice X uw 0 3 8 128 0x7 off
  · rw [output_uw_of_ne_alloc_small X uw off h]

/-- The case of `output` for the codes of one node, which no bytecode comes
to because `append_unwind_code` appends their byte itself: for PUSH_NONVOL
`calc_len` would return length 1, and `output` would return having put one
byte in the scratch buffer without handing anything to `bc_out.output`. -/
theorem output_push_nonvol_emits_nothing :
    (calc_len false ⟨.PUSH_NONVOL, 3⟩ none).ret = .returned 1 ∧
    (calc_len false ⟨.PUSH_NONVOL, 3⟩ none).spans = [] ∧
    (output win64Externs ⟨.PUSH_NONVOL, 3⟩ none).ret = .returned () ∧
    (output win64Externs ⟨.PUSH_NONVOL, 3⟩ none).scratch = [0x30] ∧
    (output win64Externs ⟨.PUSH_NONVOL, 3⟩ none).emitted = none ∧
    (output win64Externs ⟨.PUSH_NONVOL, 3⟩ none).emitted_len = 0 := by
  decide

theorem land_seven_of_emod_eight (n : Nat) (h : n % 8 = 0) : n &&& 0x7 = 0 := by
  have h7 : (0x7 : Nat) = 2 ^ 3 - 1 := by norm_num
  rw [h7, Nat.and_pow_two_sub_one_eq_mod]
  simpa using h

theorem win64Externs_get_uint (n : Int) (h0 : 0 ≤ n) (h1 : n ≤ 8*64*1024-8) :
    win64Externs.get_uint n = n.toNat := by
  have hn : ¬ n < 0 := by omega
  simp only [win64Externs, if_neg hn]
  omega

/-- C2 (counterexample): from ALLOC_SMALL with new value 200, `expand` for span
id 1 reports "still dependent" with positive threshold 524280 and leaves
ALLOC_LARGE with info 0; the offset 8, a multiple of 8 inside [8, 524280], is
then rejected by `output` with the out-of-range error. -/
theorem expand_window_not_all_accepted :
    (expand false ⟨.ALLOC_SMALL, 0⟩ 1 1 0 200 8 128).ret = .returned true ∧
    (expand false ⟨.ALLOC_SMALL, 0⟩ 1 1 0 200 8 128).pos_thres = 524280 ∧
    (expand false ⟨.ALLOC_SMALL, 0⟩ 1 1 0 200 8 128).uw = ⟨.ALLOC_LARGE, 0⟩ ∧
    (8 : Int) % 8 = 0 ∧ (8 : Int) ≤ 8 ∧
    (8 : Int) ≤ (expand false ⟨.ALLOC_SMALL, 0⟩ 1 1 0 200 8 128).pos_thres ∧
    (output win64Externs (expand false ⟨.ALLOC_SMALL, 0⟩ 1 1 0 200 8 128).uw
        (some 8)).ret = .raised (.out_of_range 8 136 524280) := by
  decide

/-- C2 (amended): whenever `expand` for span id 1 reports "still dependent" and
leaves the code as ALLOC_LARGE, every offset `v` that is a multiple of 8 with
`136 ≤ v ≤ P`, `P` the positive threshold `expand` returned, is accepted by
`output` in the opcode and info state that `expand` left.  `get_uint` is taken
to return a value in `[0, 524280]` unchanged. -/
theorem expand_large_window_accepted (X : Externs)
    (hX : ∀ n : Int, 0 ≤ n → n ≤ 8*64*1024-8 → X.get_uint n = n.toNat)
    (ndebug : Bool) (uw : UnwindCode) (len : Nat)
    (old_val new_val neg_thres pos_thres : Int)
    (hret : (expand ndebug uw len 1 old_val new_val neg_thres pos_thres).ret =
      .returned true)
    (hlarge : (expand ndebug uw len 1 old_val new_val neg_thres pos_thres).uw.m_opcode =
      .ALLOC_LARGE)
    (v : Int) (hmul : v % 8 = 0) (hlow : 136 ≤ v)
    (hhigh : v ≤ (expand ndebug uw len 1 old_val new_val neg_thres pos_thres).pos_thres) :
    (output X (expand ndebug uw len 1 old_val new_val neg_thres pos_thres).uw
      (some v)).ret = .returned () := by
  have hP : (expand ndebug uw len 1 old_val new_val neg_thres pos_thres).pos_thres =
      8*64*1024-8 := by
    unfold expand at hret ⊢
    split_ifs at hret ⊢ <;> simp_all
  rw [hP] at hhigh
  have hmask : X.get_uint v &&& 0x7 = 0 := by
    rw [hX v (by omega) hhigh]
    exact land_seven_of_emod_eight _ (by omega)
  generalize (expand ndebug uw len 1 old_val new_val neg_thres pos_thres).uw = u at hlarge ⊢
  obtain ⟨op, info⟩ := u
  simp only at hlarge
  subst hlarge
  simp only [output]
  split_ifs
  · have hr : ¬ ((2 : Nat) ≠ 4 ∧ ¬ ((136 : Int) ≤ v ∧ v ≤ 8*64*1024-8)) := by
      intro h
      exact h.2 ⟨hlow, hhigh⟩
    simp only [output_tail, if_neg hr, hmask, ne_eq, not_true_eq_false, if_false]
  · simp only [output_tail, hmask, ne_eq, not_true_eq_false, false_and, if_false]

theorem expand_large_window_accepted_witness :
    (expand false ⟨.ALLOC_SMALL, 0⟩ 1 1 0 200 8 128).ret = .returned true ∧
    (expand false ⟨.ALLOC_SMALL, 0⟩ 1 1 0 200 8 128).uw.m_opcode = .ALLOC_LARGE ∧
    (200 : Int) % 8 = 0 ∧ (136 : Int) ≤ 200 ∧
    (200 : Int) ≤ (expand false ⟨.ALLOC_SMALL, 0⟩ 1 1 0 200 8 128).pos_thres ∧
    (output win64Externs (expand false ⟨.ALLOC_SMALL, 0⟩ 1 1 0 200 8 128).uw
      (some 200)).ret = .returned () :=
  ⟨by decide, by decide, by decide, by decide, by decide,
    expand_large_window_accepted win64Externs win64Externs_get_uint false
      ⟨.ALLOC_SMALL, 0⟩ 1 0 200 8 128 (by decide) (by decide) 200 (by decide)
      (by decide) (by decide)⟩

theorem expand_alloc_step (ndebug : Bool) (uw : UnwindCode) (len : Nat)
    (o n neg pos : Int)
    (hinv : (uw.m_opcode = .ALLOC_SMALL ∧ len = 1) ∨
      (uw.m_opcode = .ALLOC_LARGE ∧ len = 3)) :
    ((expand ndebug uw len 1 o n neg pos).len = 1 ∨
      (expand ndebug uw len 1 o n neg pos).len = 3 ∨
      (expand ndebug uw len 1 o n neg pos).len = 5) ∧
    ((expand ndebug uw len 1 o n neg pos).ret = .returned true →
      (((expand ndebug uw len 1 o n neg pos).uw.m_opcode = .ALLOC_SMALL ∧
          (expand ndebug uw len 1 o n neg pos).len = 1) ∨
        ((expand ndebug uw len 1 o n neg pos).uw.m_opcode = .ALLOC_LARGE ∧
          (expand ndebug uw len 1 o n neg pos).len = 3))) := by
  obtain ⟨op, info⟩ := uw
  simp only at hinv
  rcases hinv with ⟨h1, h2⟩ | ⟨h1, h2⟩ <;> subst h1 <;> subst h2 <;>
    simp only [expand, ULONG_MOD_val] <;> split_ifs <;> simp_all

theorem expand_seq_alloc_len (ndebug : Bool) (vals : List (Int × Int)) :
    ∀ (uw : UnwindCode) (len : Nat) (neg pos : Int),
      ((uw.m_opcode = .ALLOC_SMALL ∧ len = 1) ∨
        (uw.m_opcode = .ALLOC_LARGE ∧ len = 3)) →
      (expand_seq ndebug 1 uw len neg pos vals).len = 1 ∨
      (expand_seq ndebug 1 uw len neg pos vals).len = 3 ∨
      (expand_seq ndebug 1 uw len neg pos vals).len = 5 := by
  induction vals with
  | nil =>
    intro uw len neg pos hinv
    simp only [expand_seq]
    rcases hinv with ⟨_, h⟩ | ⟨_, h⟩ <;> simp [h]
  | cons p rest ih =>
    intro uw len neg pos hinv
    obtain ⟨o, n⟩ := p
    have hstep := expand_alloc_step ndebug uw len o n neg pos hinv
    simp only [expand_seq]
    split
    · next hr => exact ih _ _ _ _ (hstep.2 hr)
    · exact hstep.1

theorem expand_seq_save_len (ndebug : Bool) (span : Int) (hspan : span ≠ 1)
    (vals : List (Int × Int)) (uw : UnwindCode) (neg pos : Int) :
    (expand_seq ndebug span uw 3 neg pos vals).len = 3 ∨
    (expand_seq ndebug span uw 3 neg pos vals).len = 5 := by
  cases vals with
  | nil => simp [expand_seq]
  | cons p rest =>
    obtain ⟨o, n⟩ := p
    have hret : (expand ndebug uw 3 span o n neg pos).ret ≠ .returned true := by
      simp only [expand, if_neg hspan]
      split_ifs <;> simp
    have hlen : (expand ndebug uw 3 span o n neg pos).len = 3 ∨
        (expand ndebug uw 3 span o n neg pos).len = 5 := by
      simp only [expand, if_neg hspan, ULONG_MOD_val]
      split_ifs <;> simp
    simp only [expand_seq]
    exact hlen

theorem calc_len_tail_alloc (ndebug : Bool) (off : Option Int) (len0 : Nat)
    (hret : (calc_len_tail ndebug ⟨.ALLOC_SMALL, 0⟩ 1 1 8 128 0x7 off).ret =
      .returned len0) :
    (len0 = 1 ∨ len0 = 3 ∨ len0 = 5) ∧
    ∀ sp ∈ (calc_len_tail ndebug ⟨.ALLOC_SMALL, 0⟩ 1 1 8 128 0x7 off).spans,
      sp.id = 1 ∧
      (((calc_len_tail ndebug ⟨.ALLOC_SMALL, 0⟩ 1 1 8 128 0x7 off).uw.m_opcode =
          .ALLOC_SMALL ∧ len0 = 1) ∨
        ((calc_len_tail ndebug ⟨.ALLOC_SMALL, 0⟩ 1 1 8 128 0x7 off).uw.m_opcode =
          .ALLOC_LARGE ∧ len0 = 3)) := by
  cases off with
  | none =>
    simp only [calc_len_tail, Outcome.returned.injEq] at hret ⊢
    subst hret
    simp
  | some v =>
    by_cases h1 : v > 128
    · have hnn : ¬ v < 0 := by omega
      by_cases h2 : v ≤ 524280
      · have hex : expand ndebug ⟨.ALLOC_SMALL, 0⟩ 1 1 v v 8 128 =
            ⟨⟨.ALLOC_LARGE, 0⟩, 3, 8, 8*64*1024-8, .returned true⟩ := by
          simp [expand, hnn, h1, h2, ULONG_MOD_val]
        simp only [calc_len_tail, if_pos h1, hex] at hret ⊢
        split_ifs at hret ⊢
        all_goals simp_all
      · have hex : expand ndebug ⟨.ALLOC_SMALL, 0⟩ 1 1 v v 8 128 =
            ⟨⟨.ALLOC_LARGE, 1⟩, 5, 8, 128, .returned false⟩ := by
          simp [expand, hnn, h1, h2, ULONG_MOD_val]
        simp only [calc_len_tail, if_pos h1, hex] at hret ⊢
        split_ifs at hret ⊢ <;> simp_all
    · simp only [calc_len_tail, if_neg h1] at hret ⊢
      split_ifs at hret ⊢ <;> simp_all

theorem calc_len_tail_save (ndebug : Bool) (uw : UnwindCode) (span : Int)
    (hspan : span ≠ 1) (high mask : Int) (off : Option Int) (len0 : Nat)
    (hop : (uw.m_opcode = .SAVE_NONVOL ∧ span = 2) ∨
      (uw.m_opcode = .SAVE_XMM128 ∧ span = 3))
    (hret : (calc_len_tail ndebug uw (1 + 2) span 0 high mask off).ret =
      .returned len0) :
    (len0 = 3 ∨ len0 = 5) ∧
    ∀ sp ∈ (calc_len_tail ndebug uw (1 + 2) span 0 high mask off).spans,
      sp.id = span ∧ len0 = 3 := by
  cases off with
  | none =>
    simp only [calc_len_tail, Outcome.returned.injEq] at hret ⊢
    subst hret
    simp
  | some v =>
    by_cases h1 : v > high
    · by_cases hnn : v < 0
      · simp only [calc_len_tail, if_pos h1, expand, if_pos hnn] at hret
        simp at hret
      · have hex : expand ndebug uw (1 + 2) span v v 0 high =
            ⟨⟨(if span = 2 then .SAVE_NONVOL_FAR else .SAVE_XMM128_FAR), uw.m_info⟩,
              5, 0, high, .returned false⟩ := by
          rcases hop with ⟨ho, hs⟩ | ⟨ho, hs⟩ <;> subst hs <;>
            simp [expand, hnn, ho, ULONG_MOD_val]
        simp only [calc_len_tail, if_pos h1, hex] at hret ⊢
        split_ifs at hret ⊢ <;> simp_all
    · simp only [calc_len_tail, if_neg h1] at hret ⊢
      split_ifs at hret ⊢ <;> simp_all

/-- C3: when `calc_len` returns a length, that length and the length after any
sequence of `expand` calls for the span `calc_len` registered (the sequence
stops at the first call that raises or reports "no longer dependent") is one
of the tiers of the code: 1, 3 or 5 for allocation codes, 3 or 5 for save
codes, 1 for the codes without offset; it never exceeds 5. -/
theorem calc_len_expand_length_tiers (ndebug : Bool) (uw : UnwindCode)
    (off : Option Int) (len0 : Nat)
    (hret : (calc_len ndebug uw off).ret = .returned len0) :
    (len0 ∈ length_tiers uw.m_opcode ∧ len0 ≤ 5) ∧
    ∀ sp ∈ (calc_len ndebug uw off).spans, ∀ vals : List (Int × Int),
      (expand_seq ndebug sp.id (calc_len ndebug uw off).uw len0 sp.neg_thres
          sp.pos_thres vals).len ∈ length_tiers uw.m_opcode ∧
      (expand_seq ndebug sp.id (calc_len ndebug uw off).uw len0 sp.neg_thres
          sp.pos_thres vals).len ≤ 5 := by
  obtain ⟨op, info⟩ := uw
  cases op
  case PUSH_NONVOL | SET_FPREG | PUSH_MACHFRAME =>
    simp only [calc_len, Outcome.returned.injEq] at hret ⊢
    subst hret
    simp [length_tiers]
  case ALLOC_SMALL | ALLOC_LARGE =>
    simp only [calc_len] at hret ⊢
    obtain ⟨h0, hsp⟩ := calc_len_tail_alloc ndebug off len0 hret
    refine ⟨⟨by simpa [length_tiers] using h0, by omega⟩, ?_⟩
    intro sp hmem vals
    obtain ⟨hid, hinv⟩ := hsp sp hmem
    rw [hid]
    have h := expand_seq_alloc_len ndebug vals _ len0 sp.neg_thres sp.pos_thres hinv
    exact ⟨by simpa [length_tiers] using h, by omega⟩
  case SAVE_NONVOL | SAVE_NONVOL_FAR =>
    simp only [calc_len] at hret ⊢
    obtain ⟨h0, hsp⟩ := calc_len_tail_save ndebug ⟨.SAVE_NONVOL, info⟩ 2 (by decide)
      _ _ off len0 (Or.inl ⟨rfl, rfl⟩) hret
    refine ⟨⟨by simpa [length_tiers] using h0, by omega⟩, ?_⟩
    intro sp hmem vals
    obtain ⟨hid, hlen⟩ := hsp sp hmem
    rw [hid, hlen]
    have h := expand_seq_save_len ndebug 2 (by decide) vals
      (calc_len_tail ndebug ⟨.SAVE_NONVOL, info⟩ (1 + 2) 2 0 (8*64*1024-8) 0x7 off).uw
      sp.neg_thres sp.pos_thres
    exact ⟨by simpa [length_tiers] using h, by omega⟩
  case SAVE_XMM128 | SAVE_XMM128_FAR =>
    simp only [calc_len] at hret ⊢
    obtain ⟨h0, hsp⟩ := calc_len_tail_save ndebug ⟨.SAVE_XMM128, info⟩ 3 (by decide)
      _ _ off len0 (Or.inr ⟨rfl, rfl⟩) hret
    refine ⟨⟨by simpa [length_tiers] using h0, by omega⟩, ?_⟩
    intro sp hmem vals
    obtain ⟨hid, hlen⟩ := hsp sp hmem
    rw [hid, hlen]
    have h := expand_seq_save_len ndebug 3 (by decide) vals
      (calc_len_tail ndebug ⟨.SAVE_XMM128, info⟩ (1 + 2) 3 0 (16*64*1024-16) 0xF off).uw
      sp.neg_thres sp.pos_thres
    exact ⟨by simpa [length_tiers] using h, by omega⟩

theorem calc_len_expand_length_tiers_witness :
    (calc_len false ⟨.ALLOC_LARGE, 7⟩ none).ret = .returned 1 ∧
      (expand_seq false 1 (calc_len false ⟨.ALLOC_LARGE, 7⟩ none).uw 1 8 128
          [(0, 200), (200, 600000)]).len ∈ length_tiers .ALLOC_LARGE ∧
      (expand_seq false 1 (calc_len false ⟨.ALLOC_LARGE, 7⟩ none).uw 1 8 128
          [(0, 200), (200, 600000)]).len ≤ 5 :=
  ⟨by decide,
    (calc_len_expand_length_tiers false ⟨.ALLOC_LARGE, 7⟩ none 1 (by decide)).2
      ⟨1, 8, 128⟩ (by decide) [(0, 200), (200, 600000)]⟩

theorem calc_len_eq_of_start (ndebug : Bool) (uw : UnwindCode) (off : Option Int) :
    calc_len ndebug uw off = calc_len ndebug (calc_len_start uw) off := by
  obtain ⟨op, info⟩ := uw
  cases op <;> simp only [calc_len, calc_len_start]

theorem calc_len_start_expand (ndebug : Bool) (uw : UnwindCode) (len : Nat)
    (span o n neg pos : Int)
    (hspan : span = 1 → calc_len_start uw = ⟨.ALLOC_SMALL, 0⟩) :
    calc_len_start (expand ndebug uw len span o n neg pos).uw = calc_len_start uw := by
  obtain ⟨op, info⟩ := uw
  by_cases h1 : span = 1
  · have hs := hspan h1
    subst h1
    cases op <;> simp only [calc_len_start, UnwindCode.mk.injEq] at hs <;>
      simp only [expand] <;> split_ifs <;> simp_all [calc_len_start]
  · cases op <;> simp only [expand, if_neg h1] <;> split_ifs <;>
      simp_all [calc_len_start]

theorem calc_len_start_expand_seq (ndebug : Bool) (span : Int)
    (vals : List (Int × Int)) :
    ∀ (uw : UnwindCode) (len : Nat) (neg pos : Int),
      (span = 1 → calc_len_start uw = ⟨.ALLOC_SMALL, 0⟩) →
      calc_len_start (expand_seq ndebug span uw len neg pos vals).uw =
        calc_len_start uw := by
  induction vals with
  | nil =>
    intro uw len neg pos _
    simp only [expand_seq]
  | cons p rest ih =>
    intro uw len neg pos hspan
    obtain ⟨o, n⟩ := p
    have hstep := calc_len_start_expand ndebug uw len span o n neg pos hspan
    simp only [expand_seq]
    split
    · rw [ih _ _ _ _ (fun h => by rw [hstep]; exact hspan h), hstep]
    · exact hstep

theorem calc_len_tail_spans_id (ndebug : Bool) (uw : UnwindCode) (len : Nat)
    (span low high mask : Int) (off : Option Int) :
    ∀ sp ∈ (calc_len_tail ndebug uw len span low high mask off).spans,
      sp.id = span := by
  intro sp hsp
  cases off with
  | none =>
    simp only [calc_len_tail, List.mem_singleton] at hsp
    rw [hsp]
  | some v =>
    simp only [calc_len_tail] at hsp
    split at hsp
    · simp at hsp
    · split_ifs at hsp <;> simp_all

theorem calc_len_tail_start (ndebug : Bool) (uw : UnwindCode) (len : Nat)
    (span low high mask : Int) (off : Option Int)
    (hspan : span = 1 → calc_len_start uw = ⟨.ALLOC_SMALL, 0⟩) :
    calc_len_start (calc_len_tail ndebug uw len span low high mask off).uw =
      calc_len_start uw := by
  cases off with
  | none => simp only [calc_len_tail]
  | some v =>
    have hex := calc_len_start_expand ndebug uw len span v v low high hspan
    simp only [calc_len_tail]
    split <;> split_ifs <;> simp_all

theorem calc_len_start_result (ndebug : Bool) (uw : UnwindCode)
    (off : Option Int) :
    calc_len_start (calc_len ndebug uw off).uw = calc_len_start uw := by
  obtain ⟨op, info⟩ := uw
  cases op <;> simp only [calc_len]
  all_goals first
    | rfl
    | (rw [calc_len_tail_start _ _ _ _ _ _ _ _ (by simp [calc_len_start])]; done)
    | (rw [calc_len_tail_start _ _ _ _ _ _ _ _ (by simp [calc_len_start])]
       simp [calc_len_start])

theorem calc_len_spans_start (ndebug : Bool) (uw : UnwindCode)
    (off : Option Int) :
    ∀ sp ∈ (calc_len ndebug uw off).spans,
      sp.id = 1 → calc_len_start uw = ⟨.ALLOC_SMALL, 0⟩ := by
  intro sp hsp hid
  obtain ⟨op, info⟩ := uw
  cases op <;> simp only [calc_len] at hsp
  all_goals first
    | (simp [calc_len_start]; done)
    | (have h := calc_len_tail_spans_id _ _ _ _ _ _ _ _ sp hsp
       rw [hid] at h
       exact absurd h (by decide))
    | simp at hsp

/-- C6: calling `calc_len` again, on the members the first call left and with
the same offset, gives the same result: the same length or exception, the
same spans (id and thresholds) and the same opcode and info.  The same holds
when, in between, `expand` was called any number of times for a span the
first call registered. -/
theorem calc_len_idempotent (ndebug : Bool) (uw : UnwindCode)
    (off : Option Int) :
    calc_len ndebug (calc_len ndebug uw off).uw off = calc_len ndebug uw off ∧
    ∀ sp ∈ (calc_len ndebug uw off).spans,
      ∀ (len : Nat) (neg pos : Int) (vals : List (Int × Int)),
        calc_len ndebug
            (expand_seq ndebug sp.id (calc_len ndebug uw off).uw len neg pos vals).uw
            off =
          calc_len ndebug uw off := by
  constructor
  · rw [calc_len_eq_of_start, calc_len_start_result, ← calc_len_eq_of_start]
  · intro sp hsp len neg pos vals
    have h1 := calc_len_spans_start ndebug uw off sp hsp
    rw [calc_len_eq_of_start, calc_len_start_expand_seq ndebug sp.id vals _ len neg pos
      (fun h => by rw [calc_len_start_result]; exact h1 h), calc_len_start_result,
      ← calc_len_eq_of_start]

theorem calc_len_idempotent_witness :
    calc_len false
        (expand_seq false 1 (calc_len false ⟨.ALLOC_LARGE, 7⟩ none).uw 1 8 128
          [(0, 200), (200, 600000)]).uw none =
      calc_len false ⟨.ALLOC_LARGE, 7⟩ none :=
  (calc_len_idempotent false ⟨.ALLOC_LARGE, 7⟩ none).2 ⟨1, 8, 128⟩ (by decide) 1 8 128
    [(0, 200), (200, 600000)]

theorem output_tail_emitted_len (X : Externs) (uw : UnwindCode) (size shift : Nat)
    (low high : Int) (mask : Nat) (off : Option Int)
    (hsize : size = 0 ∨ size = 2 ∨ size = 4)
    (hret : (output_tail X uw size shift low high mask off).ret = .returned ()) :
    (output_tail X uw size shift low high mask off).emitted_len = 1 + size := by
  cases off with
  | none => simp [output_tail] at hret
  | some intn =>
    simp only [output_tail] at hret ⊢
    split_ifs at hret ⊢
    rcases hsize with h | h | h <;> subst h <;>
      simp [OutputResult.emitted_len, output_bytes, write_8, write_16, write_32]

theorem output_emitted_len_of_fits (X : Externs) (uw : UnwindCode) (len : Nat)
    (off : Option Int)
    (hop : uw.m_opcode ≠ .PUSH_NONVOL ∧ uw.m_opcode ≠ .SET_FPREG ∧
      uw.m_opcode ≠ .PUSH_MACHFRAME)
    (hfit : len_fits uw len) (hret : (output X uw off).ret = .returned ()) :
    (output X uw off).emitted_len = len := by
  obtain ⟨op, info⟩ := uw
  cases op <;> simp only [output, len_fits] at hret hfit ⊢
  case PUSH_NONVOL => exact absurd rfl hop.1
  case SET_FPREG => exact absurd rfl hop.2.1
  case PUSH_MACHFRAME => exact absurd rfl hop.2.2
  case ALLOC_LARGE =>
    split_ifs at hret hfit ⊢
    · rw [output_tail_emitted_len X _ _ _ _ _ _ off (by decide) hret, hfit]
    · rw [output_tail_emitted_len X _ _ _ _ _ _ off (by decide) hret, hfit]
  all_goals
    rw [output_tail_emitted_len X _ _ _ _ _ _ off (by decide) hret, hfit]

theorem expand_alloc_fits (ndebug : Bool) (uw : UnwindCode) (len : Nat)
    (o n neg pos : Int) (hinv : alloc_growing uw len) :
    len_fits (expand ndebug uw len 1 o n neg pos).uw
        (expand ndebug uw len 1 o n neg pos).len ∧
    ((expand ndebug uw len 1 o n neg pos).ret = .returned true →
      alloc_growing (expand ndebug uw len 1 o n neg pos).uw
        (expand ndebug uw len 1 o n neg pos).len) := by
  obtain ⟨op, info⟩ := uw
  obtain ⟨hi, hinv⟩ := hinv
  simp only at hi hinv
  subst hi
  rcases hinv with ⟨h1, h2⟩ | ⟨h1, h2⟩ <;> subst h1 <;> subst h2 <;>
    simp only [expand, ULONG_MOD_val] <;> split_ifs <;>
    first
      | omega
      | (simp_all [len_fits, alloc_growing]; done)
      | (simp_all [len_fits, alloc_growing]; omega)

theorem expand_seq_alloc_fits (ndebug : Bool) (vals : List (Int × Int)) :
    ∀ (uw : UnwindCode) (len : Nat) (neg pos : Int), alloc_growing uw len →
      len_fits (expand_seq ndebug 1 uw len neg pos vals).uw
        (expand_seq ndebug 1 uw len neg pos vals).len := by
  induction vals with
  | nil =>
    intro uw len neg pos hinv
    obtain ⟨op, info⟩ := uw
    obtain ⟨hi, hinv⟩ := hinv
    simp only at hi hinv
    rcases hinv with ⟨h1, h2⟩ | ⟨h1, h2⟩ <;> subst h1 <;> subst h2 <;>
      simp [expand_seq, len_fits, hi]
  | cons p rest ih =>
    intro uw len neg pos hinv
    obtain ⟨o, n⟩ := p
    have hstep := expand_alloc_fits ndebug uw len o n neg pos hinv
    simp only [expand_seq]
    split
    · next hr => exact ih _ _ _ _ (hstep.2 hr)
    · exact hstep.1

theorem expand_seq_save_fits (ndebug : Bool) (span : Int) (uw : UnwindCode)
    (hop : (uw.m_opcode = .SAVE_NONVOL ∧ span = 2) ∨
      (uw.m_opcode = .SAVE_XMM128 ∧ span = 3))
    (vals : List (Int × Int)) (neg pos : Int) :
    len_fits (expand_seq ndebug span uw 3 neg pos vals).uw
      (expand_seq ndebug span uw 3 neg pos vals).len := by
  obtain ⟨op, info⟩ := uw
  simp only at hop
  cases vals with
  | nil => rcases hop with ⟨h, _⟩ | ⟨h, _⟩ <;> subst h <;> simp [expand_seq, len_fits]
  | cons p rest =>
    obtain ⟨o, n⟩ := p
    have hspan : span ≠ 1 := by rcases hop with ⟨_, h⟩ | ⟨_, h⟩ <;> omega
    have hret : (expand ndebug ⟨op, info⟩ 3 span o n neg pos).ret ≠ .returned true := by
      simp only [expand, if_neg hspan]
      split_ifs <;> simp
    have hfit : len_fits (expand ndebug ⟨op, info⟩ 3 span o n neg pos).uw
        (expand ndebug ⟨op, info⟩ 3 span o n neg pos).len := by
      rcases hop with ⟨h, hs⟩ | ⟨h, hs⟩ <;> subst h <;> subst hs <;>
        simp only [expand, ULONG_MOD_val] <;> split_ifs <;> simp_all [len_fits]
    simp only [expand_seq]
    exact hfit

theorem calc_len_tail_alloc_fits (ndebug : Bool) (off : Option Int) (len0 : Nat)
    (hret : (calc_len_tail ndebug ⟨.ALLOC_SMALL, 0⟩ 1 1 8 128 0x7 off).ret =
      .returned len0) :
    len_fits (calc_len_tail ndebug ⟨.ALLOC_SMALL, 0⟩ 1 1 8 128 0x7 off).uw len0 ∧
    ∀ sp ∈ (calc_len_tail ndebug ⟨.ALLOC_SMALL, 0⟩ 1 1 8 128 0x7 off).spans,
      sp.id = 1 ∧
      alloc_growing (calc_len_tail ndebug ⟨.ALLOC_SMALL, 0⟩ 1 1 8 128 0x7 off).uw len0 := by
  cases off with
  | none =>
    simp only [calc_len_tail, Outcome.returned.injEq] at hret ⊢
    subst hret
    simp [len_fits, alloc_growing]
  | some v =>
    by_cases h1 : v > 128
    · have hnn : ¬ v < 0 := by omega
      by_cases h2 : v ≤ 524280
      · have hex : expand ndebug ⟨.ALLOC_SMALL, 0⟩ 1 1 v v 8 128 =
            ⟨⟨.ALLOC_LARGE, 0⟩, 3, 8, 8*64*1024-8, .returned true⟩ := by
          simp [expand, hnn, h1, h2, ULONG_MOD_val]
        simp only [calc_len_tail, if_pos h1, hex] at hret ⊢
        split_ifs at hret ⊢
        all_goals simp_all [len_fits, alloc_growing]
      · have hex : expand ndebug ⟨.ALLOC_SMALL, 0⟩ 1 1 v v 8 128 =
            ⟨⟨.ALLOC_LARGE, 1⟩, 5, 8, 128, .returned false⟩ := by
          simp [expand, hnn, h1, h2, ULONG_MOD_val]
        simp only [calc_len_tail, if_pos h1, hex] at hret ⊢
        split_ifs at hret ⊢
        all_goals simp_all [len_fits, alloc_growing]
    · simp only [calc_len_tail, if_neg h1] at hret ⊢
      split_ifs at hret ⊢
      all_goals simp_all [len_fits, alloc_growing]

theorem calc_len_tail_save_fits (ndebug : Bool) (uw : UnwindCode) (span : Int)
    (high mask : Int) (off : Option Int) (len0 : Nat)
    (hop : (uw.m_opcode = .SAVE_NONVOL ∧ span = 2) ∨
      (uw.m_opcode = .SAVE_XMM128 ∧ span = 3))
    (hret : (calc_len_tail ndebug uw (1 + 2) span 0 high mask off).ret =
      .returned len0) :
    len_fits (calc_len_tail ndebug uw (1 + 2) span 0 high mask off).uw len0 ∧
    ∀ sp ∈ (calc_len_tail ndebug uw (1 + 2) span 0 high mask off).spans,
      sp.id = span ∧ len0 = 3 ∧
      (calc_len_tail ndebug uw (1 + 2) span 0 high mask off).uw = uw := by
  obtain ⟨op, info⟩ := uw
  simp only at hop
  cases off with
  | none =>
    simp only [calc_len_tail, Outcome.returned.injEq] at hret ⊢
    subst hret
    rcases hop with ⟨h, _⟩ | ⟨h, _⟩ <;> subst h <;> simp [len_fits]
  | some v =>
    by_cases h1 : v > high
    · by_cases hnn : v < 0
      · simp only [calc_len_tail, if_pos h1, expand, if_pos hnn] at hret
        simp at hret
      · have hex : expand ndebug ⟨op, info⟩ (1 + 2) span v v 0 high =
            ⟨⟨(if span = 2 then .SAVE_NONVOL_FAR else .SAVE_XMM128_FAR), info⟩,
              5, 0, high, .returned false⟩ := by
          rcases hop with ⟨ho, hs⟩ | ⟨ho, hs⟩ <;> subst hs <;>
            simp [expand, hnn, ho, ULONG_MOD_val]
        simp only [calc_len_tail, if_pos h1, hex] at hret ⊢
        split_ifs at hret ⊢
        all_goals (rcases hop with ⟨ho, hs⟩ | ⟨ho, hs⟩ <;> subst hs <;> simp_all [len_fits])
    · simp only [calc_len_tail, if_neg h1] at hret ⊢
      split_ifs at hret ⊢
      all_goals (rcases hop with ⟨ho, hs⟩ | ⟨ho, hs⟩ <;> subst hs <;> simp_all [len_fits])

/-- For the six opcodes that carry an offset, in every state reached by
`calc_len` followed by `expand` calls for the registered span, a call of
`output` that returns hands to `bc_out.output` as many bytes as the bytecode
length. -/
theorem output_emits_length_offset_codes (X : Externs) (ndebug : Bool)
    (uw : UnwindCode) (off off2 : Option Int) (len0 : Nat)
    (hop : uw.m_opcode ≠ .PUSH_NONVOL ∧ uw.m_opcode ≠ .SET_FPREG ∧
      uw.m_opcode ≠ .PUSH_MACHFRAME)
    (hret : (calc_len ndebug uw off).ret = .returned len0) :
    ((output X (calc_len ndebug uw off).uw off2).ret = .returned () →
      (output X (calc_len ndebug uw off).uw off2).emitted_len = len0) ∧
    ∀ sp ∈ (calc_len ndebug uw off).spans, ∀ vals : List (Int × Int),
      (output X (expand_seq ndebug sp.id (calc_len ndebug uw off).uw len0
          sp.neg_thres sp.pos_thres vals).uw off2).ret = .returned () →
      (output X (expand_seq ndebug sp.id (calc_len ndebug uw off).uw len0
          sp.neg_thres sp.pos_thres vals).uw off2).emitted_len =
        (expand_seq ndebug sp.id (calc_len ndebug uw off).uw len0
          sp.neg_thres sp.pos_thres vals).len := by
  have hkeep : ∀ u : UnwindCode, calc_len_start u = calc_len_start uw →
      u.m_opcode ≠ .PUSH_NONVOL ∧ u.m_opcode ≠ .SET_FPREG ∧
        u.m_opcode ≠ .PUSH_MACHFRAME := by
    intro u hu
    obtain ⟨op, info⟩ := uw
    obtain ⟨op2, info2⟩ := u
    simp only at hop
    cases op <;> cases op2 <;> simp_all [calc_len_start]
  have hfit : len_fits (calc_len ndebug uw off).uw len0 ∧
      ∀ sp ∈ (calc_len ndebug uw off).spans, ∀ vals : List (Int × Int),
        len_fits (expand_seq ndebug sp.id (calc_len ndebug uw off).uw len0
            sp.neg_thres sp.pos_thres vals).uw
          (expand_seq ndebug sp.id (calc_len ndebug uw off).uw len0
            sp.neg_thres sp.pos_thres vals).len := by
    obtain ⟨op, info⟩ := uw
    cases op
    case PUSH_NONVOL => exact absurd rfl hop.1
    case SET_FPREG => exact absurd rfl hop.2.1
    case PUSH_MACHFRAME => exact absurd rfl hop.2.2
    case ALLOC_SMALL | ALLOC_LARGE =>
      simp only [calc_len] at hret ⊢
      obtain ⟨h0, hsp⟩ := calc_len_tail_alloc_fits ndebug off len0 hret
      refine ⟨h0, ?_⟩
      intro sp hmem vals
      obtain ⟨hid, hinv⟩ := hsp sp hmem
      rw [hid]
      exact expand_seq_alloc_fits ndebug vals _ len0 sp.neg_thres sp.pos_thres hinv
    case SAVE_NONVOL | SAVE_NONVOL_FAR =>
      simp only [calc_len] at hret ⊢
      obtain ⟨h0, hsp⟩ := calc_len_tail_save_fits ndebug ⟨.SAVE_NONVOL, info⟩ 2
        _ _ off len0 (Or.inl ⟨rfl, rfl⟩) hret
      refine ⟨h0, ?_⟩
      intro sp hmem vals
      obtain ⟨hid, hlen, huw⟩ := hsp sp hmem
      rw [hid, hlen, huw]
      exact expand_seq_save_fits ndebug 2 _ (Or.inl ⟨rfl, rfl⟩) vals _ _
    case SAVE_XMM128 | SAVE_XMM128_FAR =>
      simp only [calc_len] at hret ⊢
      obtain ⟨h0, hsp⟩ := calc_len_tail_save_fits ndebug ⟨.SAVE_XMM128, info⟩ 3
        _ _ off len0 (Or.inr ⟨rfl, rfl⟩) hret
      refine ⟨h0, ?_⟩
      intro sp hmem vals
      obtain ⟨hid, hlen, huw⟩ := hsp sp hmem
      rw [hid, hlen, huw]
      exact expand_seq_save_fits ndebug 3 _ (Or.inr ⟨rfl, rfl⟩) vals _ _
  constructor
  · intro ho
    exact output_emitted_len_of_fits X _ len0 off2
      (hkeep _ (calc_len_start_result ndebug uw off)) hfit.1 ho
  · intro sp hmem vals ho
    have hs : calc_len_start (expand_seq ndebug sp.id (calc_len ndebug uw off).uw len0
        sp.neg_thres sp.pos_thres vals).uw = calc_len_start uw := by
      rw [calc_len_start_expand_seq ndebug sp.id vals _ len0 _ _
        (fun h => by
          rw [calc_len_start_result]
          exact calc_len_spans_start ndebug uw off sp hmem h),
        calc_len_start_result]
    exact output_emitted_len_of_fits X _ _ off2 (hkeep _ hs) (hfit.2 sp hmem vals) ho

/-- C4: for every unwind code, `append_unwind_code` either appends the opcode
and info byte itself (PUSH_NONVOL, SET_FPREG, PUSH_MACHFRAME: no `UnwindCode`
becomes the contents of a bytecode, so `calc_len` and `output` are never
called on these) or makes the code the contents of a bytecode.  For a code
that is the contents of a bytecode, in every state reached by `calc_len`
followed by `expand` calls for the registered span, a call of `output` that
returns hands to `bc_out.output` as many bytes as the bytecode length: the
result of `calc_len` plus the growth added by `expand`. -/
theorem output_emits_bytecode_length (X : Externs) (ndebug : Bool) (uwcode : UnwindCode) :
    ((uwcode.m_opcode = .PUSH_NONVOL ∨ uwcode.m_opcode = .SET_FPREG ∨
        uwcode.m_opcode = .PUSH_MACHFRAME) →
      append_unwind_code X uwcode = .byte (code_and_info X uwcode)) ∧
    ∀ uw, append_unwind_code X uwcode = .contents uw →
      uw = uwcode ∧
      ∀ (off off2 : Option Int) (len0 : Nat),
        (calc_len ndebug uw off).ret = .returned len0 →
        ((output X (calc_len ndebug uw off).uw off2).ret = .returned () →
          (output X (calc_len ndebug uw off).uw off2).emitted_len = len0) ∧
        ∀ sp ∈ (calc_len ndebug uw off).spans, ∀ vals : List (Int × Int),
          (output X (expand_seq ndebug sp.id (calc_len ndebug uw off).uw len0
              sp.neg_thres sp.pos_thres vals).uw off2).ret = .returned () →
          (output X (expand_seq ndebug sp.id (calc_len ndebug uw off).uw len0
              sp.neg_thres sp.pos_thres vals).uw off2).emitted_len =
            (expand_seq ndebug sp.id (calc_len ndebug uw off).uw len0
              sp.neg_thres sp.pos_thres vals).len := by
  obtain ⟨op, info⟩ := uwcode
  constructor
  · intro h
    simp only at h
    rcases h with h | h | h <;> subst h <;> rfl
  · intro uw h
    have hop : uw = ⟨op, info⟩ ∧ op ≠ .PUSH_NONVOL ∧ op ≠ .SET_FPREG ∧
        op ≠ .PUSH_MACHFRAME := by
      cases op <;> simp_all [append_unwind_code]
    obtain ⟨huw, hop⟩ := hop
    subst huw
    exact ⟨rfl, fun off off2 len0 hret =>
      output_emits_length_offset_codes X ndebug _ off off2 len0 hop hret⟩

theorem output_emits_bytecode_length_witness :
    (output win64Externs (expand_seq false 1 (calc_len false ⟨.ALLOC_SMALL, 0⟩ none).uw 1
        8 128 [(0, 200)]).uw (some 200)).emitted_len =
      (expand_seq false 1 (calc_len false ⟨.ALLOC_SMALL, 0⟩ none).uw 1 8 128 [(0, 200)]).len :=
  (((output_emits_bytecode_length win64Externs false ⟨.ALLOC_SMALL, 0⟩).2 ⟨.ALLOC_SMALL, 0⟩
    rfl).2 none (some 200) 1 (by decide)).2 ⟨1, 8, 128⟩ (by decide) [(0, 200)] (by decide)

end win64
end objfmt
end yasm

namespace yasm
namespace objfmt
namespace win64

/-- C17: for ALLOC_SMALL or ALLOC_LARGE with a known constant offset `v`,
`calc_len` raises exactly when `v < 8` or `v` is not a multiple of 8; when it
does not raise it returns 1 with no span and ALLOC_SMALL for `v ≤ 128`, 3 with
the span id 1 and window [8, 524280] and ALLOC_LARGE, info 0 for
`128 < v ≤ 524280`, and 5 with no span and ALLOC_LARGE, info 1 for
`v > 524280`. -/
theorem calc_len_alloc_const (ndebug : Bool) (uw : UnwindCode) (v : Int)
    (hop : uw.m_opcode = .ALLOC_SMALL ∨ uw.m_opcode = .ALLOC_LARGE) :
    ((∃ e, (calc_len ndebug uw (some v)).ret = .raised e) ↔ (v < 8 ∨ v % 8 ≠ 0)) ∧
    (8 ≤ v → v % 8 = 0 → v ≤ 128 →
      calc_len ndebug uw (some v) = ⟨⟨.ALLOC_SMALL, 0⟩, [], .returned 1⟩) ∧
    (v % 8 = 0 → 128 < v → v ≤ 524280 →
      calc_len ndebug uw (some v) =
        ⟨⟨.ALLOC_LARGE, 0⟩, [⟨1, 8, 524280⟩], .returned 3⟩) ∧
    (v % 8 = 0 → 524280 < v →
      calc_len ndebug uw (some v) = ⟨⟨.ALLOC_LARGE, 1⟩, [], .returned 5⟩) := by
  have hcl : calc_len ndebug uw (some v) =
      calc_len_tail ndebug ⟨.ALLOC_SMALL, 0⟩ 1 1 8 128 0x7 (some v) := by
    rcases hop with h | h <;> simp [calc_len, h]
  rw [hcl]
  by_cases h1 : v > 128
  · have hnn : ¬ v < 0 := by omega
    by_cases h2 : v ≤ 524280
    · have hex : expand ndebug ⟨.ALLOC_SMALL, 0⟩ 1 1 v v 8 128 =
          ⟨⟨.ALLOC_LARGE, 0⟩, 3, 8, 8*64*1024-8, .returned true⟩ := by
        simp [expand, hnn, h1, h2, ULONG_MOD_val]
      simp only [calc_len_tail, if_pos h1, hex]
      by_cases hm : v % 8 = 0
      · have h8 : ¬ v < 8 := by omega
        simp [hm, h8]
        omega
      · have h8 : ¬ v < 8 := by omega
        simp [hm, h8]
    · have hex : expand ndebug ⟨.ALLOC_SMALL, 0⟩ 1 1 v v 8 128 =
          ⟨⟨.ALLOC_LARGE, 1⟩, 5, 8, 128, .returned false⟩ := by
        simp [expand, hnn, h1, h2, ULONG_MOD_val]
      simp only [calc_len_tail, if_pos h1, hex]
      by_cases hm : v % 8 = 0
      · have h8 : ¬ v < 8 := by omega
        simp [hm, h8]
        omega
      · have h8 : ¬ v < 8 := by omega
        simp [hm, h8]
  · simp only [calc_len_tail, if_neg h1]
    by_cases h8 : v < 8
    · simp [h8]
      omega
    · by_cases hm : v % 8 = 0
      · simp [hm, h8]
        omega
      · simp [hm, h8]

theorem calc_len_alloc_const_witness :
    (Opcode.ALLOC_LARGE = .ALLOC_SMALL ∨ Opcode.ALLOC_LARGE = .ALLOC_LARGE) ∧
      calc_len false ⟨.ALLOC_LARGE, 9⟩ (some 200) =
        ⟨⟨.ALLOC_LARGE, 0⟩, [⟨1, 8, 524280⟩], .returned 3⟩ :=
  ⟨Or.inr rfl,
    (calc_len_alloc_const false ⟨.ALLOC_LARGE, 9⟩ 200 (Or.inr rfl)).2.2.1
      (by decide) (by decide) (by decide)⟩

end win64
end objfmt
end yasm

namespace yasm
namespace objfmt
namespace win64

theorem code_and_info_small (X : Externs) (op : Opcode) (k : Nat) (hk : k ≤ 15) :
    code_and_info X ⟨op, k⟩ % 256 = (k <<< 4) ||| (X.opval op &&& 0xF) := by
  have h1 : k <<< 4 < 2 ^ 8 := by
    rw [Nat.shiftLeft_eq]
    omega
  have h2 : X.opval op &&& 0xF < 2 ^ 8 :=
    lt_of_le_of_lt Nat.and_le_right (by norm_num)
  have h3 : (k <<< 4) % UINT_MOD = k <<< 4 :=
    Nat.mod_eq_of_lt (lt_trans h1 (by norm_num [UINT_MOD]))
  simp only [code_and_info, h3]
  exact Nat.mod_eq_of_lt (Nat.or_lt_two_pow h1 h2)

/-- C18: for ALLOC_SMALL with resolved offset `v`, `output` returns exactly
when `v` is a multiple of 8 with `8 ≤ v ≤ 128`; it then emits the single byte
`((v/8 - 1) << 4) | (ALLOC_SMALL & 0xF)` and stores the info `v/8 - 1`, which
lies in 0..15.  `get_uint` is taken to return a value in `[0, 128]`
unchanged. -/
theorem output_alloc_small_exact (X : Externs)
    (hX : ∀ n : Int, 0 ≤ n → n ≤ 128 → X.get_uint n = n.toNat)
    (info : Nat) (v : Int) :
    ((output X ⟨.ALLOC_SMALL, info⟩ (some v)).ret = .returned () ↔
      (v % 8 = 0 ∧ 8 ≤ v ∧ v ≤ 128)) ∧
    (v % 8 = 0 → 8 ≤ v → v ≤ 128 →
      (output X ⟨.ALLOC_SMALL, info⟩ (some v)).emitted =
          some [((v.toNat / 8 - 1) <<< 4) ||| (X.opval .ALLOC_SMALL &&& 0xF)] ∧
        (output X ⟨.ALLOC_SMALL, info⟩ (some v)).uw = ⟨.ALLOC_SMALL, v.toNat / 8 - 1⟩ ∧
        v.toNat / 8 - 1 ≤ 15) := by
  by_cases hr : 8 ≤ v ∧ v ≤ 128
  · obtain ⟨hlo, hhi⟩ := hr
    have hg : X.get_uint v = v.toNat := hX v (by omega) hhi
    have hrange : ¬ ((0 : Nat) ≠ 4 ∧ ¬ ((8 : Int) ≤ v ∧ v ≤ 128)) := fun h => h.2 ⟨hlo, hhi⟩
    have h7 : (0x7 : Nat) = 2 ^ 3 - 1 := by norm_num
    by_cases hm : v % 8 = 0
    · have hmask : X.get_uint v &&& 0x7 = 0 := by
        rw [hg]
        exact land_seven_of_emod_eight _ (by omega)
      have hsh : X.get_uint (v >>> (3 : Nat)) = v.toNat / 8 := by
        have hs : v >>> (3 : Nat) = v / 8 := by
          rw [Int.shiftRight_eq_div_pow]
          norm_num
        rw [hs, hX (v / 8) (by omega) (by omega)]
        omega
      have hk1 : 1 ≤ v.toNat / 8 := by omega
      have hk2 : v.toNat / 8 ≤ 16 := by omega
      have hinfo : (X.get_uint (v >>> (3 : Nat)) + ULONG_MOD - 1) % ULONG_MOD % UINT_MOD =
          v.toNat / 8 - 1 := by
        rw [hsh, ULONG_MOD_val]
        have e1 : v.toNat / 8 + 18446744073709551616 - 1 =
            (v.toNat / 8 - 1) + 18446744073709551616 := by omega
        have e2 : UINT_MOD = 4294967296 := by norm_num [UINT_MOD]
        rw [e1, Nat.add_mod_right, e2]
        omega
      have hout : output X ⟨.ALLOC_SMALL, info⟩ (some v) =
          ⟨⟨.ALLOC_SMALL, v.toNat / 8 - 1⟩,
            [((v.toNat / 8 - 1) <<< 4) ||| (X.opval .ALLOC_SMALL &&& 0xF)],
            some [((v.toNat / 8 - 1) <<< 4) ||| (X.opval .ALLOC_SMALL &&& 0xF)],
            .returned ()⟩ := by
        simp only [output, output_tail, if_neg hrange, hmask, ne_eq, not_true_eq_false,
          if_false, store_info, if_true, hinfo, output_bytes, write_8, List.nil_append]
        simp [hinfo, code_and_info_small X .ALLOC_SMALL (v.toNat / 8 - 1) (by omega)]
      rw [hout]
      refine ⟨⟨fun _ => ⟨hm, hlo, hhi⟩, fun _ => rfl⟩, fun _ _ _ => ⟨rfl, rfl, by omega⟩⟩
    · have hmask : X.get_uint v &&& 0x7 ≠ 0 := by
        rw [hg, h7, Nat.and_pow_two_sub_one_eq_mod]
        omega
      have hout : (output X ⟨.ALLOC_SMALL, info⟩ (some v)).ret =
          .raised (.not_multiple v ((0x7 : Nat) + 1)) := by
        simp only [output, output_tail, if_neg hrange, if_pos hmask]
      rw [hout]
      refine ⟨⟨fun h => by simp at h, fun h => absurd h.1 hm⟩, fun h => absurd h hm⟩
  · have hrange : (0 : Nat) ≠ 4 ∧ ¬ ((8 : Int) ≤ v ∧ v ≤ 128) := ⟨by decide, hr⟩
    have hout : (output X ⟨.ALLOC_SMALL, info⟩ (some v)).ret =
        .raised (.out_of_range v 8 128) := by
      simp only [output, output_tail, if_pos hrange]
    rw [hout]
    refine ⟨⟨fun h => by simp at h, fun h => absurd h.2 hr⟩,
      fun _ h1 h2 => absurd ⟨h1, h2⟩ hr⟩

theorem win64Externs_get_uint_small (n : Int) (h0 : 0 ≤ n) (h1 : n ≤ 128) :
    win64Externs.get_uint n = n.toNat :=
  win64Externs_get_uint n h0 (by omega)

theorem output_alloc_small_exact_witness :
    (output win64Externs ⟨.ALLOC_SMALL, 0⟩ (some 128)).emitted =
        some [(((128 : Int).toNat / 8 - 1) <<< 4) |||
          (win64Externs.opval .ALLOC_SMALL &&& 0xF)] ∧
      (output win64Externs ⟨.ALLOC_SMALL, 0⟩ (some 128)).uw =
        ⟨.ALLOC_SMALL, (128 : Int).toNat / 8 - 1⟩ ∧
      (128 : Int).toNat / 8 - 1 ≤ 15 :=
  (output_alloc_small_exact win64Externs win64Externs_get_uint_small 0 128).2
    (by decide) (by decide) (by decide)

end win64
end objfmt
end yasm

namespace yasm
namespace objfmt
namespace elf

/-- C11: with no WRT symbol the constructor yields an object exactly when the
symbol is non-null and the machine accepts a relocation of the value size; an
unaccepted size raises the TypeError "elf: invalid relocation size"; with a
WRT symbol the constructor raises the TypeError "elf: invalid WRT" exactly
when the WRT has no special symbol or one whose size differs from the value
size. -/
theorem ElfReloc_constructor_checks (get_elf_ssym : Nat → Option ElfSpecialSymbol)
    (accepts_reloc : Nat → Bool) (sym : SymbolRef) (addr : Int) (rel : Bool)
    (valsize : Nat) :
    ((∃ r, ElfReloc.ctor get_elf_ssym accepts_reloc sym none addr rel valsize =
        .object r) ↔ (sym ≠ none ∧ accepts_reloc valsize = true)) ∧
    (accepts_reloc valsize = false →
      ElfReloc.ctor get_elf_ssym accepts_reloc sym none addr rel valsize =
        .threw ⟨.TypeError, .invalid_relocation_size⟩) ∧
    (∀ w : Nat,
      (ElfReloc.ctor get_elf_ssym accepts_reloc sym (some w) addr rel valsize =
          .threw ⟨.TypeError, .invalid_WRT⟩ ↔
        ¬ ∃ ssym, get_elf_ssym w = some ssym ∧ ssym.size = valsize) ∧
      ∀ m, ElfReloc.ctor get_elf_ssym accepts_reloc sym (some w) addr rel valsize =
          .threw ⟨.TypeError, m⟩ → m = .invalid_WRT) := by
  refine ⟨?_, ?_, ?_⟩
  · cases sym <;> cases h : accepts_reloc valsize <;> simp [ElfReloc.ctor, h]
  · intro h
    simp [ElfReloc.ctor, h]
  · intro w
    cases h : get_elf_ssym w with
    | none => simp [ElfReloc.ctor, h]
    | some ssym =>
      by_cases hs : valsize = ssym.size
      · cases sym <;> simp [ElfReloc.ctor, h, hs]
      · have hs2 : ¬ ssym.size = valsize := fun h2 => hs h2.symm
        simp [ElfReloc.ctor, h, hs, hs2]

end elf
end objfmt
end yasm

namespace yasm

/-- C13: the encodings of the literals: unsigned 300 gives [0xAC, 0x02],
unsigned 0 gives [0x00], signed -9 gives [0x77], signed 0 gives [0x00],
signed 63 gives [0x3F], signed 64 gives [0xC0, 0x00]. -/
theorem write_leb128_literals :
    write_leb128 [] 300 false = ([0xAC, 0x02], 2) ∧
    write_leb128 [] 0 false = ([0x00], 1) ∧
    write_leb128 [] (-9) true = ([0x77], 1) ∧
    write_leb128 [] 0 true = ([0x00], 1) ∧
    write_leb128 [] 63 true = ([0x3F], 1) ∧
    write_leb128 [] 64 true = ([0xC0, 0x00], 2) := by
  refine ⟨?_, ?_, ?_, ?_, ?_, ?_⟩ <;>
    simp [write_leb128, encode_unsigned, encode_signed]

end yasm

namespace yasm

theorem decode_encode_unsigned (sign : Bool) (n : Nat) :
    ∀ (acc : Int) (shift count : Nat) (tail : List Nat), (sign = true → False) →
      decode_loop sign (encode_unsigned n ++ tail) acc shift count =
        some (acc + (n : Int) * 2 ^ shift, count + (encode_unsigned n).length) := by
  induction n using encode_unsigned.induct with
  | case1 n hn =>
    intro acc shift count tail hs
    rw [encode_unsigned, if_pos hn]
    have h1 : ¬ n / 128 % 2 = 1 := by omega
    have h2 : n % 128 = n := by omega
    have h3 : ¬ (sign = true ∧ 64 ≤ n) := fun h => hs h.1
    simp [decode_loop, h1, h2, h3]
  | case2 n hn ih =>
    intro acc shift count tail hs
    rw [encode_unsigned, if_neg hn]
    have h1 : (n % 128 + 128) / 128 % 2 = 1 := by omega
    have h2 : (n % 128 + 128) % 128 = n % 128 := by omega
    simp only [List.cons_append, List.append_eq, decode_loop, h1, h2, if_true,
      List.length_cons]
    rw [ih _ _ _ _ hs]
    have h3 : ((n % 128 : Nat) : Int) = (n : Int) - 128 * ((n / 128 : Nat) : Int) := by
      omega
    have h4 : (2 : Int) ^ (shift + 7) = 128 * 2 ^ shift := by
      rw [pow_add]
      ring
    congr 2
    · rw [h4, h3]
      ring
    · omega

theorem decode_encode_signed (v : Int) :
    ∀ (acc : Int) (shift count : Nat) (tail : List Nat),
      decode_loop true (encode_signed v ++ tail) acc shift count =
        some (acc + v * 2 ^ shift, count + (encode_signed v).length) := by
  induction v using encode_signed.induct with
  | case1 v hdone =>
    intro acc shift count tail
    rw [encode_signed, if_pos hdone]
    have hb0 : 0 ≤ v % 128 := by omega
    have hb1 : v % 128 < 128 := by omega
    have h1 : ¬ (v % 128).toNat / 128 % 2 = 1 := by omega
    have h2 : (v % 128).toNat % 128 = (v % 128).toNat := by omega
    have h4 : (2 : Int) ^ (shift + 7) = 128 * 2 ^ shift := by
      rw [pow_add]
      ring
    have hcast : (((v % 128).toNat : Nat) : Int) = v % 128 := Int.toNat_of_nonneg hb0
    by_cases h64 : 64 ≤ (v % 128).toNat
    · have hq : v / 128 = -1 := by omega
      have hv : v % 128 = v + 128 := by omega
      simp only [List.cons_append, List.nil_append, decode_loop, h1, h2, if_false, h64,
        and_self, if_true, List.length_singleton, hcast]
      congr 2
      rw [h4, hv]
      ring
    · have hq : v / 128 = 0 := by omega
      have hv : v % 128 = v := by omega
      simp only [List.cons_append, List.nil_append, decode_loop, h1, h2, if_false, h64,
        and_false, List.length_singleton, hcast]
      rw [hv]
  | case2 v hdone ih =>
    intro acc shift count tail
    rw [encode_signed, if_neg hdone]
    have hb0 : 0 ≤ v % 128 := by omega
    have h1 : ((v % 128).toNat + 128) / 128 % 2 = 1 := by omega
    have h2 : ((v % 128).toNat + 128) % 128 = (v % 128).toNat := by omega
    have hcast : (((v % 128).toNat : Nat) : Int) = v % 128 := Int.toNat_of_nonneg hb0
    simp only [List.cons_append, List.append_eq, decode_loop, h1, h2, if_true,
      List.length_cons, hcast]
    rw [ih]
    have h3 : v % 128 = v - 128 * (v / 128) := by omega
    have h4 : (2 : Int) ^ (shift + 7) = 128 * 2 ^ shift := by
      rw [pow_add]
      ring
    congr 2
    · rw [h4, h3]
      ring
    · omega

theorem size_unsigned_eq_length (n : Nat) :
    size_unsigned n = (encode_unsigned n).length := by
  induction n using encode_unsigned.induct with
  | case1 n hn => rw [size_unsigned, encode_unsigned, if_pos hn, if_pos hn]; rfl
  | case2 n hn ih =>
    rw [size_unsigned, encode_unsigned, if_neg hn, if_neg hn, ih, List.length_cons]
    omega

theorem size_signed_eq_length (v : Int) :
    size_signed v = (encode_signed v).length := by
  induction v using encode_signed.induct with
  | case1 v hd => rw [size_signed, encode_signed, if_pos hd, if_pos hd]; rfl
  | case2 v hd ih =>
    rw [size_signed, encode_signed, if_neg hd, if_neg hd, ih, List.length_cons]
    omega

/-- C12: for every integer `v` and both signedness modes (the unsigned mode
for `v ≥ 0`), `read_leb128` on the bytes `write_leb128` produced, whatever
follows them in the buffer, returns `v` and the number of bytes that
`write_leb128` returned, which is also `size_leb128 v sign`. -/
theorem leb128_round_trip (v : Int) (sign : Bool) (hv : sign = false → 0 ≤ v)
    (tail : List Nat) :
    read_leb128 ((write_leb128 [] v sign).1 ++ tail) sign =
        some (v, (write_leb128 [] v sign).2) ∧
      (write_leb128 [] v sign).2 = size_leb128 v sign := by
  cases sign with
  | true =>
    simp only [read_leb128, write_leb128, size_leb128, if_true, List.nil_append]
    rw [decode_encode_signed v 0 0 0 tail, size_signed_eq_length]
    simp
  | false =>
    have h0 : 0 ≤ v := hv rfl
    have hcast : ((v.natAbs : Nat) : Int) = v := Int.natAbs_of_nonneg h0
    simp only [read_leb128, write_leb128, size_leb128, Bool.false_eq_true, if_false,
      List.nil_append]
    rw [decode_encode_unsigned false v.natAbs 0 0 0 tail (by simp),
      size_unsigned_eq_length, hcast]
    simp

theorem leb128_round_trip_witness :
    read_leb128 ((write_leb128 [] 300 false).1 ++ [7]) false =
        some (300, (write_leb128 [] 300 false).2) ∧
      (write_leb128 [] 300 false).2 = size_leb128 300 false :=
  leb128_round_trip 300 false (fun _ => by decide) [7]

theorem decode_loop_truncated (sign : Bool) (bytes : List Nat) :
    ∀ (acc : Int) (shift count : Nat), (∀ b ∈ bytes, b / 128 % 2 = 1) →
      decode_loop sign bytes acc shift count = none := by
  induction bytes with
  | nil =>
    intro acc shift count _
    rfl
  | cons b rest ih =>
    intro acc shift count h
    have hb : b / 128 % 2 = 1 := h b (List.mem_cons_self b rest)
    simp only [decode_loop, hb, if_true]
    exact ih _ _ _ (fun x hx => h x (List.mem_cons_of_mem b hx))

/-- C14: `read_leb128` reports an error (no value) on an empty buffer and on a
buffer in which every byte has the continuation bit set. -/
theorem read_leb128_truncated (sign : Bool) :
    read_leb128 [] sign = none ∧
    ∀ bytes : List Nat, (∀ b ∈ bytes, b / 128 % 2 = 1) →
      read_leb128 bytes sign = none :=
  ⟨rfl, fun bytes h => decode_loop_truncated sign bytes 0 0 0 h⟩

theorem read_leb128_truncated_witness :
    read_leb128 [0x80, 0xFF] true = none :=
  (read_leb128_truncated true).2 [0x80, 0xFF] (by decide)

end yasm

namespace yasm

theorem assign_offsets_head (off : Nat) (bcs : List Bytecode) (b : Bytecode)
    (h : (assign_offsets off bcs)[0]? = some b) : b.m_offset = off := by
  cases bcs with
  | nil => simp [assign_offsets] at h
  | cons bc rest =>
    simp only [assign_offsets, List.getElem?_cons_zero, Option.some.injEq] at h
    rw [← h]

theorem assign_offsets_adjacent (bcs : List Bytecode) :
    ∀ (off i : Nat) (b b1 : Bytecode),
      (assign_offsets off bcs)[i]? = some b →
      (assign_offsets off bcs)[i + 1]? = some b1 →
      b1.m_offset = b.m_offset + b.m_len * b.m_mult_int := by
  induction bcs with
  | nil =>
    intro off i b b1 h
    simp [assign_offsets] at h
  | cons bc rest ih =>
    intro off i b b1 h h1
    cases i with
    | zero =>
      simp only [assign_offsets, List.getElem?_cons_zero, Option.some.injEq] at h
      simp only [assign_offsets, zero_add, List.getElem?_cons_succ] at h1
      rw [assign_offsets_head _ rest b1 h1, ← h]
    | succ j =>
      simp only [assign_offsets, List.getElem?_cons_succ] at h h1
      exact ih _ j b b1 h h1

theorem assign_offsets_length (bcs : List Bytecode) :
    ∀ off : Nat, (assign_offsets off bcs).length = bcs.length := by
  induction bcs with
  | nil => intro off; rfl
  | cons bc rest ih => intro off; simp [assign_offsets, ih]

theorem assign_offsets_keeps_len (bcs : List Bytecode) :
    ∀ (off i : Nat) (b : Bytecode), (assign_offsets off bcs)[i]? = some b →
      ∃ b0, bcs[i]? = some b0 ∧ b.m_len = b0.m_len ∧ b.m_mult_int = b0.m_mult_int := by
  induction bcs with
  | nil =>
    intro off i b h
    simp [assign_offsets] at h
  | cons bc rest ih =>
    intro off i b h
    cases i with
    | zero =>
      simp only [assign_offsets, List.getElem?_cons_zero, Option.some.injEq] at h
      exact ⟨bc, by simp, by rw [← h], by rw [← h]⟩
    | succ j =>
      simp only [assign_offsets, List.getElem?_cons_succ] at h
      simpa using ih _ j b h

/-- C15: after the offset assignment of a section, the first bytecode has
offset 0, every bytecode keeps its length and multiple, and for adjacent
bytecodes `offset[i+1] = offset[i] + length[i] * multiple[i]`, the value
`next_offset` reports for bytecode `i`. -/
theorem finalize_layout_contiguous (section_bcs : List Bytecode) :
    (finalize_layout section_bcs).length = section_bcs.length ∧
    (∀ b : Bytecode, (finalize_layout section_bcs)[0]? = some b → b.m_offset = 0) ∧
    (∀ (i : Nat) (b : Bytecode), (finalize_layout section_bcs)[i]? = some b →
      ∃ b0 : Bytecode, section_bcs[i]? = some b0 ∧ b.m_len = b0.m_len ∧
        b.m_mult_int = b0.m_mult_int) ∧
    ∀ (i : Nat) (b b1 : Bytecode), (finalize_layout section_bcs)[i]? = some b →
      (finalize_layout section_bcs)[i + 1]? = some b1 →
      b1.m_offset = b.m_offset + b.m_len * b.m_mult_int ∧
        b1.m_offset = b.next_offset :=
  ⟨assign_offsets_length section_bcs 0,
    fun b h => assign_offsets_head 0 section_bcs b h,
    fun i b h => assign_offsets_keeps_len section_bcs 0 i b h,
    fun i b b1 h h1 =>
      ⟨assign_offsets_adjacent section_bcs 0 i b b1 h h1,
        assign_offsets_adjacent section_bcs 0 i b b1 h h1⟩⟩

theorem finalize_layout_contiguous_witness :
    (finalize_layout [⟨2, 1, 99⟩, ⟨3, 4, 99⟩, ⟨1, 1, 99⟩])[1 + 1]? = some ⟨1, 1, 14⟩ ∧
      (14 : Nat) = 2 + 3 * 4 ∧ (14 : Nat) = (Bytecode.mk 3 4 2).next_offset :=
  ⟨by decide,
    (finalize_layout_contiguous [⟨2, 1, 99⟩, ⟨3, 4, 99⟩, ⟨1, 1, 99⟩]).2.2.2 1 ⟨3, 4, 2⟩
      ⟨1, 1, 14⟩ (by decide) (by decide)⟩

end yasm

namespace yasm
namespace objfmt
namespace elf

theorem Finalize_equ_circular {Expr : Type} (K : ElfConsts) (env : FinalizeEnv Expr)
    (s : ElfSymbol Expr) (declared : Bool) (diags : List Diag)
    (hcall : (Finalize_equ K env s declared diags).equ_expanded = some false) :
    (∃ e, env.getEqu = some e ∧ (env.ExpandEqu e).1 = false) ∧
    (Finalize_equ K env s declared diags).diags =
      diags ++ [⟨env.getDefSource, .err_equ_circular_reference⟩] ∧
    (Finalize_equ K env s declared diags).esym = s := by
  unfold Finalize_equ at hcall ⊢
  cases hequ : env.getEqu with
  | none => simp [hequ] at hcall
  | some e =>
    simp only [hequ] at hcall ⊢
    by_cases hx : (env.ExpandEqu e).1 = false
    · simp [hx]
    · rw [if_neg hx] at hcall
      exfalso
      revert hcall
      repeat' split
      all_goals simp

theorem Finalize_size_cases {Expr : Type} (K : ElfConsts) (env : FinalizeEnv Expr)
    (s : ElfSymbol Expr) (declared : Bool) :
    (Finalize_size K env s declared).equ_expanded = none ∨
    ∃ s1 ds, Finalize_size K env s declared = Finalize_equ K env s1 declared ds ∧
      s1.m_value = s.m_value ∧ s1.m_index = s.m_index ∧ s1.m_sect = s.m_sect := by
  unfold Finalize_size
  by_cases h1 : env.isEmpty s.m_size = false
  · by_cases h2 : (env.ExpandEqu s.m_size).1 = false
    · left
      rw [if_pos h1]
      simp only [if_pos h2]
    · right
      rw [if_pos h1]
      simp only [if_neg h2]
      exact ⟨_, _, rfl, rfl, rfl, rfl⟩
  · right
    rw [if_neg h1]
    exact ⟨_, _, rfl, rfl, rfl, rfl⟩

theorem Finalize_cases {Expr : Type} (K : ElfConsts) (env : FinalizeEnv Expr)
    (s : ElfSymbol Expr) :
    (Finalize K env s).equ_expanded = none ∨
    ∃ s1 d, Finalize K env s = Finalize_size K env s1 d ∧
      s1.m_value = s.m_value ∧ s1.m_index = s.m_index ∧ s1.m_sect = s.m_sect := by
  unfold Finalize
  simp only
  split_ifs
  all_goals first
    | (left; rfl)
    | (right; exact ⟨_, _, rfl, rfl, rfl, rfl⟩)

/-- The call `ExpandEqu(equ_expr)` of `Finalize` fails only for a symbol with
an EQU expression that does not expand; the report at the definition source
is then the last thing `Finalize` does, and the value, the section index and
the section of the ELF symbol are as before. -/
theorem Finalize_expand_failed_only_if {Expr : Type} (K : ElfConsts) (env : FinalizeEnv Expr)
    (s : ElfSymbol Expr)
    (hcall : (Finalize K env s).equ_expanded = some false) :
    (∃ e, env.getEqu = some e ∧ (env.ExpandEqu e).1 = false) ∧
    (∃ ds, (Finalize K env s).diags =
      ds ++ [⟨env.getDefSource, .err_equ_circular_reference⟩]) ∧
    (Finalize K env s).esym.m_value = s.m_value ∧
    (Finalize K env s).esym.m_index = s.m_index ∧
    (Finalize K env s).esym.m_sect = s.m_sect := by
  rcases Finalize_cases K env s with h | ⟨s1, d, h, hv1, hi1, hs1⟩
  · rw [h] at hcall
    simp at hcall
  · rw [h] at hcall ⊢
    rcases Finalize_size_cases K env s1 d with h2 | ⟨s2, ds, h2, hv2, hi2, hs2⟩
    · rw [h2] at hcall
      simp at hcall
    · rw [h2] at hcall ⊢
      obtain ⟨he, hd, hs⟩ := Finalize_equ_circular K env s2 d ds hcall
      rw [hs]
      exact ⟨he, ⟨_, hd⟩, by rw [hv2, hv1], by rw [hi2, hi1], by rw [hs2, hs1]⟩

end elf
end objfmt
end yasm

namespace yasm

theorem drop_cons_facts (buf : List Nat) (s a : Nat) (tl : List Nat)
    (h : buf.drop s = a :: tl) :
    s < buf.length ∧ rd buf s = a ∧ buf.drop (s + 1) = tl := by
  have hlt : s < buf.length := by
    by_contra hge
    rw [List.drop_eq_nil_iff.mpr (by omega)] at h
    simp at h
  rw [List.drop_eq_getElem_cons hlt] at h
  simp only [List.cons.injEq] at h
  refine ⟨hlt, ?_, h.2⟩
  simp [rd, List.getElem?_eq_getElem hlt, h.1]

theorem rd_set_self (buf : List Nat) (o v : Nat) (h : o < buf.length) :
    rd (buf.set o v) o = v := by
  simp [rd, h]

theorem rd_set_ne (buf : List Nat) (o j v : Nat) (h : o ≠ j) :
    rd (buf.set o v) j = rd buf j := by
  simp [rd, List.getElem?_set_ne h]

theorem drop_set_lt (buf : List Nat) (o s v : Nat) (h : o < s) :
    (buf.set o v).drop s = buf.drop s :=
  List.drop_set_of_lt v buf h

theorem take_set_succ (buf : List Nat) (o v : Nat) (h : o < buf.length) :
    (buf.set o v).take (o + 1) = buf.take o ++ [v] := by
  apply List.ext_getElem?
  intro i
  by_cases hi : i < o
  · have h1 : i < o + 1 := by omega
    have h2 : i < (buf.take o).length := by
      rw [List.length_take]
      omega
    rw [List.getElem?_take_of_lt h1, List.getElem?_set_ne (by omega),
      List.getElem?_append_left h2, List.getElem?_take_of_lt hi]
  · by_cases hio : i = o
    · subst hio
      have h3 : (buf.take i).length = i := by
        rw [List.length_take]
        omega
      rw [List.getElem?_take_of_lt (by omega), List.getElem?_set_self h,
        List.getElem?_append_right (by omega), h3]
      simp
    · have h3 : (buf.take o).length = o := by
        rw [List.length_take]
        omega
      rw [List.getElem?_eq_none (by simp; omega), List.getElem?_eq_none (by simp; omega)]

end yasm

namespace yasm

theorem hex_skip_cons3 (a b c : Nat) (r : List Nat) :
    hex_skip (a :: b :: c :: r) =
      if (isxdigit a && isxdigit b && isxdigit c) = true then hex_skip (b :: c :: r)
      else a :: b :: c :: r := by
  rw [hex_skip]

theorem cstring_hex_skip_sim (buf : List Nat) (fuel : Nat) :
    ∀ (s : Nat) (l : List Nat), buf.drop s = l → l.length ≤ fuel →
      buf.drop (cstring_hex_skip buf buf.length fuel s) = hex_skip l ∧
        s ≤ cstring_hex_skip buf buf.length fuel s := by
  induction fuel with
  | zero =>
    intro s l hl hf
    have hnil : l = [] := List.length_eq_zero.mp (by omega)
    subst hnil
    simp [cstring_hex_skip, hex_skip, hl]
  | succ fuel ih =>
    intro s l hl hf
    match l, hl, hf with
    | [], hl, _ =>
      have hge : buf.length ≤ s := List.drop_eq_nil_iff.mp hl
      have hc : ¬ (s + 2 < buf.length ∧ isxdigit (rd buf s) = true ∧
          isxdigit (rd buf (s + 1)) = true ∧ isxdigit (rd buf (s + 2)) = true) :=
        fun h => by omega
      simp only [cstring_hex_skip, if_neg hc, hex_skip, hl, le_refl, and_self]
    | [a], hl, _ =>
      obtain ⟨_, _, h1⟩ := drop_cons_facts buf s a [] hl
      have hge : buf.length ≤ s + 1 := List.drop_eq_nil_iff.mp h1
      have hc : ¬ (s + 2 < buf.length ∧ isxdigit (rd buf s) = true ∧
          isxdigit (rd buf (s + 1)) = true ∧ isxdigit (rd buf (s + 2)) = true) :=
        fun h => by omega
      simp only [cstring_hex_skip, if_neg hc, hex_skip, hl, le_refl, and_self]
    | [a, b], hl, _ =>
      obtain ⟨_, _, h1⟩ := drop_cons_facts buf s a [b] hl
      obtain ⟨_, _, h2⟩ := drop_cons_facts buf (s + 1) b [] h1
      have hge : buf.length ≤ s + 2 := List.drop_eq_nil_iff.mp h2
      have hc : ¬ (s + 2 < buf.length ∧ isxdigit (rd buf s) = true ∧
          isxdigit (rd buf (s + 1)) = true ∧ isxdigit (rd buf (s + 2)) = true) :=
        fun h => by omega
      simp only [cstring_hex_skip, if_neg hc, hex_skip, hl, le_refl, and_self]
    | a :: b :: c :: r, hl, hf =>
      obtain ⟨_, ha, h1⟩ := drop_cons_facts buf s a (b :: c :: r) hl
      obtain ⟨_, hb, h2⟩ := drop_cons_facts buf (s + 1) b (c :: r) h1
      obtain ⟨hlt, hc, _⟩ := drop_cons_facts buf (s + 2) c r h2
      by_cases hx : isxdigit a = true ∧ isxdigit b = true ∧ isxdigit c = true
      · have hcond : s + 2 < buf.length ∧ isxdigit (rd buf s) = true ∧
            isxdigit (rd buf (s + 1)) = true ∧ isxdigit (rd buf (s + 2)) = true := by
          rw [ha, hb, hc]
          exact ⟨hlt, hx⟩
        have hrec := ih (s + 1) (b :: c :: r) h1 (by simpa using hf)
        have hx2 : (isxdigit a && isxdigit b && isxdigit c) = true := by
          simp [hx.1, hx.2.1, hx.2.2]
        rw [hex_skip_cons3, if_pos hx2]
        simp only [cstring_hex_skip, if_pos hcond]
        exact ⟨hrec.1, by omega⟩
      · have hcond : ¬ (s + 2 < buf.length ∧ isxdigit (rd buf s) = true ∧
            isxdigit (rd buf (s + 1)) = true ∧ isxdigit (rd buf (s + 2)) = true) := by
          rw [ha, hb, hc]
          exact fun h => hx h.2
        have hx2 : (isxdigit a && isxdigit b && isxdigit c) = false := by
          cases h1 : isxdigit a <;> cases h2 : isxdigit b <;> cases h3 : isxdigit c <;>
            simp_all
        rw [hex_skip_cons3, hx2]
        simp only [cstring_hex_skip, if_neg hcond, hl, le_refl, and_self,
          Bool.false_eq_true, if_false]

theorem cstring_hex_escape_sim (buf : List Nat) (s o : Nat) (l : List Nat)
    (hl : buf.drop s = l) :
    (cstring_hex_escape buf buf.length s o).buf = buf.set o (hex_escape l).byte ∧
    buf.drop (cstring_hex_escape buf buf.length s o).s = (hex_escape l).rest ∧
    (cstring_hex_escape buf buf.length s o).warn = (hex_escape l).warn ∧
    s ≤ (cstring_hex_escape buf buf.length s o).s := by
  match l, hl with
  | [], hl =>
    have hge : buf.length ≤ s := List.drop_eq_nil_iff.mp hl
    have hc : ¬ (s < buf.length ∧ isxdigit (rd buf s) = true) := fun h => by omega
    simp only [cstring_hex_escape]
    rw [if_neg hc]
    simp [hex_escape, hl]
  | t0 :: i1, hl =>
    obtain ⟨hlt, h0, h1⟩ := drop_cons_facts buf s t0 i1 hl
    by_cases hx : isxdigit t0 = true
    · have hc : s < buf.length ∧ isxdigit (rd buf s) = true := by
        rw [h0]
        exact ⟨hlt, hx⟩
      match i1, h1 with
      | [], h1 =>
        have hge : buf.length ≤ s + 1 := List.drop_eq_nil_iff.mp h1
        have hc1 : ¬ (s + 1 < buf.length ∧ isxdigit (rd buf (s + 1)) = true) :=
          fun h => by omega
        simp only [cstring_hex_escape]
        rw [if_pos hc, if_neg hc1]
        simp [hex_escape, hx, h0, h1]
      | t1 :: i2, h1 =>
        obtain ⟨hlt1, h01, h2⟩ := drop_cons_facts buf (s + 1) t1 i2 h1
        by_cases hx1 : isxdigit t1 = true
        · have hc1 : s + 1 < buf.length ∧ isxdigit (rd buf (s + 1)) = true := by
            rw [h01]
            exact ⟨hlt1, hx1⟩
          simp only [cstring_hex_escape]
          rw [if_pos hc, if_pos hc1]
          simp [hex_escape, hx, hx1, h0, h01, h2]
          omega
        · have hc1 : ¬ (s + 1 < buf.length ∧ isxdigit (rd buf (s + 1)) = true) := by
            rw [h01]
            exact fun h => hx1 h.2
          simp only [cstring_hex_escape]
          rw [if_pos hc, if_neg hc1]
          simp [hex_escape, hx, hx1, h0, h1]
    · have hc : ¬ (s < buf.length ∧ isxdigit (rd buf s) = true) := by
        rw [h0]
        exact fun h => hx h.2
      simp only [cstring_hex_escape]
      rw [if_neg hc]
      simp [hex_escape, hx, hl]

theorem cstring_octal_escape_sim (buf : List Nat) (s o d : Nat) (i1 : List Nat)
    (ho : o < s) (hl : buf.drop s = d :: i1) :
    (cstring_octal_escape buf buf.length s o).buf = buf.set o (octal_escape d i1).byte ∧
    buf.drop (cstring_octal_escape buf buf.length s o).s = (octal_escape d i1).rest ∧
    (cstring_octal_escape buf buf.length s o).warn = (octal_escape d i1).warn ∧
    s < (cstring_octal_escape buf buf.length s o).s := by
  obtain ⟨hlt, h0, h1⟩ := drop_cons_facts buf s d i1 hl
  have hob : o < buf.length := by omega
  match i1, h1 with
  | [], h1 =>
    have hge : buf.length ≤ s + 1 := List.drop_eq_nil_iff.mp h1
    have hc : ¬ (s + 1 < (buf.set o ((rd buf s - 48) % 256)).length ∧
        isdigit (rd (buf.set o ((rd buf s - 48) % 256)) (s + 1)) = true) := by
      rw [List.length_set]
      exact fun h => by omega
    simp only [cstring_octal_escape, List.length_set] at hc ⊢
    rw [if_neg hc]
    simp [octal_escape, h0, h1]
  | d1 :: i2, h1 =>
    obtain ⟨hlt1, h01, h2⟩ := drop_cons_facts buf (s + 1) d1 i2 h1
    have hr1 : rd (buf.set o ((rd buf s - 48) % 256)) (s + 1) = d1 := by
      rw [rd_set_ne buf o (s + 1) _ (by omega), h01]
    by_cases hd1 : isdigit d1 = true
    · have hc : s + 1 < buf.length ∧
          isdigit (rd (buf.set o ((rd buf s - 48) % 256)) (s + 1)) = true := by
        rw [hr1]
        exact ⟨hlt1, hd1⟩
      simp only [cstring_octal_escape]
      rw [if_pos hc]
      simp only [List.set_set, rd_set_self buf o _ hob, rd_set_ne buf o (s + 1) _ (by omega),
        rd_set_ne buf o (s + 1 + 1) _ (by omega), h0, h01]
      match i2, h2 with
      | [], h2 =>
        have hge : buf.length ≤ s + 1 + 1 := List.drop_eq_nil_iff.mp h2
        have hc2 : ¬ (s + 1 + 1 < buf.length ∧ isdigit (rd buf (s + 1 + 1)) = true) :=
          fun h => by omega
        rw [if_neg hc2]
        simp [octal_escape, hd1, h2]
        omega
      | d2 :: i3, h2 =>
        obtain ⟨hlt2, h02, h3⟩ := drop_cons_facts buf (s + 1 + 1) d2 i3 h2
        by_cases hd2 : isdigit d2 = true
        · have hc2 : s + 1 + 1 < buf.length ∧ isdigit (rd buf (s + 1 + 1)) = true := by
            rw [h02]
            exact ⟨hlt2, hd2⟩
          rw [if_pos hc2]
          simp [octal_escape, hd1, hd2, h02, h3]
          omega
        · have hc2 : ¬ (s + 1 + 1 < buf.length ∧ isdigit (rd buf (s + 1 + 1)) = true) := by
            rw [h02]
            exact fun h => hd2 h.2
          rw [if_neg hc2]
          simp [octal_escape, hd1, hd2, h2]
          omega
    · have hc : ¬ (s + 1 < buf.length ∧
          isdigit (rd (buf.set o ((rd buf s - 48) % 256)) (s + 1)) = true) := by
        rw [hr1]
        exact fun h => hd1 h.2
      simp only [cstring_octal_escape]
      rw [if_neg hc]
      simp [octal_escape, hd1, h0, h1]

theorem cstring_switch_sim (buf : List Nat) (s o e : Nat) (i1 : List Nat)
    (ho : o < s) (hl : buf.drop s = e :: i1) :
    (cstring_switch buf buf.length s o).buf = buf.set o (unescape_switch e i1).byte ∧
    buf.drop (cstring_switch buf buf.length s o).s = (unescape_switch e i1).rest ∧
    (cstring_switch buf buf.length s o).warn = (unescape_switch e i1).warn ∧
    s < (cstring_switch buf buf.length s o).s := by
  obtain ⟨hlt, h0, h1⟩ := drop_cons_facts buf s e i1 hl
  simp only [cstring_switch, unescape_switch, h0]
  split_ifs with hb hf hn hr ht hx hd
  · exact ⟨rfl, h1, rfl, Nat.lt_succ_self s⟩
  · exact ⟨rfl, h1, rfl, Nat.lt_succ_self s⟩
  · exact ⟨rfl, h1, rfl, Nat.lt_succ_self s⟩
  · exact ⟨rfl, h1, rfl, Nat.lt_succ_self s⟩
  · exact ⟨rfl, h1, rfl, Nat.lt_succ_self s⟩
  · have hlen : i1.length ≤ buf.length := by
      rw [← h1, List.length_drop]
      omega
    obtain ⟨hk1, hk2⟩ := cstring_hex_skip_sim buf buf.length (s + 1) i1 h1 hlen
    obtain ⟨e1, e2, e3, e4⟩ := cstring_hex_escape_sim buf
      (cstring_hex_skip buf buf.length buf.length (s + 1)) o (hex_skip i1) hk1
    exact ⟨e1, e2, e3, by omega⟩
  · exact cstring_octal_escape_sim buf s o e i1 ho hl
  · exact ⟨rfl, h1, rfl, Nat.lt_succ_self s⟩

theorem unescape_cstring_loop_sim (len fuel : Nat) :
    ∀ (st : CString) (l out : List Nat) (w : Bool), st.buf.length = len →
      st.o ≤ st.s → st.buf.drop st.s = l → st.buf.take st.o = out → st.warned = w →
      l.length ≤ fuel →
      ((unescape_cstring_loop len fuel st).buf.take (unescape_cstring_loop len fuel st).o,
          (unescape_cstring_loop len fuel st).warned) = unescape_loop fuel l out w ∧
        (unescape_cstring_loop len fuel st).o ≤ (unescape_cstring_loop len fuel st).s ∧
        len ≤ (unescape_cstring_loop len fuel st).s := by
  induction fuel with
  | zero =>
    intro st l out w hlen hos hl ht hw hf
    have hnil : l = [] := List.length_eq_zero.mp (by omega)
    subst hnil
    have hge : st.buf.length ≤ st.s := List.drop_eq_nil_iff.mp hl
    simp only [unescape_cstring_loop, unescape_loop, ht, hw, hos, true_and]
    omega
  | succ fuel ih =>
    intro st l out w hlen hos hl ht hw hf
    obtain ⟨buf, s, o, warned⟩ := st
    simp only at hlen hos hl ht hw
    subst hlen
    match l, hl, hf with
    | [], hl, _ =>
      have hge : buf.length ≤ s := List.drop_eq_nil_iff.mp hl
      have hc : ¬ s < buf.length := by omega
      simp only [unescape_cstring_loop, if_neg hc, unescape_loop, ht, hw, hos, and_self,
        true_and]
      exact hge
    | c :: i1, hl, hf =>
      obtain ⟨hlt, h0, h1⟩ := drop_cons_facts buf s c i1 hl
      have hob : o < buf.length := by omega
      have hcopy : ∀ v : Nat,
          ((unescape_cstring_loop buf.length fuel ⟨buf.set o v, s + 1, o + 1, warned⟩).buf.take
              (unescape_cstring_loop buf.length fuel ⟨buf.set o v, s + 1, o + 1, warned⟩).o,
            (unescape_cstring_loop buf.length fuel
              ⟨buf.set o v, s + 1, o + 1, warned⟩).warned) =
            unescape_loop fuel i1 (out ++ [v]) w ∧
          (unescape_cstring_loop buf.length fuel ⟨buf.set o v, s + 1, o + 1, warned⟩).o ≤
            (unescape_cstring_loop buf.length fuel ⟨buf.set o v, s + 1, o + 1, warned⟩).s ∧
          buf.length ≤
            (unescape_cstring_loop buf.length fuel ⟨buf.set o v, s + 1, o + 1, warned⟩).s := by
        intro v
        have hlen2 : (buf.set o v).length = buf.length := List.length_set _ _ _
        have := ih ⟨buf.set o v, s + 1, o + 1, warned⟩ i1 (out ++ [v]) w hlen2
          (by simp only; omega)
          (by simp only; rw [drop_set_lt buf o (s + 1) v (by omega), h1])
          (by simp only; rw [take_set_succ buf o v hob, ht])
          hw (by simpa using hf)
        exact this
      by_cases hc92 : c = 92
      · match i1, h1, hf, hcopy with
        | [], h1, _, hcopy =>
          have hge : buf.length ≤ s + 1 := List.drop_eq_nil_iff.mp h1
          have hc : ¬ (rd buf s = 92 ∧ s + 1 < buf.length) := fun h => by omega
          simp only [unescape_cstring_loop, if_pos hlt, if_neg hc, unescape_loop, if_pos hc92]
          rw [h0, hc92]
          have h := hcopy 92
          cases fuel <;> simpa [unescape_loop] using h
        | e :: i2, h1, hf, _ =>
          obtain ⟨hlt1, _, _⟩ := drop_cons_facts buf (s + 1) e i2 h1
          have hc : rd buf s = 92 ∧ s + 1 < buf.length := ⟨by rw [h0, hc92], hlt1⟩
          obtain ⟨e1, e2, e3, e4⟩ := cstring_switch_sim buf (s + 1) o e i2 (by omega) h1
          simp only [unescape_cstring_loop, if_pos hlt, if_pos hc, unescape_loop, if_pos hc92]
          have hlen2 : (cstring_switch buf buf.length (s + 1) o).buf.length = buf.length := by
            rw [e1, List.length_set]
          have hrest : (unescape_switch e i2).rest.length ≤ fuel := by
            rw [← e2, List.length_drop]
            have : (c :: e :: i2).length ≤ fuel + 1 := hf
            have hdl : (c :: e :: i2).length = buf.length - s := by
              rw [← hl, List.length_drop]
            omega
          have := ih ⟨(cstring_switch buf buf.length (s + 1) o).buf,
              (cstring_switch buf buf.length (s + 1) o).s, o + 1,
              warned || (cstring_switch buf buf.length (s + 1) o).warn⟩
            (unescape_switch e i2).rest (out ++ [(unescape_switch e i2).byte])
            (w || (unescape_switch e i2).warn)
            hlen2
            (by simp only; omega)
            (by simp only; rw [e1, drop_set_lt buf o _ _ (by omega), e2])
            (by simp only; rw [e1, take_set_succ buf o _ hob, ht])
            (by simp only; rw [hw, e3]) hrest
          exact this
      · have hc : ¬ (rd buf s = 92 ∧ s + 1 < buf.length) := by
          rw [h0]
          exact fun h => hc92 h.1
        simp only [unescape_cstring_loop, if_pos hlt, if_neg hc, unescape_loop, if_neg hc92]
        rw [h0]
        exact hcopy c

end yasm

namespace yasm

theorem hex_skip_length_le (l : List Nat) : (hex_skip l).length ≤ l.length := by
  induction l with
  | nil => simp [hex_skip]
  | cons a tl ih =>
    match tl, ih with
    | [], _ => simp [hex_skip]
    | [b], _ => simp [hex_skip]
    | b :: c :: r, ih =>
      rw [hex_skip_cons3]
      split_ifs
      · exact Nat.le_succ_of_le ih
      · exact Nat.le_refl _

theorem hex_escape_rest_le (i : List Nat) : (hex_escape i).rest.length ≤ i.length := by
  unfold hex_escape
  split
  · split_ifs
    · split
      · split_ifs
        · simp
          omega
        · simp
      · simp
    · simp
  · simp

theorem octal_escape_rest_le (d : Nat) (i1 : List Nat) :
    (octal_escape d i1).rest.length ≤ i1.length := by
  unfold octal_escape
  simp only
  split
  · split_ifs
    · split
      · split_ifs
        · simp
          omega
        · simp
      · simp
    · simp
  · simp

theorem unescape_switch_rest_le (e : Nat) (i1 : List Nat) :
    (unescape_switch e i1).rest.length ≤ i1.length := by
  unfold unescape_switch
  split_ifs
  · exact Nat.le_refl _
  · exact Nat.le_refl _
  · exact Nat.le_refl _
  · exact Nat.le_refl _
  · exact Nat.le_refl _
  · exact Nat.le_trans (hex_escape_rest_le _) (hex_skip_length_le _)
  · exact octal_escape_rest_le e i1
  · exact Nat.le_refl _

theorem unescape_loop_fuel_succ (fuel : Nat) :
    ∀ (l out : List Nat) (w : Bool), l.length ≤ fuel →
      unescape_loop (fuel + 1) l out w = unescape_loop fuel l out w := by
  induction fuel with
  | zero =>
    intro l out w hf
    have hnil : l = [] := List.length_eq_zero.mp (by omega)
    subst hnil
    simp [unescape_loop]
  | succ fuel ih =>
    intro l out w hf
    match l, hf with
    | [], _ => simp [unescape_loop]
    | c :: i1, hf =>
      have hf1 : i1.length ≤ fuel := by simpa using hf
      by_cases hc : c = 92
      · match i1, hf1 with
        | [], _ => simp [unescape_loop, hc]
        | e :: i2, hf1 =>
          have hr := unescape_switch_rest_le e i2
          have hf2 : i2.length + 1 ≤ fuel := by simpa using hf1
          simp only [unescape_loop, if_pos hc]
          exact ih _ _ _ (by omega)
      · simp only [unescape_loop, if_neg hc]
        exact ih _ _ _ hf1

theorem unescape_loop_fuel_irrelevant (l out : List Nat) (w : Bool) (k : Nat) :
    unescape_loop (l.length + k) l out w = unescape_loop l.length l out w := by
  induction k with
  | zero => rfl
  | succ k ih =>
    rw [← Nat.add_assoc, unescape_loop_fuel_succ _ l out w (by omega), ih]

/-- C20: for every byte string `str`, the bytes that `unescape_cstring` leaves
in the first `len` bytes of its buffer, `len` being the length it reports, when
run on `str` with the length of `str`, are exactly the string `unescape(str)`
returns; both set the warning in the same cases.  Both loops end by their
loop condition: `unescape_cstring` has read all of `str`, and more fuel does
not change the result of `unescape`. -/
theorem unescape_cstring_agrees (str : List Nat) :
    ((unescape_cstring str str.length).buf.take (unescape_cstring str str.length).o,
        (unescape_cstring str str.length).warned) = unescape str ∧
    str.length ≤ (unescape_cstring str str.length).s ∧
    ∀ k, unescape_loop (str.length + k) str [] false = unescape str :=
  ⟨(unescape_cstring_loop_sim str.length str.length ⟨str, 0, 0, false⟩ str [] false rfl
      (Nat.le_refl 0) rfl rfl rfl (Nat.le_refl _)).1,
    (unescape_cstring_loop_sim str.length str.length ⟨str, 0, 0, false⟩ str [] false rfl
      (Nat.le_refl 0) rfl rfl rfl (Nat.le_refl _)).2.2,
    fun k => unescape_loop_fuel_irrelevant str [] false k⟩

end yasm

namespace yasm

theorem hexval_lt_of_isxdigit (d : Nat) (h : isxdigit d = true) : hexval d < 16 := by
  simp only [isxdigit, decide_eq_true_eq] at h
  unfold hexval
  split_ifs <;> omega

theorem hex_skip_run (ds : List Nat) :
    ∀ (d1 d2 : Nat) (rest : List Nat), (∀ d ∈ ds, isxdigit d = true) →
      isxdigit d1 = true → isxdigit d2 = true →
      (∀ c, rest.head? = some c → isxdigit c = false) →
      hex_skip (ds ++ d1 :: d2 :: rest) = d1 :: d2 :: rest := by
  induction ds with
  | nil =>
    intro d1 d2 rest _ _ _ hrest
    match rest, hrest with
    | [], _ => simp [hex_skip]
    | c :: r, hrest =>
      have hc : isxdigit c = false := hrest c rfl
      rw [List.nil_append, hex_skip_cons3]
      simp [hc]
  | cons a ds ih =>
    intro d1 d2 rest hds h1 h2 hrest
    have ha : isxdigit a = true := hds a (List.mem_cons_self a ds)
    have hds2 : ∀ d ∈ ds, isxdigit d = true := fun d hd => hds d (List.mem_cons_of_mem a hd)
    have hrec := ih d1 d2 rest hds2 h1 h2 hrest
    match ds, hds2, hrec with
    | [], _, hrec =>
      rw [List.cons_append, List.nil_append, hex_skip_cons3]
      rw [List.nil_append] at hrec
      simp [ha, h1, h2, hrec]
    | [b], hds2, hrec =>
      have hb : isxdigit b = true := hds2 b (List.mem_cons_self b [])
      simp only [List.cons_append, List.nil_append] at hrec ⊢
      rw [hex_skip_cons3]
      simp [ha, hb, h1, hrec]
    | b :: c :: r, hds2, hrec =>
      have hb : isxdigit b = true := hds2 b (List.mem_cons_self b _)
      have hc : isxdigit c = true :=
        hds2 c (List.mem_cons_of_mem b (List.mem_cons_self c r))
      simp only [List.cons_append] at hrec ⊢
      rw [hex_skip_cons3]
      simp [ha, hb, hc, hrec]

/-- C19: in `unescape`, a backslash and `x` followed by a maximal run of
hexadecimal digits (the input `rest` after the run is empty or starts with a
character that is no hexadecimal digit) yields one character and the loop goes
on at `rest`: for a run of two or more digits the character has the value of
the last two digits, for a run of one digit the value of this digit, and for an
empty run it is NUL. -/
theorem unescape_hex_escape (fuel : Nat) (out rest : List Nat) (w : Bool)
    (hrest : ∀ c, rest.head? = some c → isxdigit c = false) :
    (∀ (ds : List Nat) (d1 d2 : Nat), (∀ d ∈ ds, isxdigit d = true) →
      isxdigit d1 = true → isxdigit d2 = true →
      unescape_loop (fuel + 1) (92 :: 120 :: (ds ++ d1 :: d2 :: rest)) out w =
        unescape_loop fuel rest (out ++ [16 * hexval d1 + hexval d2]) w) ∧
    (∀ d : Nat, isxdigit d = true →
      unescape_loop (fuel + 1) (92 :: 120 :: d :: rest) out w =
        unescape_loop fuel rest (out ++ [hexval d]) w) ∧
    unescape_loop (fuel + 1) (92 :: 120 :: rest) out w =
      unescape_loop fuel rest (out ++ [0]) w := by
  refine ⟨?_, ?_, ?_⟩
  · intro ds d1 d2 hds h1 h2
    have hv1 := hexval_lt_of_isxdigit d1 h1
    have hv2 := hexval_lt_of_isxdigit d2 h2
    have hmod : (hexval d1 * 16 + hexval d2) % 256 =
        16 * hexval d1 + hexval d2 := by omega
    simp [unescape_loop, unescape_switch, hex_skip_run ds d1 d2 rest hds h1 h2 hrest,
      hex_escape, h1, h2, strtoul16, hmod]
  · intro d hd
    have hv := hexval_lt_of_isxdigit d hd
    have hmod : hexval d % 256 = hexval d := by omega
    have hskip : hex_skip (d :: rest) = d :: rest := by
      match rest, hrest with
      | [], _ => simp [hex_skip]
      | [c], hrest => simp [hex_skip]
      | c :: c2 :: r, hrest =>
        have hc : isxdigit c = false := hrest c rfl
        rw [hex_skip_cons3]
        simp [hc]
    match rest, hrest, hskip with
    | [], _, hskip =>
      simp [unescape_loop, unescape_switch, hskip, hex_escape, hd, strtoul16, hmod]
    | c :: r, hrest, hskip =>
      have hc : isxdigit c = false := hrest c rfl
      simp [unescape_loop, unescape_switch, hskip, hex_escape, hd, hc, strtoul16, hmod]
  · match rest, hrest with
    | [], _ => simp [unescape_loop, unescape_switch, hex_skip, hex_escape]
    | c :: r, hrest =>
      have hc : isxdigit c = false := hrest c rfl
      have hskip : hex_skip (c :: r) = c :: r := by
        match r with
        | [] => simp [hex_skip]
        | [c1] => simp [hex_skip]
        | c1 :: c2 :: r2 =>
          rw [hex_skip_cons3]
          simp [hc]
      simp [unescape_loop, unescape_switch, hskip, hex_escape, hc]

theorem unescape_hex_escape_witness :
    unescape_loop (3 + 1) (92 :: 120 :: ([49, 50] ++ 52 :: 49 :: [122])) [] false =
      unescape_loop 3 [122] ([] ++ [16 * hexval 52 + hexval 49]) false :=
  (unescape_hex_escape 3 [] [122] false (by decide)).1 [49, 50] 52 49 (by decide)
    (by decide) (by decide)

end yasm

namespace yasm

/-! ## In-place safety of `unescape_cstring` -/

theorem cstring_hex_skip_bounds (buf : List Nat) (len fuel : Nat) :
    ∀ s, s ≤ len → s ≤ cstring_hex_skip buf len fuel s ∧
      cstring_hex_skip buf len fuel s ≤ len := by
  induction fuel with
  | zero => intro s hs; simp only [cstring_hex_skip]; omega
  | succ fuel ih =>
    intro s hs
    simp only [cstring_hex_skip]
    split_ifs with hc
    · have := ih (s + 1) (by omega)
      omega
    · omega

theorem cstring_hex_escape_bounds (buf : List Nat) (len s o : Nat) (hs : s ≤ len) :
    s ≤ (cstring_hex_escape buf len s o).s ∧ (cstring_hex_escape buf len s o).s ≤ len ∧
      ∃ v, (cstring_hex_escape buf len s o).buf = buf.set o v := by
  simp only [cstring_hex_escape]
  split_ifs with h1 h2
  · exact ⟨by simp only; omega, by simp only; omega, _, rfl⟩
  · exact ⟨by simp only; omega, by simp only; omega, _, rfl⟩
  · exact ⟨le_refl s, hs, _, rfl⟩

theorem cstring_octal_escape_bounds (buf : List Nat) (len s o : Nat) (hs : s < len) :
    s < (cstring_octal_escape buf len s o).s ∧ (cstring_octal_escape buf len s o).s ≤ len ∧
      ∃ v, (cstring_octal_escape buf len s o).buf = buf.set o v := by
  simp only [cstring_octal_escape]
  split_ifs with h1 h2
  · refine ⟨by simp only; omega, by simp only; omega, ?_⟩
    simp only [List.set_set]
    exact ⟨_, rfl⟩
  · refine ⟨by simp only; omega, by simp only; omega, ?_⟩
    simp only [List.set_set]
    exact ⟨_, rfl⟩
  · exact ⟨by simp only; omega, by simp only; omega, _, rfl⟩

theorem cstring_switch_bounds (buf : List Nat) (len s o : Nat) (hs : s < len) :
    s < (cstring_switch buf len s o).s ∧ (cstring_switch buf len s o).s ≤ len ∧
      ∃ v, (cstring_switch buf len s o).buf = buf.set o v := by
  simp only [cstring_switch]
  split_ifs with hb hf hn hr ht hx hd
  · exact ⟨Nat.lt_succ_self s, hs, _, rfl⟩
  · exact ⟨Nat.lt_succ_self s, hs, _, rfl⟩
  · exact ⟨Nat.lt_succ_self s, hs, _, rfl⟩
  · exact ⟨Nat.lt_succ_self s, hs, _, rfl⟩
  · exact ⟨Nat.lt_succ_self s, hs, _, rfl⟩
  · have hk := cstring_hex_skip_bounds buf len len (s + 1) hs
    have he := cstring_hex_escape_bounds buf len (cstring_hex_skip buf len len (s + 1)) o hk.2
    exact ⟨by omega, he.2.1, he.2.2⟩
  · exact cstring_octal_escape_bounds buf len s o hs
  · exact ⟨Nat.lt_succ_self s, hs, _, rfl⟩

/-- One pass of the loop of `unescape_cstring` from a state with `o ≤ s ≤ len`:
the pass writes at `o` only, and `o ≤ s ≤ len` holds again. -/
theorem unescape_cstring_pass (len : Nat) (st : CString) (hos : st.o ≤ st.s)
    (hs : st.s ≤ len) :
    (unescape_cstring_loop len 1 st).o ≤ (unescape_cstring_loop len 1 st).s ∧
      (unescape_cstring_loop len 1 st).s ≤ len ∧
      st.s ≤ (unescape_cstring_loop len 1 st).s ∧
      (unescape_cstring_loop len 1 st = st ∨
        (st.s < (unescape_cstring_loop len 1 st).s ∧
          ∃ v, (unescape_cstring_loop len 1 st).buf = st.buf.set st.o v)) := by
  obtain ⟨buf, s, o, warned⟩ := st
  simp only at hos hs
  simp only [unescape_cstring_loop]
  split_ifs with h1 h2
  · obtain ⟨hb1, hb2, v, hv⟩ := cstring_switch_bounds buf len (s + 1) o h2.2
    exact ⟨by simp only; omega, hb2, by simp only; omega,
      Or.inr ⟨by simp only; omega, v, hv⟩⟩
  · exact ⟨by simp only; omega, by simp only; omega, by simp only; omega,
      Or.inr ⟨by simp only; omega, _, rfl⟩⟩
  · exact ⟨hos, hs, le_refl _, Or.inl rfl⟩

theorem unescape_cstring_loop_succ (len : Nat) (k : Nat) :
    ∀ st, unescape_cstring_loop len (k + 1) st =
      unescape_cstring_loop len 1 (unescape_cstring_loop len k st) := by
  induction k with
  | zero => intro st; rfl
  | succ k ih =>
    intro st
    by_cases h1 : st.s < len
    · by_cases h2 : rd st.buf st.s = 92 ∧ st.s + 1 < len
      · have e : ∀ n, unescape_cstring_loop len (n + 1) st =
            unescape_cstring_loop len n
              ⟨(cstring_switch st.buf len (st.s + 1) st.o).buf,
                (cstring_switch st.buf len (st.s + 1) st.o).s, st.o + 1,
                st.warned || (cstring_switch st.buf len (st.s + 1) st.o).warn⟩ := by
          intro n
          rw [unescape_cstring_loop, if_pos h1, if_pos h2]
        rw [e (k + 1), ih, e k]
      · have e : ∀ n, unescape_cstring_loop len (n + 1) st =
            unescape_cstring_loop len n
              ⟨st.buf.set st.o (rd st.buf st.s), st.s + 1, st.o + 1, st.warned⟩ := by
          intro n
          rw [unescape_cstring_loop, if_pos h1, if_neg h2]
        rw [e (k + 1), ih, e k]
    · have hz : ∀ n, unescape_cstring_loop len n st = st := by
        intro n
        cases n with
        | zero => rfl
        | succ n => rw [unescape_cstring_loop, if_neg h1]
      rw [hz, hz, hz]

/-- Invariant of the loop of `unescape_cstring` on the buffer `str`: after any
number of passes, `o ≤ s ≤ len`, the buffer keeps its length, and the bytes
from `s` on are those of `str`. -/
theorem unescape_cstring_loop_inv (str : List Nat) (k : Nat) :
    (unescape_cstring_loop str.length k ⟨str, 0, 0, false⟩).o ≤
        (unescape_cstring_loop str.length k ⟨str, 0, 0, false⟩).s ∧
      (unescape_cstring_loop str.length k ⟨str, 0, 0, false⟩).s ≤ str.length ∧
      (unescape_cstring_loop str.length k ⟨str, 0, 0, false⟩).buf.length = str.length ∧
      (unescape_cstring_loop str.length k ⟨str, 0, 0, false⟩).buf.drop
          (unescape_cstring_loop str.length k ⟨str, 0, 0, false⟩).s =
        str.drop (unescape_cstring_loop str.length k ⟨str, 0, 0, false⟩).s := by
  induction k with
  | zero => exact ⟨le_refl _, Nat.zero_le _, rfl, rfl⟩
  | succ k ih =>
    obtain ⟨h1, h2, h3, h4⟩ := ih
    rw [unescape_cstring_loop_succ]
    generalize unescape_cstring_loop str.length k ⟨str, 0, 0, false⟩ = st at h1 h2 h3 h4
    obtain ⟨p1, p2, p3, p4⟩ := unescape_cstring_pass str.length st h1 h2
    refine ⟨p1, p2, ?_, ?_⟩
    · rcases p4 with p4 | ⟨_, v, p4⟩
      · rw [p4]; exact h3
      · rw [p4, List.length_set]; exact h3
    · rcases p4 with p4 | ⟨hlt, v, p4⟩
      · rw [p4]; exact h4
      · rw [p4, drop_set_lt _ _ _ _ (by omega)]
        have e : (unescape_cstring_loop str.length 1 st).s =
            st.s + ((unescape_cstring_loop str.length 1 st).s - st.s) := by omega
        rw [e, ← List.drop_drop, ← List.drop_drop, h4]

theorem unescape_cstring_loop_plain (str : List Nat) (h : 92 ∉ str) (k : Nat) :
    ∀ s, s ≤ str.length →
      unescape_cstring_loop str.length k ⟨str, s, s, false⟩ =
        ⟨str, min (s + k) str.length, min (s + k) str.length, false⟩ := by
  induction k with
  | zero =>
    intro s hs
    simp only [unescape_cstring_loop, Nat.add_zero, Nat.min_eq_left hs]
  | succ k ih =>
    intro s hs
    by_cases h1 : s < str.length
    · have hrd : rd str s = str[s] := by
        simp [rd, List.getD_eq_getElem?_getD, List.getElem?_eq_getElem h1]
      have h2 : ¬ (rd str s = 92 ∧ s + 1 < str.length) := by
        intro hc
        apply h
        rw [← hc.1, hrd]
        exact List.getElem_mem h1
      have hset : str.set s (rd str s) = str := by
        rw [hrd]
        apply List.ext_getElem?
        intro i
        by_cases hi : s = i
        · subst hi
          simp [List.getElem?_set, h1]
        · rw [List.getElem?_set_ne hi]
      rw [unescape_cstring_loop, if_pos h1, if_neg h2]
      simp only [hset]
      rw [ih (s + 1) (by omega)]
      have e : s + 1 + k = s + (k + 1) := by omega
      rw [e]
    · rw [unescape_cstring_loop, if_neg h1]
      have e : min (s + (k + 1)) str.length = s := by omega
      rw [e]

/-- C21: `unescape_cstring` is safe to run in place on a buffer `str` with its
length.  After any number `k` of passes of the loop the write position `o` is
at or before the read position `s`, `s` is inside the input, the buffer has
kept its length and the bytes not read yet (from `s` on) are still those of
the input; the next pass changes the buffer at most at the write position.
The length reported on return is at most the input length; for an input
without backslash it is the input length and the buffer is unchanged. -/
theorem unescape_cstring_in_place (str : List Nat) :
    (∀ k, (unescape_cstring_loop str.length k ⟨str, 0, 0, false⟩).o ≤
          (unescape_cstring_loop str.length k ⟨str, 0, 0, false⟩).s ∧
        (unescape_cstring_loop str.length k ⟨str, 0, 0, false⟩).s ≤ str.length ∧
        (unescape_cstring_loop str.length k ⟨str, 0, 0, false⟩).buf.length = str.length ∧
        (unescape_cstring_loop str.length k ⟨str, 0, 0, false⟩).buf.drop
            (unescape_cstring_loop str.length k ⟨str, 0, 0, false⟩).s =
          str.drop (unescape_cstring_loop str.length k ⟨str, 0, 0, false⟩).s ∧
        ∀ j, j ≠ (unescape_cstring_loop str.length k ⟨str, 0, 0, false⟩).o →
          rd (unescape_cstring_loop str.length (k + 1) ⟨str, 0, 0, false⟩).buf j =
            rd (unescape_cstring_loop str.length k ⟨str, 0, 0, false⟩).buf j) ∧
      (unescape_cstring str str.length).o ≤ str.length ∧
      (92 ∉ str → (unescape_cstring str str.length).o = str.length ∧
        (unescape_cstring str str.length).buf = str) := by
  refine ⟨fun k => ?_, ?_, fun h => ?_⟩
  · obtain ⟨h1, h2, h3, h4⟩ := unescape_cstring_loop_inv str k
    refine ⟨h1, h2, h3, h4, fun j hj => ?_⟩
    rw [unescape_cstring_loop_succ]
    rcases (unescape_cstring_pass str.length _ h1 h2).2.2.2 with p | ⟨_, v, p⟩
    · rw [p]
    · rw [p, rd_set_ne _ _ _ _ (Ne.symm hj)]
  · obtain ⟨h1, h2, _, _⟩ := unescape_cstring_loop_inv str str.length
    exact le_trans h1 h2
  · have := unescape_cstring_loop_plain str h str.length 0 (Nat.zero_le _)
    rw [unescape_cstring, this]
    exact ⟨by simp, rfl⟩

theorem unescape_cstring_in_place_witness :
    92 ∉ [97, 98] ∧ (unescape_cstring [97, 98] 2).o = 2 ∧
      (unescape_cstring [97, 98] 2).buf = [97, 98] :=
  ⟨by decide, (unescape_cstring_in_place [97, 98]).2.2 (by decide)⟩

end yasm

namespace yasm

/-! ## Searching backwards, and `replace_extension` -/

theorem at_lt_length_of_ne_zero (s : List Nat) (i : Nat) (h : at_ s i ≠ 0) : i < s.length := by
  by_contra hge
  apply h
  simp [at_, List.getD_eq_getElem?_getD, List.getElem?_eq_none (not_lt.mp hge)]

theorem at_eq_getElem (s : List Nat) (i : Nat) (h : i < s.length) : at_ s i = s[i] := by
  simp [at_, List.getD_eq_getElem?_getD, List.getElem?_eq_getElem h]

theorem at_append_left (a b : List Nat) (i : Nat) (h : i < a.length) :
    at_ (a ++ b) i = at_ a i := by
  simp [at_, List.getD_eq_getElem?_getD, List.getElem?_append_left h]

theorem at_append_right (a b : List Nat) (i : Nat) :
    at_ (a ++ b) (a.length + i) = at_ b i := by
  simp [at_, List.getD_eq_getElem?_getD, List.getElem?_append_right]

theorem at_take (s : List Nat) (n i : Nat) (h : i < n) : at_ (s.take n) i = at_ s i := by
  simp [at_, List.getD_eq_getElem?_getD, List.getElem?_take_of_lt h]

theorem at_mem (s : List Nat) (i : Nat) (h : i < s.length) : at_ s i ∈ s := by
  rw [at_eq_getElem s i h]
  exact List.getElem_mem h

theorem rfind_if_some (p : Nat → Bool) (s : List Nat) (pos : Nat) :
    ∀ i, rfind_if p s pos = some i →
      i ≤ pos ∧ i < s.length ∧ p (at_ s i) = true ∧
        ∀ j, i < j → j ≤ pos → j < s.length → p (at_ s j) = false := by
  induction pos with
  | zero =>
    intro i h
    simp only [rfind_if] at h
    split_ifs at h with hc
    simp only [Option.some.injEq] at h
    subst h
    exact ⟨le_refl _, hc.1, hc.2, fun j h1 h2 _ => by omega⟩
  | succ pos ih =>
    intro i h
    simp only [rfind_if] at h
    split_ifs at h with hc
    · simp only [Option.some.injEq] at h
      subst h
      exact ⟨le_refl _, hc.1, hc.2, fun j h1 h2 _ => by omega⟩
    · obtain ⟨h1, h2, h3, h4⟩ := ih i h
      refine ⟨by omega, h2, h3, fun j hj1 hj2 hj3 => ?_⟩
      by_cases hj : j = pos + 1
      · subst hj
        by_contra hp
        exact hc ⟨hj3, by simpa using hp⟩
      · exact h4 j hj1 (by omega) hj3

theorem rfind_if_none (p : Nat → Bool) (s : List Nat) (pos : Nat) :
    rfind_if p s pos = none → ∀ j, j ≤ pos → j < s.length → p (at_ s j) = false := by
  induction pos with
  | zero =>
    intro h j h1 h2
    simp only [rfind_if] at h
    split_ifs at h with hc
    have : j = 0 := by omega
    subst this
    by_contra hp
    exact hc ⟨h2, by simpa using hp⟩
  | succ pos ih =>
    intro h j h1 h2
    simp only [rfind_if] at h
    split_ifs at h with hc
    by_cases hj : j = pos + 1
    · subst hj
      by_contra hp
      exact hc ⟨h2, by simpa using hp⟩
    · exact ih h j (by omega) h2

theorem rfind_if_eq_some (p : Nat → Bool) (s : List Nat) (pos i : Nat) (h1 : i ≤ pos)
    (h2 : i < s.length) (h3 : p (at_ s i) = true)
    (h4 : ∀ j, i < j → j ≤ pos → j < s.length → p (at_ s j) = false) :
    rfind_if p s pos = some i := by
  cases hr : rfind_if p s pos with
  | none =>
    have := rfind_if_none p s pos hr i h1 h2
    rw [h3] at this
    exact absurd this (by decide)
  | some k =>
    obtain ⟨k1, k2, k3, k4⟩ := rfind_if_some p s pos k hr
    rcases Nat.lt_trichotomy i k with hlt | heq | hgt
    · have := h4 k hlt k1 k2
      rw [k3] at this
      exact absurd this (by decide)
    · rw [heq]
    · have := k4 i hgt h1 h2
      rw [h3] at this
      exact absurd this (by decide)

theorem rfind_if_eq_none (p : Nat → Bool) (s : List Nat) (pos : Nat)
    (h : ∀ j, j ≤ pos → j < s.length → p (at_ s j) = false) : rfind_if p s pos = none := by
  cases hr : rfind_if p s pos with
  | none => rfl
  | some k =>
    obtain ⟨k1, k2, k3, _⟩ := rfind_if_some p s pos k hr
    have := h k k1 k2
    rw [k3] at this
    exact absurd this (by decide)

/-- The search from the end finds the last element with `p`. -/
theorem rfind_if_last (p : Nat → Bool) (pre suf : List Nat) (c : Nat) (hc : p c = true)
    (hsuf : ∀ x ∈ suf, p x = false) :
    rfind_if p (pre ++ c :: suf) ((pre ++ c :: suf).length - 1) = some pre.length := by
  apply rfind_if_eq_some
  · simp only [List.length_append, List.length_cons]; omega
  · simp only [List.length_append, List.length_cons]; omega
  · have := at_append_right pre (c :: suf) 0
    rw [Nat.add_zero] at this
    rw [this]
    simpa [at_] using hc
  · intro j h1 _ h3
    obtain ⟨d, rfl⟩ : ∃ d, j = pre.length + (d + 1) := ⟨j - pre.length - 1, by omega⟩
    rw [at_append_right]
    simp only [List.length_append, List.length_cons] at h3
    have hd : d < suf.length := by omega
    have : at_ (c :: suf) (d + 1) = at_ suf d := by simp [at_]
    rw [this]
    exact hsuf _ (at_mem suf d hd)

theorem rfind_if_absent (p : Nat → Bool) (s : List Nat) (pos : Nat)
    (h : ∀ x ∈ s, p x = false) : rfind_if p s pos = none :=
  rfind_if_eq_none p s pos (fun j _ hj => h _ (at_mem s j hj))

/-- C27: `replace_extension` never names the source file as output.  When
`orig` has a last `.` (it is `pre`, the `.`, and a part `suf` without `.`), the
result is `def` if the suffix from that `.` equals `ext`, and else `pre`
followed by `ext`, which differs from `orig`.  When `orig` has no `.`, the
result is `def` if `ext` is empty, and else `orig` followed by `ext`, which
differs from `orig`. -/
theorem replace_extension_never_source (orig ext def_ : List Nat) :
    (∀ pre suf, orig = pre ++ 46 :: suf → 46 ∉ suf →
      (46 :: suf = ext → replace_extension orig ext def_ = def_) ∧
      (46 :: suf ≠ ext → replace_extension orig ext def_ = pre ++ ext ∧
        replace_extension orig ext def_ ≠ orig)) ∧
    (46 ∉ orig →
      (ext = [] → replace_extension orig ext def_ = def_) ∧
      (ext ≠ [] → replace_extension orig ext def_ = orig ++ ext ∧
        replace_extension orig ext def_ ≠ orig)) := by
  constructor
  · intro pre suf ho hsuf
    have hf : rfind_if (fun c => c == 46) orig (orig.length - 1) = some pre.length := by
      rw [ho]
      apply rfind_if_last
      · rfl
      · intro x hx
        have : x ≠ 46 := fun e => hsuf (e ▸ hx)
        simpa using this
    have hd : orig.drop pre.length = 46 :: suf := by
      rw [ho, List.drop_left]
    have ht : orig.take pre.length = pre := by
      rw [ho, List.take_left]
    constructor
    · intro he
      simp only [replace_extension, hf, compare_from, hd, he, decide_True, if_true]
    · intro he
      have hr : replace_extension orig ext def_ = pre ++ ext := by
        simp only [replace_extension, hf, compare_from, hd, he, decide_False, ht]
        rfl
      refine ⟨hr, ?_⟩
      rw [hr, ho]
      intro hc
      exact he (List.append_cancel_left hc).symm
  · intro hno
    have hf : rfind_if (fun c => c == 46) orig (orig.length - 1) = none := by
      apply rfind_if_absent
      intro x hx
      have : x ≠ 46 := fun e => hno (e ▸ hx)
      simpa using this
    constructor
    · intro he
      simp only [replace_extension, hf, he, if_true]
    · intro he
      have hr : replace_extension orig ext def_ = orig ++ ext := by
        simp only [replace_extension, hf, he, if_false]
      refine ⟨hr, ?_⟩
      rw [hr]
      intro hc
      exact he (List.append_right_eq_self.mp hc)

theorem replace_extension_never_source_witness :
    replace_extension [102, 46, 99] [46, 111] [97] = [102] ++ [46, 111] ∧
      replace_extension [102, 46, 99] [46, 111] [97] ≠ [102, 46, 99] :=
  ((replace_extension_never_source [102, 46, 99] [46, 111] [97]).1 [102] [99] rfl
    (by decide)).2 (by decide)

end yasm

namespace yasm

/-! ## `std::unique` on runs of one character, and `splitpath_unix` -/

theorem unique_after_cons (c k b : Nat) (rest : List Nat) :
    unique_after c k (b :: rest) =
      if k = c ∧ b = c then unique_after c k rest else b :: unique_after c b rest := rfl

theorem unique_adjacent_cons (c a : Nat) (rest : List Nat) :
    unique_adjacent c (a :: rest) = a :: unique_after c a rest := rfl

theorem unique_after_chain (c : Nat) (l : List Nat) :
    ∀ k, List.Chain (fun a b => ¬ (a = c ∧ b = c)) k (unique_after c k l) := by
  induction l with
  | nil => intro k; exact List.Chain.nil
  | cons b rest ih =>
    intro k
    rw [unique_after_cons]
    split_ifs with h
    · exact ih k
    · exact List.Chain.cons h (ih b)

theorem unique_adjacent_chain (c : Nat) (l : List Nat) :
    List.Chain' (fun a b => ¬ (a = c ∧ b = c)) (unique_adjacent c l) := by
  cases l with
  | nil => exact List.chain'_nil
  | cons a rest => exact unique_after_chain c rest a

theorem unique_after_append_ne (c x : Nat) (hx : x ≠ c) (l : List Nat) :
    ∀ k, unique_after c k (l ++ [x]) = unique_after c k l ++ [x] := by
  induction l with
  | nil =>
    intro k
    rw [List.nil_append, unique_after_cons, if_neg (fun h => hx h.2)]
    rfl
  | cons b rest ih =>
    intro k
    rw [List.cons_append, unique_after_cons, unique_after_cons]
    split_ifs with h
    · exact ih k
    · rw [ih b, List.cons_append]

theorem unique_adjacent_append_ne (c x : Nat) (hx : x ≠ c) (l : List Nat) :
    unique_adjacent c (l ++ [x]) = unique_adjacent c l ++ [x] := by
  cases l with
  | nil => rfl
  | cons a rest =>
    rw [List.cons_append, unique_adjacent_cons, unique_adjacent_cons,
      unique_after_append_ne c x hx rest a, List.cons_append]

theorem unique_after_all (c : Nat) (l : List Nat) (h : ∀ x ∈ l, x = c) :
    unique_after c c l = [] := by
  induction l with
  | nil => rfl
  | cons b rest ih =>
    have hb : b = c := h b (List.mem_cons_self _ _)
    rw [unique_after_cons, if_pos ⟨rfl, hb⟩]
    exact ih (fun x hx => h x (List.mem_cons_of_mem _ hx))

theorem unique_adjacent_all (c : Nat) (l : List Nat) (h : ∀ x ∈ l, x = c) :
    unique_adjacent c l = [] ∨ unique_adjacent c l = [c] := by
  cases l with
  | nil => exact Or.inl rfl
  | cons a rest =>
    have ha : a = c := h a (List.mem_cons_self _ _)
    subst ha
    right
    rw [unique_adjacent_cons, unique_after_all a rest (fun x hx => h x (List.mem_cons_of_mem _ hx))]

theorem unique_after_sublist (c : Nat) (l : List Nat) :
    ∀ k, List.Sublist (unique_after c k l) l := by
  induction l with
  | nil => intro k; exact List.Sublist.slnil
  | cons b rest ih =>
    intro k
    rw [unique_after_cons]
    split_ifs with h
    · exact List.Sublist.cons _ (ih k)
    · exact List.Sublist.cons₂ _ (ih b)

theorem unique_adjacent_sublist (c : Nat) (l : List Nat) :
    List.Sublist (unique_adjacent c l) l := by
  cases l with
  | nil => exact List.Sublist.slnil
  | cons a rest => exact List.Sublist.cons₂ _ (unique_after_sublist c rest a)

theorem unique_after_of_head_ne (c k : Nat) (rest : List Nat) (h : rest.head? ≠ some c) :
    unique_after c k rest = unique_adjacent c rest := by
  cases rest with
  | nil => rfl
  | cons b r =>
    have hb : b ≠ c := by simpa using h
    rw [unique_after_cons, unique_adjacent_cons, if_neg (fun h => hb h.2)]

theorem unique_after_append (c : Nat) (rest : List Nat) (h : rest.head? ≠ some c)
    (out : List Nat) :
    ∀ k, List.Chain (fun a b => ¬ (a = c ∧ b = c)) k out →
      unique_after c k (out ++ rest) = out ++ unique_adjacent c rest := by
  induction out with
  | nil =>
    intro k _
    exact unique_after_of_head_ne c k rest h
  | cons b o ih =>
    intro k hk
    rw [List.chain_cons] at hk
    rw [List.cons_append, unique_after_cons, if_neg hk.1, ih b hk.2, List.cons_append]

/-- `std::unique` leaves a string without two adjacent `c` as it is, also when
a string that does not begin with `c` follows. -/
theorem unique_adjacent_append (c : Nat) (out rest : List Nat)
    (hout : List.Chain' (fun a b => ¬ (a = c ∧ b = c)) out) (h : rest.head? ≠ some c) :
    unique_adjacent c (out ++ rest) = out ++ unique_adjacent c rest := by
  cases out with
  | nil => rfl
  | cons a o =>
    rw [List.cons_append, unique_adjacent_cons, unique_after_append c rest h o a hout,
      List.cons_append]

theorem unique_adjacent_of_chain (c : Nat) (out : List Nat)
    (hout : List.Chain' (fun a b => ¬ (a = c ∧ b = c)) out) : unique_adjacent c out = out := by
  have := unique_adjacent_append c out [] hout (by simp)
  rw [List.append_nil] at this
  rw [this]
  exact List.append_nil _

theorem chain_no_adjacent (c : Nat) (l : List Nat)
    (h : List.Chain' (fun a b => ¬ (a = c ∧ b = c)) l) : ¬ [c, c] <:+: l := by
  intro hin
  have := h.infix hin
  simp at this

theorem find_last_not_none (c : Nat) (head : List Nat)
    (hr : rfind_if (fun x => x != c) head (head.length - 1) = none) : ∀ x ∈ head, x = c := by
  intro x hx
  obtain ⟨i, hi, rfl⟩ := List.getElem_of_mem hx
  have := rfind_if_none _ head _ hr i (by omega) hi
  rw [at_eq_getElem head i hi] at this
  simpa using this

theorem find_last_not_some (c : Nat) (head : List Nat) (f : Nat)
    (hr : rfind_if (fun x => x != c) head (head.length - 1) = some f) :
    head.take (f + 1) = head.take f ++ [at_ head f] ∧ at_ head f ≠ c := by
  obtain ⟨_, h2, h3, _⟩ := rfind_if_some _ head _ f hr
  refine ⟨?_, by simpa using h3⟩
  rw [List.take_succ, at_eq_getElem head f h2, List.getElem?_eq_getElem h2]
  rfl

/-- C22: for every `path`, the head returned by `splitpath_unix` has no two
adjacent `/` and does not end in `/` unless it is exactly `/`; the tail is the
part of `path` after its last `/`; when `path` has no `/` the head is empty
and the tail is `path`. -/
theorem splitpath_unix_head_tail (path : List Nat) :
    ¬ [47, 47] <:+: (splitpath_unix path).1 ∧
    ([47] <:+ (splitpath_unix path).1 → (splitpath_unix path).1 = [47]) ∧
    (∀ pre suf, path = pre ++ 47 :: suf → 47 ∉ suf → (splitpath_unix path).2 = suf) ∧
    (47 ∉ path → (splitpath_unix path).1 = [] ∧ (splitpath_unix path).2 = path) := by
  refine ⟨?_, ?_, ?_, ?_⟩
  · apply chain_no_adjacent
    simp only [splitpath_unix]
    cases rfind_if (fun c => c == 47) path (path.length - 1) with
    | none => exact List.chain'_nil
    | some found => exact unique_adjacent_chain 47 _
  · simp only [splitpath_unix]
    cases rfind_if (fun c => c == 47) path (path.length - 1) with
    | none =>
      intro h
      simp at h
    | some found =>
      simp only
      generalize (List.take (found + 1) path).take
        (strip_dot_dir 47 (List.take (found + 1) path) (List.take (found + 1) path).length
          (List.take (found + 1) path).length) = head
      cases hr : rfind_if (fun c => c != 47) head (head.length - 1) with
      | none =>
        have e2 := find_last_not_none 47 head hr
        simp only
        intro hs
        rcases unique_adjacent_all 47 head e2 with h | h
        · rw [h] at hs
          simp at hs
        · exact h
      | some f =>
        obtain ⟨e1, e2⟩ := find_last_not_some 47 head f hr
        simp only
        rw [e1, unique_adjacent_append_ne 47 _ e2]
        intro hs
        exfalso
        obtain ⟨t, ht⟩ := hs
        have := congrArg List.getLast? ht
        simp at this
        exact e2 this.symm
  · intro pre suf hp hsuf
    have hf : rfind_if (fun c => c == 47) path (path.length - 1) = some pre.length := by
      rw [hp]
      apply rfind_if_last
      · rfl
      · intro x hx
        have : x ≠ 47 := fun e => hsuf (e ▸ hx)
        simpa using this
    simp only [splitpath_unix, hf]
    rw [hp]
    simp
  · intro hno
    have hf : rfind_if (fun c => c == 47) path (path.length - 1) = none := by
      apply rfind_if_absent
      intro x hx
      have : x ≠ 47 := fun e => hno (e ▸ hx)
      simpa using this
    simp only [splitpath_unix, hf, and_self]

theorem splitpath_unix_head_tail_witness :
    (splitpath_unix [97, 47, 47, 98, 47, 46, 47, 99]).2 = [99] :=
  (splitpath_unix_head_tail [97, 47, 47, 98, 47, 46, 47, 99]).2.2.1 [97, 47, 47, 98, 47, 46]
    [99] rfl (by decide)

end yasm

namespace yasm

/-! ## The two `combpath_unix` -/

theorem at_zero_cons (a : Nat) (l : List Nat) : at_ (a :: l) 0 = a := rfl

theorem at_succ_cons (a : Nat) (l : List Nat) (i : Nat) : at_ (a :: l) (i + 1) = at_ l i := rfl

theorem at_nil (i : Nat) : at_ [] i = 0 := by
  simp [at_]

theorem at_ge_length (s : List Nat) (i : Nat) (h : s.length ≤ i) : at_ s i = 0 := by
  simp [at_, List.getD_eq_getElem?_getD, List.getElem?_eq_none h]

theorem at_drop_facts (s : List Nat) (i a : Nat) (tl : List Nat) (h : s.drop i = a :: tl) :
    i < s.length ∧ at_ s i = a ∧ s.drop (i + 1) = tl :=
  drop_cons_facts s i a tl h

theorem at_drop_nil (s : List Nat) (i : Nat) (h : s.drop i = []) : at_ s i = 0 :=
  at_ge_length s i (List.drop_eq_nil_iff.mp h)

theorem head_drop_ne (s : List Nat) (i c : Nat) (h : at_ s i ≠ c) :
    (s.drop i).head? ≠ some c := by
  cases hd : s.drop i with
  | nil => simp
  | cons a tl =>
    obtain ⟨_, ha, _⟩ := at_drop_facts s i a tl hd
    simp only [List.head?_cons, ne_eq, Option.some.injEq]
    rw [← ha]
    exact h

theorem copy_combine_cons (a : Nat) (rest : List Nat) :
    copy_combine (a :: rest) =
      if a = 47 ∧ at_ rest 0 = 47 then copy_combine rest else a :: copy_combine rest := rfl

theorem copy_combine_eq_unique_after (l : List Nat) :
    ∀ a, copy_combine (a :: l) = a :: unique_after 47 a l := by
  induction l with
  | nil =>
    intro a
    have h : ¬ (a = 47 ∧ at_ [] 0 = 47) := by
      rw [at_nil]
      exact fun h => absurd h.2 (by decide)
    rw [copy_combine_cons, if_neg h]
    rfl
  | cons b r ih =>
    intro a
    rw [copy_combine_cons, unique_after_cons, at_zero_cons]
    by_cases h : a = 47 ∧ b = 47
    · rw [if_pos h, if_pos h, ih b, h.1, h.2]
    · rw [if_neg h, if_neg h, ih b]

/-- The copying loops of the C `combpath_unix` do what `std::unique` does. -/
theorem copy_combine_eq_unique (l : List Nat) : copy_combine l = unique_adjacent 47 l := by
  cases l with
  | nil => rfl
  | cons a r => exact copy_combine_eq_unique_after r a

theorem strip_dot_dir_le (sep : Nat) (head : List Nat) (fuel : Nat) :
    ∀ len, strip_dot_dir sep head fuel len ≤ len := by
  induction fuel with
  | zero => intro len; exact le_refl _
  | succ fuel ih =>
    intro len
    rw [strip_dot_dir]
    split_ifs with h
    · exact le_trans (ih (len - 2)) (by omega)
    · exact le_refl _

theorem strip_dot_dir_take (sep : Nat) (path : List Nat) (n fuel : Nat) :
    ∀ len, len ≤ n →
      strip_dot_dir sep (path.take n) fuel len = strip_dot_dir sep path fuel len := by
  induction fuel with
  | zero => intro len _; rfl
  | succ fuel ih =>
    intro len hn
    rw [strip_dot_dir, strip_dot_dir]
    by_cases hl : len ≥ 2
    · rw [at_take path n (len - 2) (by omega), at_take path n (len - 1) (by omega),
        at_take path n (len - 3) (by omega), ih (len - 2) (by omega)]
    · rw [if_neg (fun h => hl h.1), if_neg (fun h => hl h.1)]

/-- Fuel above the length is not needed by the loop "strip trailing ./". -/
theorem strip_dot_dir_fuel (sep : Nat) (head : List Nat) (fuel : Nat) :
    ∀ len k, len ≤ fuel →
      strip_dot_dir sep head (fuel + k) len = strip_dot_dir sep head fuel len := by
  induction fuel with
  | zero =>
    intro len k h
    have : len = 0 := by omega
    subst this
    cases k with
    | zero => rfl
    | succ k =>
      rw [Nat.zero_add, strip_dot_dir, strip_dot_dir, if_neg (fun h => by omega)]
  | succ fuel ih =>
    intro len k h
    rw [Nat.add_right_comm, strip_dot_dir, strip_dot_dir]
    split_ifs with hc
    · exact ih (len - 2) k (by omega)
    · rfl

theorem strip_slashes_c_spec (c : Nat) (path : List Nat) (fuel : Nat) :
    ∀ p, p ≤ fuel →
      strip_slashes_c c path fuel p ≤ p ∧ (1 ≤ p → 1 ≤ strip_slashes_c c path fuel p) ∧
      (2 ≤ strip_slashes_c c path fuel p → at_ path (strip_slashes_c c path fuel p - 1) ≠ c) ∧
      ∀ j, strip_slashes_c c path fuel p ≤ j → j < p → at_ path j = c := by
  induction fuel with
  | zero =>
    intro p hp
    rw [strip_slashes_c]
    exact ⟨le_refl _, fun h => h, fun h => by omega, fun j h1 h2 => by omega⟩
  | succ fuel ih =>
    intro p hp
    rw [strip_slashes_c]
    split_ifs with hc
    · obtain ⟨h1, h2, h3, h4⟩ := ih (p - 1) (by omega)
      refine ⟨by omega, fun _ => h2 (by omega), h3, fun j hj1 hj2 => ?_⟩
      by_cases hj : j = p - 1
      · rw [hj]; exact hc.2
      · exact h4 j hj1 (by omega)
    · refine ⟨le_refl _, fun h => h, fun h => ?_, fun j h1 h2 => by omega⟩
      intro h47
      exact hc ⟨h, h47⟩

theorem unique_adjacent_all_ne (c : Nat) (l : List Nat) (hne : l ≠ []) (h : ∀ x ∈ l, x = c) :
    unique_adjacent c l = [c] := by
  cases l with
  | nil => exact absurd rfl hne
  | cons a rest =>
    have ha : a = c := h a (List.mem_cons_self _ _)
    subst ha
    rw [unique_adjacent_cons, unique_after_all a rest (fun x hx => h x (List.mem_cons_of_mem _ hx))]

/-- Erasing after the last character that is not the separator (lib/yasmx) and
stepping back over the trailing separators except a leading one (libyasm) leave heads that
`std::unique` makes equal. -/
theorem strip_trailing_agree (c : Nat) (path : List Nat) (p1 fuel : Nat) (hp : p1 ≤ path.length)
    (hf : p1 ≤ fuel) :
    unique_adjacent c
        (match rfind_if (fun x => x != c) (path.take p1) ((path.take p1).length - 1) with
          | some found1 => (path.take p1).take (found1 + 1)
          | none => path.take p1) =
      unique_adjacent c (path.take (strip_slashes_c c path fuel p1)) := by
  obtain ⟨h1, h2, h3, h4⟩ := strip_slashes_c_spec c path fuel p1 hf
  have hlen : (path.take p1).length = p1 := by
    rw [List.length_take]; omega
  generalize strip_slashes_c c path fuel p1 = q at h1 h2 h3 h4
  by_cases hq0 : q = 0
  · subst hq0
    have hp0 : p1 = 0 := by
      by_contra hne
      have := h2 (by omega)
      omega
    subst hp0
    rfl
  · by_cases hq : at_ path (q - 1) = c
    · have hq1 : q = 1 := by
        by_contra hne
        exact h3 (by omega) hq
      subst hq1
      have hall : ∀ x ∈ path.take p1, x = c := by
        intro x hx
        obtain ⟨i, hi, rfl⟩ := List.getElem_of_mem hx
        rw [hlen] at hi
        rw [← at_eq_getElem _ i (by rw [hlen]; exact hi), at_take path p1 i hi]
        by_cases hi0 : i = 0
        · rw [hi0]; exact hq
        · exact h4 i (by omega) hi
      have hnone : rfind_if (fun x => x != c) (path.take p1) ((path.take p1).length - 1) =
          none := by
        apply rfind_if_absent
        intro x hx
        simp [hall x hx]
      rw [hnone]
      simp only
      have hne : path.take p1 ≠ [] := by
        intro he
        rw [he] at hlen
        simp at hlen
        omega
      rw [unique_adjacent_all_ne c _ hne hall]
      have h1' : path.take 1 = [c] := by
        cases path with
        | nil => simp at hp; omega
        | cons a r =>
          have : a = c := hq
          rw [this]
          rfl
      rw [h1']
      rfl
    · have hsome : rfind_if (fun x => x != c) (path.take p1) ((path.take p1).length - 1) =
          some (q - 1) := by
        apply rfind_if_eq_some
        · rw [hlen]; omega
        · rw [hlen]; omega
        · rw [at_take path p1 (q - 1) (by omega)]
          simpa using hq
        · intro j hj1 _ hj3
          rw [hlen] at hj3
          rw [at_take path p1 j hj3, h4 j (by omega) hj3]
          simp
      rw [hsome]
      simp only
      rw [List.take_take]
      have e1 : q - 1 + 1 = q := by omega
      rw [e1, Nat.min_eq_left h1]

/-- The directory part of `from` is the same in the two `combpath_unix`. -/
theorem splitpath_unix_agree (path : List Nat) :
    (splitpath_unix path).1 = copy_combine (path.take (splitpath_unix_c path).1) := by
  rw [copy_combine_eq_unique]
  simp only [splitpath_unix, splitpath_unix_c]
  cases hr : rfind_if (fun c => c == 47) path (path.length - 1) with
  | none => rfl
  | some found =>
    obtain ⟨_, hfl, _, _⟩ := rfind_if_some _ path _ found hr
    simp only
    have hlen : (path.take (found + 1)).length = found + 1 := by
      rw [List.length_take]; omega
    rw [hlen, strip_dot_dir_take 47 path (found + 1) (found + 1) (found + 1) (le_refl _)]
    have hle := strip_dot_dir_le 47 path (found + 1) (found + 1)
    have hfu := strip_dot_dir_fuel 47 path (found + 1) (found + 1)
      (path.length - (found + 1)) (le_refl _)
    have e : found + 1 + (path.length - (found + 1)) = path.length := by omega
    rw [e] at hfu
    rw [hfu]
    generalize strip_dot_dir 47 path (found + 1) (found + 1) = p1 at hle
    rw [List.take_take, Nat.min_eq_left hle]
    exact strip_trailing_agree 47 path p1 path.length (by omega) (by omega)

theorem back_dir_c_spec (sep : Nat) (out : List Nat) (fuel : Nat) :
    ∀ n, n ≤ fuel →
      back_dir_c sep out fuel n ≤ n ∧
      (1 ≤ back_dir_c sep out fuel n → at_ out (back_dir_c sep out fuel n - 1) = sep) ∧
      ∀ j, back_dir_c sep out fuel n ≤ j → j < n → at_ out j ≠ sep := by
  induction fuel with
  | zero =>
    intro n hn
    rw [back_dir_c]
    exact ⟨le_refl _, fun h => by omega, fun j h1 h2 => by omega⟩
  | succ fuel ih =>
    intro n hn
    rw [back_dir_c]
    split_ifs with hc
    · obtain ⟨h1, h2, h3⟩ := ih (n - 1) (by omega)
      refine ⟨by omega, h2, fun j hj1 hj2 => ?_⟩
      by_cases hj : j = n - 1
      · rw [hj]; exact hc.2
      · exact h3 j hj1 (by omega)
    · refine ⟨le_refl _, fun h => ?_, fun j h1 h2 => by omega⟩
      by_contra hne
      exact hc ⟨by omega, hne⟩

/-- Backing out the last directory: `rfind` from `outlen-2` (lib/yasmx) and
the loop that steps back to the previous separator (libyasm) keep the same
part of `out`. -/
theorem back_out_agree (sep : Nat) (out : List Nat) (i1 : Nat) (fuel : Nat)
    (hlen : 1 < out.length) (hf : out.length - 1 ≤ fuel) :
    (match rfind_if (fun c => c == sep) out (out.length - 2) with
      | some found => Step.cont (out.take (found + 1)) i1
      | none => Step.cont [] i1) =
      Step.cont (out.take (back_dir_c sep out fuel (out.length - 1))) i1 := by
  obtain ⟨h1, h2, h3⟩ := back_dir_c_spec sep out fuel (out.length - 1) hf
  generalize back_dir_c sep out fuel (out.length - 1) = q at h1 h2 h3
  by_cases hq : q = 0
  · subst hq
    have hnone : rfind_if (fun c => c == sep) out (out.length - 2) = none := by
      apply rfind_if_eq_none
      intro j hj1 _
      have := h3 j (Nat.zero_le _) (by omega)
      simpa using this
    rw [hnone]
    rfl
  · have hsome : rfind_if (fun c => c == sep) out (out.length - 2) = some (q - 1) := by
      apply rfind_if_eq_some
      · omega
      · omega
      · simpa using h2 (by omega)
      · intro j hj1 hj2 _
        have := h3 j (by omega) (by omega)
        simpa using this
    rw [hsome]
    simp only
    have e : q - 1 + 1 = q := by omega
    rw [e]

/-- The bodies of the loops of the two `combpath_unix` do the same. -/
theorem combpath_unix_step_agree (to_ out : List Nat) (i : Nat) :
    combpath_unix_step to_ out i = combpath_unix_c_step to_ out i := by
  have hb1 : at_ to_ (i + 1) = 47 → to_.length - i ≥ 2 := by
    intro h
    have := at_lt_length_of_ne_zero to_ (i + 1) (by rw [h]; decide)
    omega
  have hb2 : at_ to_ (i + 2) = 47 → to_.length - i ≥ 3 := by
    intro h
    have := at_lt_length_of_ne_zero to_ (i + 2) (by rw [h]; decide)
    omega
  simp only [combpath_unix_step, combpath_unix_c_step]
  by_cases c1 : at_ to_ i = 46 ∧ at_ to_ (i + 1) = 47
  · rw [if_pos ⟨hb1 c1.2, c1⟩, if_pos c1]
  · rw [if_neg (fun h => c1 h.2), if_neg c1]
    by_cases c2 : out = []
    · rw [if_pos c2, if_pos (by rw [c2]; rfl)]
    · have c2' : ¬ out.length = 0 := fun h => c2 (List.length_eq_zero.mp h)
      rw [if_neg c2, if_neg c2']
      by_cases c3 : at_ to_ i = 46 ∧ at_ to_ (i + 1) = 46 ∧ at_ to_ (i + 2) = 47
      · rw [if_pos ⟨hb2 c3.2.2, c3⟩, if_pos c3]
        split_ifs with c4 c5
        · rfl
        · exact back_out_agree 47 out _ out.length c5 (by omega)
        · rfl
      · rw [if_neg (fun h => c3 h.2), if_neg c3]

theorem skip_slashes_spec (to_ : List Nat) (rest : List Nat) :
    ∀ j, to_.drop j = rest →
      at_ to_ (skip_slashes rest j) ≠ 47 ∧ j ≤ skip_slashes rest j ∧
      (j ≤ to_.length → skip_slashes rest j ≤ to_.length) := by
  induction rest with
  | nil =>
    intro j h
    rw [skip_slashes]
    refine ⟨?_, le_refl _, fun h => h⟩
    rw [at_drop_nil to_ j h]
    decide
  | cons c r ih =>
    intro j h
    obtain ⟨h1, h2, h3⟩ := at_drop_facts to_ j c r h
    rw [skip_slashes]
    split_ifs with hc
    · obtain ⟨k1, k2, k3⟩ := ih (j + 1) h3
      exact ⟨k1, by omega, fun _ => k3 (by omega)⟩
    · exact ⟨by rw [h2]; exact hc, le_refl _, fun h => h⟩

/-- Every pass of the loop of `combpath_unix` that does not break moves `i`
forward inside `to`, leaves a string without two adjacent `/` in `out`, and
stops at a character that is not `/`. -/
theorem combpath_unix_step_cont (to_ out out1 : List Nat) (i i1 : Nat)
    (h : combpath_unix_step to_ out i = .cont out1 i1) :
    i < i1 ∧ i1 ≤ to_.length ∧ at_ to_ i1 ≠ 47 ∧ ∃ n, out1 = out.take n := by
  simp only [combpath_unix_step] at h
  split_ifs at h with c1 c2 c3 c4 c5
  · simp only [Step.cont.injEq] at h
    obtain ⟨s1, s2, s3⟩ := skip_slashes_spec to_ _ (i + 2) rfl
    rw [← h.2]
    exact ⟨by omega, s3 (by omega), s1, out.length, by rw [← h.1, List.take_length]⟩
  · obtain ⟨s1, s2, s3⟩ := skip_slashes_spec to_ _ (i + 3) rfl
    cases hr : rfind_if (fun c => c == 47) out (out.length - 2) with
    | none =>
      rw [hr] at h
      simp only [Step.cont.injEq] at h
      rw [← h.2]
      exact ⟨by omega, s3 (by omega), s1, 0, by rw [← h.1, List.take_zero]⟩
    | some f =>
      rw [hr] at h
      simp only [Step.cont.injEq] at h
      rw [← h.2]
      exact ⟨by omega, s3 (by omega), s1, f + 1, h.1.symm⟩
  · simp only [Step.cont.injEq] at h
    obtain ⟨s1, s2, s3⟩ := skip_slashes_spec to_ _ (i + 3) rfl
    rw [← h.2]
    exact ⟨by omega, s3 (by omega), s1, out.length, by rw [← h.1, List.take_length]⟩

theorem run_loop_inv (step : List Nat → Nat → Step) (P : List Nat → Nat → Prop)
    (hstep : ∀ out i out1 i1, P out i → step out i = .cont out1 i1 → P out1 i1)
    (fuel : Nat) :
    ∀ out i, P out i → P (run_loop step fuel out i).1 (run_loop step fuel out i).2 := by
  induction fuel with
  | zero => intro out i h; exact h
  | succ fuel ih =>
    intro out i h
    rw [run_loop]
    cases hs : step out i with
    | brk => exact h
    | cont out1 i1 => exact ih out1 i1 (hstep out i out1 i1 h hs)

theorem run_loop_congr (step1 step2 : List Nat → Nat → Step) (P : List Nat → Nat → Prop)
    (hstep : ∀ out i out1 i1, P out i → step1 out i = .cont out1 i1 → P out1 i1)
    (heq : ∀ out i, P out i → step1 out i = step2 out i) (fuel : Nat) :
    ∀ out i, P out i → run_loop step1 fuel out i = run_loop step2 fuel out i := by
  induction fuel with
  | zero => intro out i _; rfl
  | succ fuel ih =>
    intro out i h
    rw [run_loop, run_loop, ← heq out i h]
    cases hs : step1 out i with
    | brk => rfl
    | cont out1 i1 => exact ih out1 i1 (hstep out i out1 i1 h hs)

/-- A loop whose passes move `i` forward up to `n` has left before `n + 1 - i`
passes: more fuel does not change its result, and it ends by a `break`. -/
theorem run_loop_fuel (step : List Nat → Nat → Step) (n : Nat)
    (hstep : ∀ out i out1 i1, step out i = .cont out1 i1 → i < i1 ∧ i1 ≤ n) (fuel : Nat) :
    ∀ out i k, n + 1 ≤ fuel + i →
      run_loop step (fuel + k) out i = run_loop step fuel out i ∧
      step (run_loop step fuel out i).1 (run_loop step fuel out i).2 = .brk := by
  induction fuel with
  | zero =>
    intro out i k h
    have hbrk : step out i = .brk := by
      cases hs : step out i with
      | brk => rfl
      | cont out1 i1 =>
        have := hstep out i out1 i1 hs
        omega
    refine ⟨?_, hbrk⟩
    cases k with
    | zero => rfl
    | succ k => simp only [Nat.zero_add, run_loop, hbrk]
  | succ fuel ih =>
    intro out i k h
    rw [Nat.add_right_comm, run_loop, run_loop]
    cases hs : step out i with
    | brk => exact ⟨rfl, hs⟩
    | cont out1 i1 =>
      have := hstep out i out1 i1 hs
      exact ih out1 i1 k (by omega)

theorem chain_append_one (c x : Nat) (out : List Nat)
    (hout : List.Chain' (fun a b => ¬ (a = c ∧ b = c)) out)
    (hlast : at_ out (out.length - 1) ≠ c) :
    List.Chain' (fun a b => ¬ (a = c ∧ b = c)) (out ++ [x]) := by
  apply List.Chain'.append hout (List.chain'_singleton x)
  intro a ha b _ hab
  apply hlast
  rw [List.getLast?_eq_getElem?] at ha
  simp only [at_, List.getD_eq_getElem?_getD]
  rw [Option.mem_def] at ha
  rw [ha]
  exact hab.1

/-- In both `combpath_unix`, for a relative `to`: the directory part `out`
with its trailing slash, followed by the rest of `to` that the loop leaves. -/
theorem combpath_unix_relative (from_ to_ : List Nat) (h : at_ to_ 0 ≠ 47) :
    combpath_unix from_ to_ =
      (run_loop (combpath_unix_step to_) (to_.length + 1)
          (if (splitpath_unix from_).1 ≠ [] ∧
              at_ (splitpath_unix from_).1 ((splitpath_unix from_).1.length - 1) ≠ 47 then
            (splitpath_unix from_).1 ++ [47] else (splitpath_unix from_).1) 0).1 ++
        unique_adjacent 47 (to_.drop
          (run_loop (combpath_unix_step to_) (to_.length + 1)
            (if (splitpath_unix from_).1 ≠ [] ∧
                at_ (splitpath_unix from_).1 ((splitpath_unix from_).1.length - 1) ≠ 47 then
              (splitpath_unix from_).1 ++ [47] else (splitpath_unix from_).1) 0).2) := by
  have hhead : List.Chain' (fun a b => ¬ (a = 47 ∧ b = 47)) (splitpath_unix from_).1 := by
    simp only [splitpath_unix]
    cases rfind_if (fun c => c == 47) from_ (from_.length - 1) with
    | none => exact List.chain'_nil
    | some found => exact unique_adjacent_chain 47 _
  simp only [combpath_unix]
  rw [if_neg h]
  generalize (splitpath_unix from_).1 = head at hhead
  have hout : List.Chain' (fun a b => ¬ (a = 47 ∧ b = 47))
      (if head ≠ [] ∧ at_ head (head.length - 1) ≠ 47 then head ++ [47] else head) := by
    split_ifs with hc
    · exact chain_append_one 47 47 head hhead hc.2
    · exact hhead
  generalize (if head ≠ [] ∧ at_ head (head.length - 1) ≠ 47 then head ++ [47] else head) =
    out at hout
  have hinv := run_loop_inv (combpath_unix_step to_)
    (fun o i => List.Chain' (fun a b => ¬ (a = 47 ∧ b = 47)) o ∧ at_ to_ i ≠ 47)
    (fun o i o1 i1 hp hs => by
      obtain ⟨_, _, k3, n, k4⟩ := combpath_unix_step_cont to_ o o1 i i1 hs
      exact ⟨k4 ▸ hp.1.take n, k3⟩)
    (to_.length + 1) out 0 ⟨hout, h⟩
  exact unique_adjacent_append 47 _ _ hinv.1 (head_drop_ne to_ _ 47 hinv.2)

/-- C24: for every pair of strings `from` and `to` without NUL, `combpath_unix`
of libyasm/file.cpp and `combpath_unix` of lib/yasmx/file.cpp return the same
path.  The loops of both end by a `break`: more fuel does not change their
results. -/
theorem combpath_unix_agree (from_ to_ : List Nat) (_hfrom : 0 ∉ from_) (_hto : 0 ∉ to_) :
    combpath_unix_c from_ to_ = combpath_unix from_ to_ ∧
    (∀ out k,
      run_loop (combpath_unix_step to_) (to_.length + 1 + k) out 0 =
        run_loop (combpath_unix_step to_) (to_.length + 1) out 0) ∧
    (∀ out k,
      run_loop (combpath_unix_c_step to_) (to_.length + 1 + k) out 0 =
        run_loop (combpath_unix_c_step to_) (to_.length + 1) out 0) := by
  have hfuel : ∀ out k,
      run_loop (combpath_unix_step to_) (to_.length + 1 + k) out 0 =
        run_loop (combpath_unix_step to_) (to_.length + 1) out 0 := fun out k =>
    (run_loop_fuel (combpath_unix_step to_) to_.length
      (fun o i o1 i1 hs => by
        obtain ⟨k1, k2, _, _⟩ := combpath_unix_step_cont to_ o o1 i i1 hs
        exact ⟨k1, k2⟩)
      (to_.length + 1) out 0 k (le_refl _)).1
  have hstep : combpath_unix_c_step to_ = combpath_unix_step to_ :=
    funext fun o => funext fun i => (combpath_unix_step_agree to_ o i).symm
  refine ⟨?_, hfuel, ?_⟩
  · by_cases h : at_ to_ 0 = 47
    · simp only [combpath_unix, combpath_unix_c]
      rw [if_pos h, if_pos h, copy_combine_eq_unique]
    · rw [combpath_unix_relative from_ to_ h]
      simp only [combpath_unix_c]
      rw [if_neg h, hstep, ← splitpath_unix_agree, copy_combine_eq_unique]
      have e : ∀ l : List Nat, (l.length > 0) = (l ≠ []) := fun l =>
        propext ⟨fun hl he => by rw [he] at hl; exact absurd hl (by decide),
          fun hl => List.length_pos.mpr hl⟩
      simp only [e]
  · rw [hstep]
    exact hfuel

theorem combpath_unix_agree_witness :
    combpath_unix_c [97, 47, 98, 47, 99] [46, 46, 47, 46, 47, 47, 120] =
      combpath_unix [97, 47, 98, 47, 99] [46, 46, 47, 46, 47, 47, 120] :=
  (combpath_unix_agree [97, 47, 98, 47, 99] [46, 46, 47, 46, 47, 47, 120] (by decide)
    (by decide)).1

end yasm

namespace yasm

/-! ## `combpath_unix` and the `..` of `from` -/

theorem combpath_unix_step_dotdot (e t : List Nat) :
    combpath_unix_step (46 :: 46 :: 47 :: t) (e ++ [46, 46, 47]) 0 = .brk := by
  have h1 : at_ (e ++ [46, 46, 47]) ((e ++ [46, 46, 47]).length - 1) = 47 := by
    have := at_append_right e [46, 46, 47] 2
    simpa using this
  have h2 : at_ (e ++ [46, 46, 47]) ((e ++ [46, 46, 47]).length - 2) = 46 := by
    have := at_append_right e [46, 46, 47] 1
    simpa using this
  have h3 : at_ (e ++ [46, 46, 47]) ((e ++ [46, 46, 47]).length - 3) = 46 := by
    have := at_append_right e [46, 46, 47] 0
    simpa using this
  have hl : (e ++ [46, 46, 47]).length ≥ 3 := by simp
  have hne : e ++ [46, 46, 47] ≠ [] := by simp
  have c1 : ¬ ((46 :: 46 :: 47 :: t).length - 0 ≥ 2 ∧ at_ (46 :: 46 :: 47 :: t) 0 = 46 ∧
      at_ (46 :: 46 :: 47 :: t) (0 + 1) = 47) := fun h => by
    have h2 : (46 : Nat) = 47 := h.2.2
    omega
  have c3 : (46 :: 46 :: 47 :: t).length - 0 ≥ 3 ∧ at_ (46 :: 46 :: 47 :: t) 0 = 46 ∧
      at_ (46 :: 46 :: 47 :: t) (0 + 1) = 46 ∧ at_ (46 :: 46 :: 47 :: t) (0 + 2) = 47 :=
    ⟨by simp, rfl, rfl, rfl⟩
  simp only [combpath_unix_step]
  rw [if_neg c1, if_neg hne, if_pos c3, if_pos ⟨hl, h1, h2, h3⟩]

/-- C23: `combpath_unix` does not back through the `..` of `from`.  When the
directory part `D` of `from` (the head that `splitpath_unix` returns) is `..`
or ends in `/..`, and `to` begins with `../`, the result is `D`, a `/` and `to`
with the runs of `/` collapsed; `D` is kept whole in front of it.  The C
`combpath_unix` returns the same. -/
theorem combpath_unix_keeps_dotdot (from_ to_ t : List Nat)
    (hD : (splitpath_unix from_).1 = [46, 46] ∨ [47, 46, 46] <:+ (splitpath_unix from_).1)
    (hto : to_ = 46 :: 46 :: 47 :: t) :
    combpath_unix from_ to_ = unique_adjacent 47 ((splitpath_unix from_).1 ++ 47 :: to_) ∧
    combpath_unix from_ to_ = (splitpath_unix from_).1 ++ 47 :: unique_adjacent 47 to_ ∧
    combpath_unix_c from_ to_ = combpath_unix from_ to_ := by
  have hrel : at_ to_ 0 ≠ 47 := by
    rw [hto]
    intro h
    have h2 : (46 : Nat) = 47 := h
    omega
  have hc : combpath_unix_c from_ to_ = combpath_unix from_ to_ := by
    have hstep : combpath_unix_c_step to_ = combpath_unix_step to_ :=
      funext fun o => funext fun i => (combpath_unix_step_agree to_ o i).symm
    rw [combpath_unix_relative from_ to_ hrel]
    simp only [combpath_unix_c]
    rw [if_neg hrel, hstep, ← splitpath_unix_agree, copy_combine_eq_unique]
    have e : ∀ l : List Nat, (l.length > 0) = (l ≠ []) := fun l =>
      propext ⟨fun hl he => by rw [he] at hl; exact absurd hl (by decide),
        fun hl => List.length_pos.mpr hl⟩
    simp only [e]
  obtain ⟨e, he⟩ : ∃ e, (splitpath_unix from_).1 = e ++ [46, 46] := by
    rcases hD with h | ⟨e, h⟩
    · exact ⟨[], h⟩
    · exact ⟨e ++ [47], by rw [← h]; simp⟩
  have hne : (splitpath_unix from_).1 ≠ [] := by rw [he]; simp
  have hlast : at_ (splitpath_unix from_).1 ((splitpath_unix from_).1.length - 1) ≠ 47 := by
    rw [he]
    have := at_append_right e [46, 46] 1
    have e2 : (e ++ [46, 46]).length - 1 = e.length + 1 := by simp
    rw [e2, this]
    decide
  have hrun : run_loop (combpath_unix_step to_) (to_.length + 1)
      ((splitpath_unix from_).1 ++ [47]) 0 = ((splitpath_unix from_).1 ++ [47], 0) := by
    rw [run_loop, he, hto, List.append_assoc]
    have := combpath_unix_step_dotdot e t
    simp only [List.cons_append, List.nil_append] at this ⊢
    rw [this]
  refine ⟨?_, ?_, hc⟩
  · simp only [combpath_unix]
    rw [if_neg hrel, if_pos ⟨hne, hlast⟩, hrun]
    simp only [List.drop_zero, List.append_assoc, List.cons_append, List.nil_append]
  · rw [combpath_unix_relative from_ to_ hrel, if_pos ⟨hne, hlast⟩, hrun]
    simp only [List.drop_zero, List.append_assoc, List.cons_append, List.nil_append]

theorem combpath_unix_keeps_dotdot_witness :
    (splitpath_unix [46, 46, 47, 102]).1 = [46, 46] ∧
    combpath_unix [46, 46, 47, 102] [46, 46, 47, 120] = [46, 46, 47, 46, 46, 47, 120] ∧
    combpath_unix_c [46, 46, 47, 102] [46, 46, 47, 120] = [46, 46, 47, 46, 46, 47, 120] :=
  ⟨by decide,
    (combpath_unix_keeps_dotdot [46, 46, 47, 102] [46, 46, 47, 120] [120]
      (Or.inl (by decide)) rfl).2.1,
    ((combpath_unix_keeps_dotdot [46, 46, 47, 102] [46, 46, 47, 120] [120]
      (Or.inl (by decide)) rfl).2.2).trans
      (combpath_unix_keeps_dotdot [46, 46, 47, 102] [46, 46, 47, 120] [120]
        (Or.inl (by decide)) rfl).2.1⟩

end yasm

namespace yasm

/-! ## The two `combpath_win` -/

theorem to_backslash_eq (x : Nat) : (if x = 47 then 92 else x) = 92 ↔ x = 47 ∨ x = 92 := by
  split_ifs with h
  · exact ⟨fun _ => Or.inl h, fun _ => rfl⟩
  · exact ⟨fun e => Or.inr e, fun e => e.resolve_left h⟩

theorem to_backslash_ne_slash (x : Nat) : (if x = 47 then 92 else x) ≠ 47 := by
  split_ifs with h
  · decide
  · exact h

theorem to_backslash_eq_of_ne (x c : Nat) (h47 : c ≠ 47) (h92 : c ≠ 92) :
    (if x = 47 then 92 else x) = c ↔ x = c := by
  split_ifs with h
  · exact ⟨fun e => absurd e.symm h92, fun e => absurd (e ▸ h) h47⟩
  · exact Iff.rfl

theorem at_map_slash (l : List Nat) (i : Nat) :
    at_ (l.map (fun c => if c = 47 then 92 else c)) i =
      (if at_ l i = 47 then 92 else at_ l i) := by
  by_cases h : i < l.length
  · rw [at_eq_getElem _ i (by rw [List.length_map]; exact h), at_eq_getElem l i h,
      List.getElem_map]
  · rw [at_ge_length _ _ (by rw [List.length_map]; omega), at_ge_length l i (by omega)]
    rfl

theorem map_slash_of_not_mem (l : List Nat) (h : 47 ∉ l) :
    l.map (fun c => if c = 47 then 92 else c) = l := by
  induction l with
  | nil => rfl
  | cons a r ih =>
    have ha : a ≠ 47 := fun e => h (e ▸ List.mem_cons_self _ _)
    rw [List.map_cons, if_neg ha, ih (fun hm => h (List.mem_cons_of_mem _ hm))]

theorem not_mem_map_slash (l : List Nat) : 47 ∉ l.map (fun c => if c = 47 then 92 else c) := by
  intro h
  obtain ⟨x, _, hx⟩ := List.mem_map.mp h
  exact to_backslash_ne_slash x hx

theorem colon_not_mem_map_slash (l : List Nat) (h : 58 ∉ l) :
    58 ∉ l.map (fun c => if c = 47 then 92 else c) := by
  intro hm
  obtain ⟨x, hx1, hx2⟩ := List.mem_map.mp hm
  rw [to_backslash_eq_of_ne x 58 (by decide) (by decide)] at hx2
  exact h (hx2 ▸ hx1)

theorem copy_combine_win_cons (a : Nat) (rest : List Nat) :
    copy_combine_win (a :: rest) =
      if (a = 47 ∨ a = 92) ∧ (at_ rest 0 = 47 ∨ at_ rest 0 = 92) then copy_combine_win rest
      else (if a = 47 then 92 else a) :: copy_combine_win rest := rfl

theorem copy_combine_win_eq_unique_after (l : List Nat) :
    ∀ a, copy_combine_win (a :: l) =
      (if a = 47 then 92 else a) ::
        unique_after 92 (if a = 47 then 92 else a)
          (l.map (fun c => if c = 47 then 92 else c)) := by
  induction l with
  | nil =>
    intro a
    have h : ¬ ((a = 47 ∨ a = 92) ∧ (at_ [] 0 = 47 ∨ at_ [] 0 = 92)) := by
      rw [at_nil]
      intro h
      rcases h.2 with h2 | h2 <;> omega
    rw [copy_combine_win_cons, if_neg h]
    rfl
  | cons b r ih =>
    intro a
    rw [copy_combine_win_cons, List.map_cons, unique_after_cons, at_zero_cons, ih b]
    by_cases h : (a = 47 ∨ a = 92) ∧ (b = 47 ∨ b = 92)
    · have ha := (to_backslash_eq a).mpr h.1
      have hb := (to_backslash_eq b).mpr h.2
      rw [if_pos h, ha, hb, if_pos (⟨rfl, rfl⟩ : (92 : Nat) = 92 ∧ (92 : Nat) = 92)]
    · have h2 : ¬ ((if a = 47 then 92 else a) = 92 ∧ (if b = 47 then 92 else b) = 92) :=
        fun hc => h ⟨(to_backslash_eq a).mp hc.1, (to_backslash_eq b).mp hc.2⟩
      rw [if_neg h, if_neg h2]

/-- The copying loops of the C `combpath_win` do what `std::replace` followed
by `std::unique` does. -/
theorem copy_combine_win_eq_unique (l : List Nat) :
    copy_combine_win l = unique_adjacent 92 (l.map (fun c => if c = 47 then 92 else c)) := by
  cases l with
  | nil => rfl
  | cons a r => exact copy_combine_win_eq_unique_after r a

theorem rfind_if_congr (p q : Nat → Bool) (s : List Nat) (h : ∀ x ∈ s, p x = q x) (pos : Nat) :
    rfind_if p s pos = rfind_if q s pos := by
  induction pos with
  | zero =>
    rw [rfind_if, rfind_if]
    by_cases hl : 0 < s.length
    · rw [h _ (at_mem s 0 hl)]
    · rw [if_neg (fun hc => hl hc.1), if_neg (fun hc => hl hc.1)]
  | succ pos ih =>
    rw [rfind_if, rfind_if, ih]
    by_cases hl : pos + 1 < s.length
    · rw [h _ (at_mem s (pos + 1) hl)]
    · rw [if_neg (fun hc => hl hc.1), if_neg (fun hc => hl hc.1)]

theorem scan_back_c_spec (path : List Nat) (fuel : Nat) :
    ∀ p, p ≤ fuel →
      scan_back_c path 0 fuel p ≤ p ∧
      (1 ≤ scan_back_c path 0 fuel p →
        at_ path (scan_back_c path 0 fuel p - 1) = 92 ∨
          at_ path (scan_back_c path 0 fuel p - 1) = 47) ∧
      ∀ j, scan_back_c path 0 fuel p ≤ j → j < p → at_ path j ≠ 92 ∧ at_ path j ≠ 47 := by
  induction fuel with
  | zero =>
    intro p hp
    rw [scan_back_c]
    exact ⟨le_refl _, fun h => by omega, fun j h1 h2 => by omega⟩
  | succ fuel ih =>
    intro p hp
    rw [scan_back_c]
    split_ifs with hc
    · obtain ⟨h1, h2, h3⟩ := ih (p - 1) (by omega)
      refine ⟨by omega, h2, fun j hj1 hj2 => ?_⟩
      by_cases hj : j = p - 1
      · rw [hj]; exact hc.2
      · exact h3 j hj1 (by omega)
    · refine ⟨le_refl _, fun h => ?_, fun j h1 h2 => by omega⟩
      by_contra hne
      rw [not_or] at hne
      exact hc ⟨by omega, hne.1, hne.2⟩

/-- The backward scan of the C `splitpath_win` finds what `find_last_of` of
both slashes finds. -/
theorem scan_back_c_rfind (path : List Nat) :
    (scan_back_c path 0 (path.length + 1) (path.length + 1) ≤ path.length) ∧
    rfind_if isslash path (path.length - 1) =
      if scan_back_c path 0 (path.length + 1) (path.length + 1) = 0 then none
      else some (scan_back_c path 0 (path.length + 1) (path.length + 1) - 1) := by
  obtain ⟨h1, h2, h3⟩ := scan_back_c_spec path (path.length + 1) (path.length + 1) (le_refl _)
  generalize scan_back_c path 0 (path.length + 1) (path.length + 1) = q at h1 h2 h3
  have hslash : ∀ x, isslash x = true ↔ (x = 47 ∨ x = 92) := by
    intro x
    simp [isslash]
  by_cases hq : q = 0
  · subst hq
    refine ⟨Nat.zero_le _, ?_⟩
    rw [if_pos rfl]
    apply rfind_if_eq_none
    intro j _ hj2
    have := h3 j (Nat.zero_le _) (by omega)
    cases hs : isslash (at_ path j) with
    | false => rfl
    | true =>
      rcases (hslash _).mp hs with e | e
      · exact absurd e this.2
      · exact absurd e this.1
  · have hlt : q - 1 < path.length := by
      apply at_lt_length_of_ne_zero
      rcases h2 (by omega) with e | e <;> rw [e] <;> decide
    refine ⟨by omega, ?_⟩
    rw [if_neg hq]
    apply rfind_if_eq_some
    · omega
    · exact hlt
    · rw [hslash]
      exact (h2 (by omega)).symm
    · intro j hj1 _ hj3
      have := h3 j (by omega) (by omega)
      cases hs : isslash (at_ path j) with
      | false => rfl
      | true =>
        rcases (hslash _).mp hs with e | e
        · exact absurd e this.2
        · exact absurd e this.1

theorem strip_dot_dir_win_c_eq (path : List Nat) (fuel : Nat) :
    ∀ p, strip_dot_dir_win_c path 0 fuel p =
      strip_dot_dir 92 (path.map (fun c => if c = 47 then 92 else c)) fuel p := by
  induction fuel with
  | zero => intro p; rfl
  | succ fuel ih =>
    intro p
    rw [strip_dot_dir_win_c, strip_dot_dir, ih (p - 2)]
    apply if_congr _ rfl rfl
    rw [at_map_slash, at_map_slash, at_map_slash, to_backslash_eq,
      to_backslash_eq_of_ne _ 46 (by decide) (by decide),
      to_backslash_eq_of_ne _ 46 (by decide) (by decide), Nat.zero_add, Nat.zero_add]

theorem strip_slashes_win_c_eq (path : List Nat) (fuel : Nat) :
    ∀ p, strip_slashes_win_c path 0 fuel p =
      strip_slashes_c 92 (path.map (fun c => if c = 47 then 92 else c)) fuel p := by
  induction fuel with
  | zero => intro p; rfl
  | succ fuel ih =>
    intro p
    rw [strip_slashes_win_c, strip_slashes_c, ih (p - 1)]
    apply if_congr _ rfl rfl
    rw [at_map_slash, to_backslash_eq, Nat.zero_add]

theorem strip_trailing_some (c : Nat) (path : List Nat) (p1 fuel f : Nat)
    (hp : p1 ≤ path.length) (hf : p1 ≤ fuel)
    (hr : rfind_if (fun x => x != c) (path.take p1) ((path.take p1).length - 1) = some f) :
    unique_adjacent c ((path.take p1).take (f + 1)) =
      unique_adjacent c (path.take (strip_slashes_c c path fuel p1)) := by
  have := strip_trailing_agree c path p1 fuel hp hf
  rw [hr] at this
  exact this

theorem strip_trailing_none (c : Nat) (path : List Nat) (p1 fuel : Nat)
    (hp : p1 ≤ path.length) (hf : p1 ≤ fuel)
    (hr : rfind_if (fun x => x != c) (path.take p1) ((path.take p1).length - 1) = none) :
    unique_adjacent c (path.take p1) =
      unique_adjacent c (path.take (strip_slashes_c c path fuel p1)) := by
  have := strip_trailing_agree c path p1 fuel hp hf
  rw [hr] at this
  exact this

/-- For a `from` without `:`, the directory part is the same in the two
`combpath_win`, and `splitpath_win` of lib/yasmx/file.cpp returns. -/
theorem splitpath_win_agree (path : List Nat) (h58 : 58 ∉ path) :
    ∃ tail, splitpath_win path =
      .value (copy_combine_win (path.take (splitpath_win_c path).1), tail) := by
  have hat : ∀ l : List Nat, 58 ∉ l → at_ l 1 ≠ 58 := by
    intro l hl hc
    have := at_mem l 1 (at_lt_length_of_ne_zero l 1 (by rw [hc]; decide))
    rw [hc] at this
    exact hl this
  have hbase : ¬ (isalpha (at_ path 0) = true ∧ at_ path 1 = 58) := fun hc => hat path h58 hc.2
  obtain ⟨hq, hr⟩ := scan_back_c_rfind path
  simp only [splitpath_win, splitpath_win_c]
  rw [if_neg hbase, hr]
  generalize scan_back_c path 0 (path.length + 1) (path.length + 1) = q at hq
  by_cases hq0 : q = 0
  · subst hq0
    rw [if_pos rfl]
    simp only
    rw [if_neg (fun hc => hbase hc.2)]
    exact ⟨path, rfl⟩
  · rw [if_neg hq0]
    simp only
    have e1 : q - 1 + 1 = q := by omega
    rw [e1, if_neg (by omega)]
    simp only
    rw [copy_combine_win_eq_unique, strip_slashes_win_c_eq, strip_dot_dir_win_c_eq]
    simp only [List.map_take]
    have hM58 : 58 ∉ path.map (fun c => if c = 47 then 92 else c) :=
      colon_not_mem_map_slash path h58
    have hML : (path.map (fun c => if c = 47 then 92 else c)).length = path.length :=
      List.length_map _ _
    generalize path.map (fun c => if c = 47 then 92 else c) = M at hM58 hML
    have hlen : (M.take q).length = q := by
      rw [List.length_take]; omega
    have hfu := strip_dot_dir_fuel 92 M q q (path.length - q) (le_refl _)
    have e2 : q + (path.length - q) = path.length := by omega
    rw [e2] at hfu
    rw [hlen, strip_dot_dir_take 92 M q q q (le_refl _), hfu]
    have hle := strip_dot_dir_le 92 M q q
    generalize strip_dot_dir 92 M q q = p1 at hle
    rw [List.take_take, Nat.min_eq_left hle]
    have hno : at_ (M.take p1) 1 ≠ 58 := hat _ (fun hm => hM58 (List.mem_of_mem_take hm))
    cases hrf : rfind_if (fun c => c != 92) (M.take p1) ((M.take p1).length - 1) with
    | none =>
      simp only
      rw [strip_trailing_none 92 M p1 path.length (by omega) (by omega) hrf]
      exact ⟨_, rfl⟩
    | some f =>
      simp only
      rw [if_neg (fun hc => hno hc.2.2)]
      simp only
      rw [strip_trailing_some 92 M p1 path.length f (by omega) (by omega) hrf]
      exact ⟨_, rfl⟩

/-- The bodies of the loops of the two `combpath_win` do the same on an `out`
without `/` and without `:`. -/
theorem combpath_win_step_agree (to_ out : List Nat) (i : Nat) (h47 : 47 ∉ out)
    (h58 : 58 ∉ out) :
    combpath_win_step to_ out i = combpath_win_c_step to_ out i := by
  have hb1 : at_ to_ (i + 1) = 47 ∨ at_ to_ (i + 1) = 92 → to_.length - i ≥ 2 := by
    intro h
    have := at_lt_length_of_ne_zero to_ (i + 1) (by rcases h with h | h <;> rw [h] <;> decide)
    omega
  have hb2 : at_ to_ (i + 2) = 47 ∨ at_ to_ (i + 2) = 92 → to_.length - i ≥ 3 := by
    intro h
    have := at_lt_length_of_ne_zero to_ (i + 2) (by rcases h with h | h <;> rw [h] <;> decide)
    omega
  have hlast : out ≠ [] → at_ out (out.length - 1) ≠ 47 := by
    intro hne hc
    have hl : 0 < out.length := List.length_pos.mpr hne
    have := at_mem out (out.length - 1) (by omega)
    rw [hc] at this
    exact h47 this
  have hcolon : at_ out 1 ≠ 58 := by
    intro hc
    have := at_mem out 1 (at_lt_length_of_ne_zero out 1 (by rw [hc]; decide))
    rw [hc] at this
    exact h58 this
  simp only [combpath_win_step, combpath_win_c_step]
  by_cases c1 : at_ to_ i = 46 ∧ (at_ to_ (i + 1) = 47 ∨ at_ to_ (i + 1) = 92)
  · rw [if_pos ⟨hb1 c1.2, c1⟩, if_pos c1]
  · rw [if_neg (fun h => c1 h.2), if_neg c1]
    by_cases c2 : out = []
    · rw [if_pos (Or.inl c2), if_pos (Or.inl (by rw [c2]; rfl))]
    · have c2' : ¬ (out = [] ∨ out.length = 2 ∧ isalpha (at_ out 0) = true ∧ at_ out 1 = 58) :=
        fun h => h.elim c2 (fun h => hcolon h.2.2)
      have c2b : ¬ (out.length = 0 ∨
          out.length = 2 ∧ isalpha (at_ out 0) = true ∧ at_ out 1 = 58) :=
        fun h => h.elim (fun h => c2 (List.length_eq_zero.mp h)) (fun h => hcolon h.2.2)
      rw [if_neg c2', if_neg c2b]
      by_cases c3 : at_ to_ i = 46 ∧ at_ to_ (i + 1) = 46 ∧
          (at_ to_ (i + 2) = 47 ∨ at_ to_ (i + 2) = 92)
      · rw [if_pos ⟨hb2 c3.2.2, c3⟩, if_pos c3]
        by_cases c4 : out.length ≥ 3 ∧ at_ out (out.length - 1) = 92 ∧
            at_ out (out.length - 2) = 46 ∧ at_ out (out.length - 3) = 46
        · rw [if_pos ⟨c4.1, Or.inr c4.2.1, c4.2.2⟩, if_pos c4]
        · have c4' : ¬ (out.length ≥ 3 ∧
              (at_ out (out.length - 1) = 47 ∨ at_ out (out.length - 1) = 92) ∧
              at_ out (out.length - 2) = 46 ∧ at_ out (out.length - 3) = 46) :=
            fun h => c4 ⟨h.1, h.2.1.resolve_left (hlast c2), h.2.2⟩
          rw [if_neg c4', if_neg c4]
          by_cases c5 : out.length > 1
          · have c5' : out.length > 1 ∧
                ¬ (out.length = 3 ∧ isalpha (at_ out 0) = true ∧ at_ out 1 = 58) :=
              ⟨c5, fun h => hcolon h.2.2⟩
            rw [if_pos c5', if_pos c5]
            have hcongr : rfind_if (fun c => c == 47 || c == 92 || c == 58) out (out.length - 2) =
                rfind_if (fun c => c == 92) out (out.length - 2) := by
              apply rfind_if_congr
              intro x hx
              have x47 : x ≠ 47 := fun e => h47 (e ▸ hx)
              have x58 : x ≠ 58 := fun e => h58 (e ▸ hx)
              show (x == 47 || x == 92 || x == 58) = (x == 92)
              have e1 : (x == 47) = false := by simpa using x47
              have e2 : (x == 58) = false := by simpa using x58
              rw [e1, e2, Bool.false_or, Bool.or_false]
            rw [hcongr]
            exact back_out_agree 92 out _ out.length c5 (by omega)
          · rw [if_neg (fun h => c5 h.1), if_neg c5]
      · rw [if_neg (fun h => c3 h.2), if_neg c3]

theorem skip_slashes_win_spec (to_ : List Nat) (rest : List Nat) :
    ∀ j, to_.drop j = rest →
      (at_ to_ (skip_slashes_win rest j) ≠ 47 ∧ at_ to_ (skip_slashes_win rest j) ≠ 92) ∧
      j ≤ skip_slashes_win rest j ∧
      (j ≤ to_.length → skip_slashes_win rest j ≤ to_.length) := by
  induction rest with
  | nil =>
    intro j h
    rw [skip_slashes_win]
    refine ⟨?_, le_refl _, fun h => h⟩
    rw [at_drop_nil to_ j h]
    decide
  | cons c r ih =>
    intro j h
    obtain ⟨h1, h2, h3⟩ := at_drop_facts to_ j c r h
    rw [skip_slashes_win]
    split_ifs with hc
    · obtain ⟨k1, k2, k3⟩ := ih (j + 1) h3
      exact ⟨k1, by omega, fun _ => k3 (by omega)⟩
    · rw [not_or] at hc
      exact ⟨by rw [h2]; exact hc, le_refl _, fun h => h⟩

/-- Every pass of the loop of `combpath_win` that does not break moves `i`
forward inside `to`, keeps a part of `out` from its start, and stops at a
character that is no slash. -/
theorem combpath_win_step_cont (to_ out out1 : List Nat) (i i1 : Nat)
    (h : combpath_win_step to_ out i = .cont out1 i1) :
    i < i1 ∧ i1 ≤ to_.length ∧ (at_ to_ i1 ≠ 47 ∧ at_ to_ i1 ≠ 92) ∧
      ∃ n, out1 = out.take n := by
  simp only [combpath_win_step] at h
  split_ifs at h with c1 c2 c3 c4 c5
  · simp only [Step.cont.injEq] at h
    obtain ⟨s1, s2, s3⟩ := skip_slashes_win_spec to_ _ (i + 2) rfl
    rw [← h.2]
    exact ⟨by omega, s3 (by omega), s1, out.length, by rw [← h.1, List.take_length]⟩
  · obtain ⟨s1, s2, s3⟩ := skip_slashes_win_spec to_ _ (i + 3) rfl
    cases hr : rfind_if (fun c => c == 47 || c == 92 || c == 58) out (out.length - 2) with
    | none =>
      rw [hr] at h
      simp only [Step.cont.injEq] at h
      rw [← h.2]
      exact ⟨by omega, s3 (by omega), s1, 0, by rw [← h.1, List.take_zero]⟩
    | some f =>
      rw [hr] at h
      simp only [Step.cont.injEq] at h
      rw [← h.2]
      exact ⟨by omega, s3 (by omega), s1, f + 1, h.1.symm⟩
  · simp only [Step.cont.injEq] at h
    obtain ⟨s1, s2, s3⟩ := skip_slashes_win_spec to_ _ (i + 3) rfl
    rw [← h.2]
    exact ⟨by omega, s3 (by omega), s1, out.length, by rw [← h.1, List.take_length]⟩

/-- The counterexample to C25: from `c:/x` and `../y` the `combpath_win` of
lib/yasmx/file.cpp keeps the drive and its root and returns `c:\y`, while the
`combpath_win` of libyasm/file.cpp backs out past them and returns `y`. -/
theorem combpath_win_drive_differs :
    0 ∉ [99, 58, 47, 120] ∧ 0 ∉ [46, 46, 47, 121] ∧
    combpath_win [99, 58, 47, 120] [46, 46, 47, 121] = .value [99, 58, 92, 121] ∧
    combpath_win_c [99, 58, 47, 120] [46, 46, 47, 121] = [121] ∧
    combpath_win [99, 58, 47, 120] [46, 46, 47, 121] ≠
      .value (combpath_win_c [99, 58, 47, 120] [46, 46, 47, 121]) := by
  decide

/-- C25, amended: for every pair of strings `from` and `to` without NUL such
that `from` contains no `:` or `to` is absolute (it begins with `/`, `\` or a
drive letter), `combpath_win` of libyasm/file.cpp and `combpath_win` of
lib/yasmx/file.cpp return the same path.  The loop of the latter ends by a
`break`: more fuel does not change its result. -/
theorem combpath_win_agree (from_ to_ : List Nat) (_hfrom : 0 ∉ from_) (_hto : 0 ∉ to_)
    (h : 58 ∉ from_ ∨
      ((isalpha (at_ to_ 0) = true ∧ at_ to_ 1 = 58) ∨ at_ to_ 0 = 47 ∨ at_ to_ 0 = 92)) :
    combpath_win from_ to_ = .value (combpath_win_c from_ to_) ∧
    (∀ out k,
      run_loop (combpath_win_step to_) (to_.length + 1 + k) out 0 =
        run_loop (combpath_win_step to_) (to_.length + 1) out 0) := by
  have hfuel : ∀ out k,
      run_loop (combpath_win_step to_) (to_.length + 1 + k) out 0 =
        run_loop (combpath_win_step to_) (to_.length + 1) out 0 := fun out k =>
    (run_loop_fuel (combpath_win_step to_) to_.length
      (fun o i o1 i1 hs => by
        obtain ⟨k1, k2, _, _⟩ := combpath_win_step_cont to_ o o1 i i1 hs
        exact ⟨k1, k2⟩)
      (to_.length + 1) out 0 k (le_refl _)).1
  refine ⟨?_, hfuel⟩
  by_cases habs : (isalpha (at_ to_ 0) = true ∧ at_ to_ 1 = 58) ∨ at_ to_ 0 = 47 ∨
      at_ to_ 0 = 92
  · have habs' : (to_.length ≥ 2 ∧ isalpha (at_ to_ 0) = true ∧ at_ to_ 1 = 58) ∨
        at_ to_ 0 = 47 ∨ at_ to_ 0 = 92 := by
      rcases habs with h1 | h1
      · left
        have := at_lt_length_of_ne_zero to_ 1 (by rw [h1.2]; decide)
        exact ⟨by omega, h1⟩
      · exact Or.inr h1
    simp only [combpath_win, combpath_win_c]
    rw [if_pos habs', if_pos habs, copy_combine_win_eq_unique]
  · have h58 : 58 ∉ from_ := h.resolve_right habs
    have habs' : ¬ ((to_.length ≥ 2 ∧ isalpha (at_ to_ 0) = true ∧ at_ to_ 1 = 58) ∨
        at_ to_ 0 = 47 ∨ at_ to_ 0 = 92) :=
      fun hc => habs (hc.elim (fun h1 => Or.inl h1.2) Or.inr)
    have hto0 : at_ to_ 0 ≠ 47 ∧ at_ to_ 0 ≠ 92 :=
      ⟨fun e => habs (Or.inr (Or.inl e)), fun e => habs (Or.inr (Or.inr e))⟩
    obtain ⟨tail, hsp⟩ := splitpath_win_agree from_ h58
    simp only [combpath_win, combpath_win_c]
    rw [if_neg habs', if_neg habs, hsp]
    simp only
    rw [copy_combine_win_eq_unique, copy_combine_win_eq_unique]
    have hH47 : 47 ∉ unique_adjacent 92
        ((from_.take (splitpath_win_c from_).1).map (fun c => if c = 47 then 92 else c)) :=
      fun hm => not_mem_map_slash _ ((unique_adjacent_sublist 92 _).subset hm)
    have hH58 : 58 ∉ unique_adjacent 92
        ((from_.take (splitpath_win_c from_).1).map (fun c => if c = 47 then 92 else c)) :=
      fun hm => colon_not_mem_map_slash _ (fun hm2 => h58 (List.mem_of_mem_take hm2))
        ((unique_adjacent_sublist 92 _).subset hm)
    have hHc := unique_adjacent_chain 92
      ((from_.take (splitpath_win_c from_).1).map (fun c => if c = 47 then 92 else c))
    generalize unique_adjacent 92
      ((from_.take (splitpath_win_c from_).1).map (fun c => if c = 47 then 92 else c)) = head
      at hH47 hH58 hHc
    have hcond : (head ≠ [] ∧ at_ head (head.length - 1) ≠ 47 ∧
        at_ head (head.length - 1) ≠ 92 ∧
        ¬ (head.length = 2 ∧ isalpha (at_ head 0) = true ∧ at_ head 1 = 58)) ↔
        (head.length > 0 ∧ at_ head (head.length - 1) ≠ 92 ∧
        ¬ (head.length = 2 ∧ isalpha (at_ head 0) = true ∧ at_ head 1 = 58)) := by
      constructor
      · exact fun hc => ⟨List.length_pos.mpr hc.1, hc.2.2⟩
      · intro hc
        have hne : head ≠ [] := List.length_pos.mp hc.1
        refine ⟨hne, ?_, hc.2⟩
        intro e
        have := at_mem head (head.length - 1) (by omega)
        rw [e] at this
        exact hH47 this
    rw [if_congr hcond rfl rfl]
    have hout : List.Chain' (fun a b => ¬ (a = 92 ∧ b = 92))
        (if head.length > 0 ∧ at_ head (head.length - 1) ≠ 92 ∧
            ¬ (head.length = 2 ∧ isalpha (at_ head 0) = true ∧ at_ head 1 = 58) then
          head ++ [92] else head) ∧
        47 ∉ (if head.length > 0 ∧ at_ head (head.length - 1) ≠ 92 ∧
            ¬ (head.length = 2 ∧ isalpha (at_ head 0) = true ∧ at_ head 1 = 58) then
          head ++ [92] else head) ∧
        58 ∉ (if head.length > 0 ∧ at_ head (head.length - 1) ≠ 92 ∧
            ¬ (head.length = 2 ∧ isalpha (at_ head 0) = true ∧ at_ head 1 = 58) then
          head ++ [92] else head) := by
      split_ifs with hc
      · refine ⟨chain_append_one 92 92 head hHc hc.2.1, ?_, ?_⟩
        · simp [hH47]
        · simp [hH58]
      · exact ⟨hHc, hH47, hH58⟩
    generalize (if head.length > 0 ∧ at_ head (head.length - 1) ≠ 92 ∧
        ¬ (head.length = 2 ∧ isalpha (at_ head 0) = true ∧ at_ head 1 = 58) then
      head ++ [92] else head) = out at hout
    have hrun := run_loop_congr (combpath_win_step to_) (combpath_win_c_step to_)
      (fun o _ => 47 ∉ o ∧ 58 ∉ o)
      (fun o i o1 i1 hp hs => by
        obtain ⟨_, _, _, n, k4⟩ := combpath_win_step_cont to_ o o1 i i1 hs
        rw [k4]
        exact ⟨fun hm => hp.1 (List.mem_of_mem_take hm),
          fun hm => hp.2 (List.mem_of_mem_take hm)⟩)
      (fun o i hp => combpath_win_step_agree to_ o i hp.1 hp.2)
      (to_.length + 1) out 0 ⟨hout.2.1, hout.2.2⟩
    rw [← hrun]
    have hinv := run_loop_inv (combpath_win_step to_)
      (fun o i => (List.Chain' (fun a b => ¬ (a = 92 ∧ b = 92)) o ∧ 47 ∉ o) ∧
        (at_ to_ i ≠ 47 ∧ at_ to_ i ≠ 92))
      (fun o i o1 i1 hp hs => by
        obtain ⟨_, _, k3, n, k4⟩ := combpath_win_step_cont to_ o o1 i i1 hs
        rw [k4]
        exact ⟨⟨hp.1.1.take n, fun hm => hp.1.2 (List.mem_of_mem_take hm)⟩, k3⟩)
      (to_.length + 1) out 0 ⟨⟨hout.1, hout.2.1⟩, hto0⟩
    generalize run_loop (combpath_win_step to_) (to_.length + 1) out 0 = r at hinv
    rw [List.map_append, map_slash_of_not_mem r.1 hinv.1.2]
    have hhead : ((to_.drop r.2).map (fun c => if c = 47 then 92 else c)).head? ≠ some 92 := by
      cases hd : to_.drop r.2 with
      | nil => simp
      | cons a tl =>
        obtain ⟨_, ha, _⟩ := at_drop_facts to_ r.2 a tl hd
        rw [List.map_cons, List.head?_cons]
        intro hc
        simp only [Option.some.injEq] at hc
        rcases (to_backslash_eq a).mp hc with e | e
        · exact hinv.2.1 (ha.trans e)
        · exact hinv.2.2 (ha.trans e)
    rw [unique_adjacent_append 92 _ _ hinv.1.1 hhead]

theorem combpath_win_agree_witness :
    combpath_win [97, 47, 98, 92, 99] [46, 46, 92, 46, 47, 47, 120] =
      .value (combpath_win_c [97, 47, 98, 92, 99] [46, 46, 92, 46, 47, 47, 120]) :=
  (combpath_win_agree [97, 47, 98, 92, 99] [46, 46, 92, 46, 47, 47, 120] (by decide)
    (by decide) (Or.inl (by decide))).1

end yasm

namespace yasm

/-! ## `combpath_win` and the drive letter -/

/-- C26, code bug: from `c:./f` and the relative `y`, `splitpath_win` of
lib/yasmx/file.cpp strips the `.\` after the drive, is left with the head
`c:`, and calls `head.erase(3)` on these two characters, which throws
`std::out_of_range`; `combpath_win` leaves through that exception and returns
no path beginning with `c:`.  The `combpath_win` of libyasm/file.cpp returns
`c:y` from the same strings. -/
theorem combpath_win_drive_dot_throws :
    splitpath_win [99, 58, 46, 47, 102] = .out_of_range ∧
    combpath_win [99, 58, 46, 47, 102] [121] = .out_of_range ∧
    combpath_win_c [99, 58, 46, 47, 102] [121] = [99, 58, 121] := by
  decide

theorem isalpha_bounds (x : Nat) (h : isalpha x = true) :
    (65 ≤ x ∧ x ≤ 90) ∨ (97 ≤ x ∧ x ≤ 122) := by
  simpa [isalpha] using h

theorem unique_adjacent_drive (x : Nat) (t : List Nat) :
    ∃ t1, unique_adjacent 92 (x :: 58 :: t) = x :: 58 :: t1 := by
  rw [unique_adjacent_cons, unique_after_cons,
    if_neg (fun h => absurd h.2 (by decide))]
  exact ⟨_, rfl⟩

theorem take_drive (x : Nat) (t : List Nat) (n : Nat) (hn : 2 ≤ n) :
    ∃ t1, (x :: 58 :: t).take n = x :: 58 :: t1 := by
  obtain ⟨m, rfl⟩ : ∃ m, n = m + 2 := ⟨n - 2, by omega⟩
  exact ⟨t.take m, rfl⟩

theorem strip_dot_dir_drive (head : List Nat) (h1 : at_ head 1 = 58) (fuel : Nat) :
    ∀ len, 2 ≤ len → 2 ≤ strip_dot_dir 92 head fuel len := by
  induction fuel with
  | zero => intro len h; exact h
  | succ fuel ih =>
    intro len h
    rw [strip_dot_dir]
    split_ifs with hc
    · apply ih
      by_contra hlt
      have h23 : len = 2 ∨ len = 3 := by omega
      rcases h23 with e | e
      · rw [e] at hc
        have := hc.2.2.1
        rw [show 2 - 1 = 1 from rfl, h1] at this
        omega
      · rw [e] at hc
        have := hc.2.1
        rw [show 3 - 2 = 1 from rfl, h1] at this
        omega
    · exact h

/-- The head that `splitpath_win` returns for a path with a drive letter
begins with the drive letter and its colon. -/
theorem splitpath_win_drive (x : Nat) (rest : List Nat) (hx : isalpha x = true)
    (head tail : List Nat) (h : splitpath_win (x :: 58 :: rest) = .value (head, tail)) :
    ∃ t, head = x :: 58 :: t := by
  have hxb := isalpha_bounds x hx
  have hx47 : x ≠ 47 := by omega
  simp only [splitpath_win] at h
  cases hr : rfind_if isslash (x :: 58 :: rest) ((x :: 58 :: rest).length - 1) with
  | none =>
    rw [hr] at h
    simp only at h
    have hc : (x :: 58 :: rest).length ≥ 2 ∧ isalpha (at_ (x :: 58 :: rest) 0) = true ∧
        at_ (x :: 58 :: rest) 1 = 58 := ⟨by simp, hx, rfl⟩
    rw [if_pos hc] at h
    simp only [StrResult.value.injEq, Prod.mk.injEq] at h
    exact ⟨[], h.1.symm⟩
  | some found =>
    rw [hr] at h
    simp only at h
    obtain ⟨_, f2, f3, _⟩ := rfind_if_some _ _ _ found hr
    have hf : 2 ≤ found := by
      by_contra hlt
      have h01 : found = 0 ∨ found = 1 := by omega
      rcases h01 with e | e
      · rw [e] at f3
        have : isslash x = true := f3
        simp [isslash] at this
        omega
      · rw [e] at f3
        have : isslash 58 = true := f3
        simp [isslash] at this
    obtain ⟨t0, ht0⟩ := take_drive x rest (found + 1) (by omega)
    rw [ht0, List.map_cons, List.map_cons, if_neg hx47,
      if_neg (by decide : ¬ (58 : Nat) = 47)] at h
    generalize List.map (fun c => if c = 47 then 92 else c) t0 = t1 at h
    have hs := strip_dot_dir_drive (x :: 58 :: t1) rfl (x :: 58 :: t1).length
      (x :: 58 :: t1).length (by simp)
    obtain ⟨t2, ht2⟩ := take_drive x t1 _ hs
    rw [ht2] at h
    cases hr2 : rfind_if (fun c => c != 92) (x :: 58 :: t2) ((x :: 58 :: t2).length - 1) with
    | none =>
      rw [hr2] at h
      simp only [StrResult.value.injEq, Prod.mk.injEq] at h
      obtain ⟨t3, ht3⟩ := unique_adjacent_drive x t2
      exact ⟨t3, by rw [← h.1, ht3]⟩
    | some f1 =>
      rw [hr2] at h
      simp only at h
      obtain ⟨g1, g2, g3, g4⟩ := rfind_if_some _ _ _ f1 hr2
      have hf1 : 1 ≤ f1 := by
        by_contra hlt
        have h58 : ((58 : Nat) != 92) = false := g4 1 (by omega) (by simp) (by simp)
        exact absurd h58 (by decide)
      split_ifs at h with hc1 hc2
      · simp only [StrResult.value.injEq, Prod.mk.injEq] at h
        obtain ⟨t3, ht3⟩ := take_drive x t2 (f1 + 2) (by omega)
        rw [ht3] at h
        obtain ⟨t4, ht4⟩ := unique_adjacent_drive x t3
        exact ⟨t4, by rw [← h.1, ht4]⟩
      · simp only [StrResult.value.injEq, Prod.mk.injEq] at h
        obtain ⟨t3, ht3⟩ := take_drive x t2 (f1 + 1) (by omega)
        rw [ht3] at h
        obtain ⟨t4, ht4⟩ := unique_adjacent_drive x t3
        exact ⟨t4, by rw [← h.1, ht4]⟩

/-- A pass of the loop of `combpath_win` keeps the drive letter and its colon
at the start of `out`. -/
theorem combpath_win_step_drive (to_ : List Nat) (x : Nat) (hx : isalpha x = true)
    (t : List Nat) (i : Nat) (out1 : List Nat) (i1 : Nat)
    (h : combpath_win_step to_ (x :: 58 :: t) i = .cont out1 i1) :
    ∃ t1, out1 = x :: 58 :: t1 := by
  simp only [combpath_win_step] at h
  split_ifs at h with c1 c2 c3 c4 c5
  · simp only [Step.cont.injEq] at h
    exact ⟨t, h.1.symm⟩
  · have hlen : 3 ≤ (x :: 58 :: t).length := by
      by_contra hlt
      have ht : t = [] := by
        simp only [List.length_cons] at hlt
        exact List.length_eq_zero.mp (by omega)
      subst ht
      exact c2 (Or.inr ⟨rfl, hx, rfl⟩)
    cases hr : rfind_if (fun c => c == 47 || c == 92 || c == 58) (x :: 58 :: t)
        ((x :: 58 :: t).length - 2) with
    | none =>
      exfalso
      have h58 : ((58 : Nat) == 47 || (58 : Nat) == 92 || (58 : Nat) == 58) = false :=
        rfind_if_none _ _ _ hr 1 (by omega) (by simp)
      exact absurd h58 (by decide)
    | some f =>
      rw [hr] at h
      simp only [Step.cont.injEq] at h
      obtain ⟨g1, g2, _, g4⟩ := rfind_if_some _ _ _ f hr
      have hf : 1 ≤ f := by
        by_contra hlt
        have h58 : ((58 : Nat) == 47 || (58 : Nat) == 92 || (58 : Nat) == 58) = false :=
          g4 1 (by omega) (by omega) (by simp)
        exact absurd h58 (by decide)
      obtain ⟨t1, ht1⟩ := take_drive x t (f + 1) (by omega)
      exact ⟨t1, by rw [← h.1, ht1]⟩
  · simp only [Step.cont.injEq] at h
    exact ⟨t, h.1.symm⟩

/-- Apart from the exception that `splitpath_win` can throw, the drive
stays: when `from` begins with a drive letter and its colon, `to` is relative
and `combpath_win` of lib/yasmx/file.cpp returns a path, the path begins with
the same drive letter and colon. -/
theorem combpath_win_keeps_drive (x : Nat) (rest to_ r : List Nat) (hx : isalpha x = true)
    (hrel : ¬ ((to_.length ≥ 2 ∧ isalpha (at_ to_ 0) = true ∧ at_ to_ 1 = 58) ∨
      at_ to_ 0 = 47 ∨ at_ to_ 0 = 92))
    (h : combpath_win (x :: 58 :: rest) to_ = .value r) : ∃ t, r = x :: 58 :: t := by
  have hxb := isalpha_bounds x hx
  have hx47 : x ≠ 47 := by omega
  simp only [combpath_win] at h
  rw [if_neg hrel] at h
  cases hs : splitpath_win (x :: 58 :: rest) with
  | out_of_range =>
    rw [hs] at h
    cases h
  | value ht =>
    obtain ⟨head, tail⟩ := ht
    rw [hs] at h
    simp only [StrResult.value.injEq] at h
    obtain ⟨t0, ht0⟩ := splitpath_win_drive x rest hx head tail hs
    have hout : ∃ t1, (if head ≠ [] ∧ at_ head (head.length - 1) ≠ 47 ∧
        at_ head (head.length - 1) ≠ 92 ∧
        ¬ (head.length = 2 ∧ isalpha (at_ head 0) = true ∧ at_ head 1 = 58) then
        head ++ [92] else head) = x :: 58 :: t1 := by
      split_ifs with hc
      · exact ⟨t0 ++ [92], by rw [ht0]; rfl⟩
      · exact ⟨t0, ht0⟩
    generalize (if head ≠ [] ∧ at_ head (head.length - 1) ≠ 47 ∧
        at_ head (head.length - 1) ≠ 92 ∧
        ¬ (head.length = 2 ∧ isalpha (at_ head 0) = true ∧ at_ head 1 = 58) then
        head ++ [92] else head) = out at h hout
    have hinv := run_loop_inv (combpath_win_step to_) (fun o _ => ∃ t1, o = x :: 58 :: t1)
      (fun o i o1 i1 hp hstep => by
        obtain ⟨t1, rfl⟩ := hp
        exact combpath_win_step_drive to_ x hx t1 i o1 i1 hstep)
      (to_.length + 1) out 0 hout
    obtain ⟨t2, ht2⟩ := hinv
    rw [ht2, List.cons_append, List.cons_append, List.map_cons, List.map_cons, if_neg hx47,
      if_neg (by decide : ¬ (58 : Nat) = 47)] at h
    obtain ⟨t3, ht3⟩ := unique_adjacent_drive x
      (List.map (fun c => if c = 47 then 92 else c) (t2 ++ List.drop
        (run_loop (combpath_win_step to_) (to_.length + 1) out 0).2 to_))
    exact ⟨t3, by rw [← h, ht3]⟩

theorem combpath_win_keeps_drive_witness :
    ∃ t, [99, 58, 92, 121] = 99 :: 58 :: t :=
  combpath_win_keeps_drive 99 [47, 120] [46, 46, 47, 121] [99, 58, 92, 121] (by decide)
    (by decide) (by decide)

end yasm
